import Mathlib

/-!
A verification development for the `spine` graph library and its API layer.

The Go code is shallowly embedded:

* Go maps (`map[string]T`) are modelled as association lists
  `List (String × T)`; the list order models the (arbitrary) iteration
  order of a Go map, so determinism statements quantify over permutations.
* Go `float64` weights and numeric metadata are modelled as exact
  rationals `ℚ`; all concrete inputs in the claims use small integral
  values on which float64 arithmetic is exact.
* Fallible Go functions returning `error` are modelled with
  `Except String` / `Option String`.
-/

namespace Spine

/-- Lookup in an association list, modelling Go map indexing `m[k]`
(`none` plays the role of "key absent"). -/
def alookup {α : Type} : List (String × α) → String → Option α
  | [], _ => none
  | (k', v) :: rest, k => if k' = k then some v else alookup rest k

/-- Update-or-append, modelling Go map assignment `m[k] = v`. -/
def aset {α : Type} : List (String × α) → String → α → List (String × α)
  | [], k, v => [(k, v)]
  | (k', v') :: rest, k, v =>
    if k' = k then (k, v) :: rest else (k', v') :: aset rest k v

/-- Key removal, modelling Go `delete(m, k)` (keys are unique in every
reachable map, so removing the first occurrence is exact). -/
def aerase {α : Type} : List (String × α) → String → List (String × α)
  | [], _ => []
  | (k', v') :: rest, k =>
    if k' = k then rest else (k', v') :: aerase rest k

/-- Keys of an association list. -/
def akeys {α : Type} (l : List (String × α)) : List String :=
  l.map Prod.fst

/-- The association list has pairwise-distinct keys (invariant of every
map reachable through the Go API). -/
def NodupKeys {α : Type} (l : List (String × α)) : Prop :=
  (akeys l).Nodup

/-- Two-level lookup, modelling `m[k1][k2]` (a read through a missing
outer key sees the nil map, i.e. `none`). -/
def alookup2 {α : Type} (l : List (String × List (String × α)))
    (k1 k2 : String) : Option α :=
  match alookup l k1 with
  | none => none
  | some m => alookup m k2

/-- Two-level update `m[k1][k2] = v`.  In Go this requires `m[k1]` to be
a non-nil map; every call site guarantees the entry exists (created by
`AddNode`), and on a missing entry we write into a fresh empty map. -/
def aset2 {α : Type} (l : List (String × List (String × α)))
    (k1 k2 : String) (v : α) : List (String × List (String × α)) :=
  aset l k1 (aset ((alookup l k1).getD []) k2 v)

/-- Two-level deletion `delete(m[k1], k2)`; deleting through a missing
outer key is a no-op (Go: delete on a nil map). -/
def aerase2 {α : Type} (l : List (String × List (String × α)))
    (k1 k2 : String) : List (String × List (String × α)) :=
  match alookup l k1 with
  | none => l
  | some m => aset l k1 (aerase m k2)

section ALEmmas

variable {α : Type}

theorem alookup_aset (l : List (String × α)) (k : String) (v : α) :
    alookup (aset l k v) k = some v := by
  induction l with
  | nil => simp [aset, alookup]
  | cons p rest ih =>
    obtain ⟨k', v'⟩ := p
    by_cases h : k' = k
    · simp [aset, h, alookup]
    · simp [aset, h, alookup, ih]

theorem alookup_aset_ne (l : List (String × α)) (k k₀ : String) (v : α)
    (h : k ≠ k₀) : alookup (aset l k v) k₀ = alookup l k₀ := by
  induction l with
  | nil => simp [aset, alookup, h]
  | cons p rest ih =>
    obtain ⟨k', v'⟩ := p
    by_cases h' : k' = k
    · subst h'; simp [aset, alookup, h]
    · simp [aset, h', alookup, ih]

theorem alookup_eq_none_of_not_mem_akeys (l : List (String × α)) (k : String)
    (h : k ∉ akeys l) : alookup l k = none := by
  induction l with
  | nil => rfl
  | cons p rest ih =>
    obtain ⟨k', v'⟩ := p
    simp only [akeys, List.map_cons, List.mem_cons, not_or] at h
    have hne : ¬ k' = k := fun hh => h.1 hh.symm
    simp only [alookup, if_neg hne, ih h.2]

theorem mem_akeys_of_alookup (l : List (String × α)) (k : String)
    (h : alookup l k ≠ none) : k ∈ akeys l := by
  by_contra hk
  exact h (alookup_eq_none_of_not_mem_akeys l k hk)

theorem alookup_aerase (l : List (String × α)) (k : String)
    (hnd : NodupKeys l) : alookup (aerase l k) k = none := by
  induction l with
  | nil => simp [aerase, alookup]
  | cons p rest ih =>
    obtain ⟨k', v'⟩ := p
    simp only [NodupKeys, akeys, List.map_cons, List.nodup_cons] at hnd
    by_cases h : k' = k
    · subst h
      simp only [aerase, if_pos rfl]
      exact alookup_eq_none_of_not_mem_akeys rest k' hnd.1
    · simp only [aerase, if_neg h, alookup, if_neg h]
      exact ih hnd.2

theorem alookup_aerase_ne (l : List (String × α)) (k k₀ : String)
    (h : k ≠ k₀) :
    alookup (aerase l k) k₀ = alookup l k₀ := by
  induction l with
  | nil => rfl
  | cons p rest ih =>
    obtain ⟨k', v'⟩ := p
    by_cases hk : k' = k
    · subst hk
      simp [aerase, alookup, if_neg h]
    · simp only [aerase, if_neg hk, alookup]
      by_cases hk0 : k' = k₀
      · simp [hk0]
      · simp only [if_neg hk0]
        exact ih

theorem mem_of_mem_aerase {α : Type} {l : List (String × α)} {k : String}
    {p : String × α} (h : p ∈ aerase l k) : p ∈ l := by
  induction l with
  | nil => simp [aerase] at h
  | cons q rest ih =>
    by_cases hk : q.1 = k
    · obtain ⟨q1, q2⟩ := q
      simp only [aerase, if_pos hk] at h
      exact List.mem_cons_of_mem _ h
    · obtain ⟨q1, q2⟩ := q
      simp only [aerase, if_neg hk] at h
      rcases List.mem_cons.mp h with rfl | h'
      · simp
      · exact List.mem_cons_of_mem _ (ih h')

theorem nodupKeys_aerase {α : Type} (l : List (String × α)) (k : String)
    (h : NodupKeys l) : NodupKeys (aerase l k) := by
  induction l with
  | nil => simpa [aerase] using h
  | cons q rest ih =>
    obtain ⟨q1, q2⟩ := q
    simp only [NodupKeys, akeys, List.map_cons, List.nodup_cons] at h
    by_cases hk : q1 = k
    · simpa only [aerase, if_pos hk] using h.2
    · simp only [aerase, if_neg hk]
      refine List.nodup_cons.mpr ⟨?_, ih h.2⟩
      intro hmem
      obtain ⟨p, hp, hpe⟩ := List.mem_map.mp hmem
      exact h.1 (List.mem_map.mpr ⟨p, mem_of_mem_aerase hp, hpe⟩)

theorem alookup_ne_none_of_mem_akeys {α : Type} (l : List (String × α))
    (k : String) (h : k ∈ akeys l) : alookup l k ≠ none := by
  induction l with
  | nil => simp [akeys] at h
  | cons q rest ih =>
    obtain ⟨q1, q2⟩ := q
    by_cases hk : q1 = k
    · simp [alookup, hk]
    · simp only [akeys, List.map_cons, List.mem_cons] at h
      rcases h with rfl | h'
      · exact absurd rfl hk
      · simp only [alookup, if_neg hk]
        exact ih h'

theorem mem_aset_elim {α : Type} {l : List (String × α)} {k : String}
    {v : α} {p : String × α} (h : p ∈ aset l k v) : p = (k, v) ∨ p ∈ l := by
  induction l with
  | nil => simpa [aset] using h
  | cons q rest ih =>
    obtain ⟨q1, q2⟩ := q
    by_cases hk : q1 = k
    · simp only [aset, if_pos hk] at h
      rcases List.mem_cons.mp h with rfl | h'
      · exact Or.inl rfl
      · exact Or.inr (List.mem_cons_of_mem _ h')
    · simp only [aset, if_neg hk] at h
      rcases List.mem_cons.mp h with rfl | h'
      · exact Or.inr (by simp)
      · rcases ih h' with h'' | h''
        · exact Or.inl h''
        · exact Or.inr (List.mem_cons_of_mem _ h'')

theorem akeys_aset (l : List (String × α)) (k : String) (v : α) :
    akeys (aset l k v) = if k ∈ akeys l then akeys l else akeys l ++ [k] := by
  induction l with
  | nil => simp [aset, akeys]
  | cons p rest ih =>
    obtain ⟨k', v'⟩ := p
    by_cases h : k' = k
    · subst h; simp [aset, akeys]
    · have hne : ¬ k = k' := fun hh => h hh.symm
      simp only [aset, if_neg h]
      simp only [akeys, List.map_cons] at ih ⊢
      rw [ih]
      simp only [List.mem_cons, hne, false_or]
      by_cases hm : k ∈ List.map Prod.fst rest <;> simp [hm]

theorem nodupKeys_aset (l : List (String × α)) (k : String) (v : α)
    (hnd : NodupKeys l) : NodupKeys (aset l k v) := by
  unfold NodupKeys at *
  rw [akeys_aset]
  by_cases hm : k ∈ akeys l
  · simpa [hm] using hnd
  · simp only [hm, if_false]
    simpa [List.nodup_append, hm] using hnd

theorem mem_of_alookup_eq_some (l : List (String × α)) (k : String) (v : α)
    (h : alookup l k = some v) : (k, v) ∈ l := by
  induction l with
  | nil => simp [alookup] at h
  | cons p rest ih =>
    obtain ⟨k', v'⟩ := p
    by_cases hk : k' = k
    · subst hk
      rw [alookup, if_pos rfl] at h
      cases h
      simp
    · simp only [alookup, if_neg hk] at h
      exact List.mem_cons_of_mem _ (ih h)

theorem alookup_eq_some_of_mem (l : List (String × α)) (k : String) (v : α)
    (hnd : NodupKeys l) (h : (k, v) ∈ l) : alookup l k = some v := by
  induction l with
  | nil => simp at h
  | cons p rest ih =>
    obtain ⟨k', v'⟩ := p
    simp only [NodupKeys, akeys, List.map_cons, List.nodup_cons] at hnd
    rcases List.mem_cons.mp h with heq | hmem
    · obtain ⟨h1, h2⟩ := Prod.mk.injEq .. ▸ heq
      subst h1; subst h2
      simp [alookup]
    · by_cases hk : k' = k
      · subst hk
        exact absurd (List.mem_map.mpr ⟨(k', v), hmem, rfl⟩) hnd.1
      · simp only [alookup, if_neg hk]
        exact ih hnd.2 hmem

end ALEmmas

/-! ### Insertion sort, modelling Go's `sort.Slice`/`sort.Strings`.

`lt` is the strict "less" callback handed to the sort.  All the uses in
`spine` sort by pairwise-distinct keys, so the sorted result is unique
and independent of the input order (this underlies the byte-determinism
of `Marshal`). -/

def insertWith {α : Type} (lt : α → α → Bool) (x : α) : List α → List α
  | [] => [x]
  | y :: ys => if lt x y then x :: y :: ys else y :: insertWith lt x ys

def sortWith {α : Type} (lt : α → α → Bool) : List α → List α
  | [] => []
  | x :: xs => insertWith lt x (sortWith lt xs)

section SortLemmas

variable {α K : Type} [LinearOrder K] {lt : α → α → Bool} {key : α → K}

theorem insertWith_perm (lt : α → α → Bool) (x : α) (l : List α) :
    (insertWith lt x l).Perm (x :: l) := by
  induction l with
  | nil => simp [insertWith]
  | cons y ys ih =>
    by_cases h : lt x y
    · simp [insertWith, h]
    · simp only [insertWith, if_neg h]
      exact ((ih.cons y).trans (List.Perm.swap x y ys))

theorem sortWith_perm (lt : α → α → Bool) (l : List α) :
    (sortWith lt l).Perm l := by
  induction l with
  | nil => simp [sortWith]
  | cons x xs ih =>
    exact (insertWith_perm lt x (sortWith lt xs)).trans (ih.cons x)

/-- Inserting into a strictly key-sorted list whose keys avoid `key x`
keeps it strictly key-sorted, when `lt` decides key-order. -/
theorem insertWith_pairwise
    (hlt : ∀ a b, lt a b = true ↔ key a < key b)
    (x : α) (l : List α)
    (hx : ∀ a ∈ l, key a ≠ key x)
    (hl : l.Pairwise (fun a b => key a < key b)) :
    (insertWith lt x l).Pairwise (fun a b => key a < key b) := by
  induction l with
  | nil => simp [insertWith]
  | cons y ys ih =>
    by_cases h : lt x y
    · simp only [insertWith, if_pos h]
      refine List.Pairwise.cons ?_ hl
      intro b hb
      rcases List.mem_cons.mp hb with rfl | hb'
      · exact (hlt x b).mp h
      · exact lt_trans ((hlt x y).mp h) ((List.pairwise_cons.mp hl).1 b hb')
    · simp only [insertWith, if_neg h]
      have hyx : key y < key x := by
        rcases lt_trichotomy (key x) (key y) with hc | hc | hc
        · exact absurd ((hlt x y).mpr hc) (by simpa using h)
        · exact absurd hc.symm (hx y (by simp))
        · exact hc
      refine List.Pairwise.cons ?_ ?_
      · intro b hb
        have hmem := (insertWith_perm lt x ys).mem_iff.mp hb
        rcases List.mem_cons.mp hmem with rfl | hb'
        · exact hyx
        · exact (List.pairwise_cons.mp hl).1 b hb'
      · exact ih (fun a ha => hx a (List.mem_cons_of_mem _ ha))
          (List.pairwise_cons.mp hl).2

/-- Sorting a list with pairwise-distinct keys produces a strictly
key-sorted list. -/
theorem sortWith_pairwise
    (hlt : ∀ a b, lt a b = true ↔ key a < key b)
    (l : List α) (hnd : (l.map key).Nodup) :
    (sortWith lt l).Pairwise (fun a b => key a < key b) := by
  induction l with
  | nil => simp [sortWith]
  | cons x xs ih =>
    simp only [List.map_cons, List.nodup_cons] at hnd
    refine insertWith_pairwise hlt x (sortWith lt xs) ?_ (ih hnd.2)
    intro a ha hkey
    exact hnd.1 (hkey ▸ List.mem_map.mpr
      ⟨a, (sortWith_perm lt xs).mem_iff.mp ha, rfl⟩)

/-- Two permuted strictly key-sorted lists are equal. -/
theorem eq_of_perm_of_pairwise_key
    {l₁ l₂ : List α} (hp : l₁.Perm l₂)
    (h₁ : l₁.Pairwise (fun a b => key a < key b))
    (h₂ : l₂.Pairwise (fun a b => key a < key b)) : l₁ = l₂ := by
  induction l₁ generalizing l₂ with
  | nil => simpa using hp.nil_eq
  | cons x xs ih =>
    cases l₂ with
    | nil => exact absurd hp.symm (by simp)
    | cons y ys =>
      have hxy : x = y := by
        by_contra hne
        have hxmem : x ∈ y :: ys := hp.mem_iff.mp (by simp)
        have hymem : y ∈ x :: xs := hp.symm.mem_iff.mp (by simp)
        rcases List.mem_cons.mp hxmem with rfl | hx'
        · exact hne rfl
        · rcases List.mem_cons.mp hymem with rfl | hy'
          · exact hne rfl
          · have h1 : key x < key y := (List.pairwise_cons.mp h₁).1 y hy'
            have h2 : key y < key x := (List.pairwise_cons.mp h₂).1 x hx'
            exact absurd h1 (not_lt_of_lt h2)
      subst hxy
      have := ih (hp.cons_inv) (List.pairwise_cons.mp h₁).2
        (List.pairwise_cons.mp h₂).2
      rw [this]

/-- `sortWith` is invariant under permutation of its input when the keys
are pairwise distinct: the Go `sort.Slice` calls in `Marshal` therefore
erase the map-iteration order. -/
theorem sortWith_eq_of_perm
    (hlt : ∀ a b, lt a b = true ↔ key a < key b)
    {l₁ l₂ : List α} (hp : l₁.Perm l₂) (hnd : (l₁.map key).Nodup) :
    sortWith lt l₁ = sortWith lt l₂ := by
  have h1 := sortWith_pairwise hlt l₁ hnd
  have h2 := sortWith_pairwise hlt l₂ ((hp.map key).nodup_iff.mp hnd)
  exact eq_of_perm_of_pairwise_key
    ((sortWith_perm lt l₁).trans (hp.trans (sortWith_perm lt l₂).symm))
    h1 h2

/-- Sorting an already strictly key-sorted list is the identity. -/
theorem sortWith_eq_self_of_pairwise
    (hlt : ∀ a b, lt a b = true ↔ key a < key b)
    {l : List α} (h : l.Pairwise (fun a b => key a < key b)) :
    sortWith lt l = l := by
  have hnd : (l.map key).Nodup :=
    List.Pairwise.map key (fun a b hab => ne_of_lt hab) h
  exact eq_of_perm_of_pairwise_key (sortWith_perm lt l)
    (sortWith_pairwise hlt l hnd) h

end SortLemmas

/-! ### The metadata store (`store.go`) -/

/-- `FieldType` defines the expected type for a schema field. -/
inductive FieldType where
  | string
  | int
  | float
  | bool
  | bytes
  | slice
  | map
  | any
deriving DecidableEq

/-- `FieldDef` defines the type and requirement for a schema field. -/
structure FieldDef where
  type : FieldType
  required : Bool
deriving DecidableEq

/-- `Store` is a key-value metadata store with an optional schema.  The
Go `entries map[string]any` is an association list; the Go `schema
Schema` map is `none` when nil. -/
structure Store (V : Type) where
  entries : List (String × V)
  schema : Option (List (String × FieldDef))
deriving DecidableEq

/-- `NewStore` creates a new empty Store. -/
def NewStore {V : Type} : Store V := ⟨[], none⟩

/-- `Store.Set` adds or updates a key-value pair. -/
def Store.Set {V : Type} (s : Store V) (key : String) (value : V) : Store V :=
  { s with entries := aset s.entries key value }

/-- `Store.Get` returns the value for the given key and whether it exists. -/
def Store.Get {V : Type} (s : Store V) (key : String) : Option V :=
  alookup s.entries key

/-- `Store.Delete` removes a key; the Bool reports whether it existed. -/
def Store.Delete {V : Type} (s : Store V) (key : String) : Store V × Bool :=
  match alookup s.entries key with
  | some _ => ({ s with entries := aerase s.entries key }, true)
  | none => (s, false)

/-- `Store.Len` returns the number of entries. -/
def Store.Len {V : Type} (s : Store V) : Nat :=
  s.entries.length

/-- `Store.SetSchema` attaches a validation schema. -/
def Store.SetSchema {V : Type} (s : Store V)
    (schema : List (String × FieldDef)) : Store V :=
  { s with schema := some schema }

/-- `Store.GetSchema` returns the current schema, or `none` if unset. -/
def Store.GetSchema {V : Type} (s : Store V) :
    Option (List (String × FieldDef)) :=
  s.schema

/-! ### The generic graph (`graph.go`) -/

/-- `Edge` record: connection between two nodes with typed data and a
weight (Go `float64`, modelled as `ℚ`). -/
structure GEdge (E : Type) where
  From : String
  To : String
  Data : E
  Weight : ℚ
deriving DecidableEq

/-- The generic graph.  `nodes`, `out`, `inn` translate the Go maps
`nodes`, `out` (from → to → edge) and `in` (to → from → edge); the
`nodeMeta`/`edgeMeta` maps hold the per-node and per-edge metadata
stores of the metadata layer. -/
structure Graph (N E V : Type) where
  Directed : Bool
  nodes : List (String × N)
  out : List (String × List (String × GEdge E))
  inn : List (String × List (String × GEdge E))
  nodeMeta : List (String × Store V)
  edgeMeta : List (String × List (String × Store V))
deriving DecidableEq

variable {N E V : Type}

/-- `NewGraph` creates a new graph. -/
def NewGraph (N E V : Type) (directed : Bool) : Graph N E V :=
  ⟨directed, [], [], [], [], []⟩

/-- `HasNode` returns true if the node exists. -/
def Graph.HasNode (g : Graph N E V) (id : String) : Bool :=
  (alookup g.nodes id).isSome

/-- `AddNode` adds a node; an existing node with the same ID is
overwritten.  The empty adjacency rows are created when absent. -/
def Graph.AddNode (g : Graph N E V) (id : String) (data : N) : Graph N E V :=
  { g with
    nodes := aset g.nodes id data
    out := if (alookup g.out id).isNone then aset g.out id [] else g.out
    inn := if (alookup g.inn id).isNone then aset g.inn id [] else g.inn }

/-- `AddEdge` adds an edge between two existing nodes, mirroring the
adjacency for undirected graphs. -/
def Graph.AddEdge (g : Graph N E V) (from_ to_ : String) (data : E)
    (weight : ℚ) : Except String (Graph N E V) :=
  if ¬ g.HasNode from_ then .error ("node " ++ from_ ++ " not found")
  else if ¬ g.HasNode to_ then .error ("node " ++ to_ ++ " not found")
  else
    let e : GEdge E := ⟨from_, to_, data, weight⟩
    let g1 := { g with
      out := aset2 g.out from_ to_ e
      inn := aset2 g.inn to_ from_ e }
    if g.Directed then .ok g1
    else
      let rev : GEdge E := ⟨to_, from_, data, weight⟩
      .ok { g1 with
        out := aset2 g1.out to_ from_ rev
        inn := aset2 g1.inn from_ to_ rev }

/-- Modelled from the spec: the metadata layer's `RemoveNode`/`RemoveEdge`
cleanup (the file defining the metadata accessors is not part of the
provided sources; per the spec, "removing a node removes every incident
edge and every metadata record for that node and its edges").  Removes
the node's store and every edge store whose key touches `id`. -/
def Graph.removeMetaOfNode (g : Graph N E V) (id : String) : Graph N E V :=
  { g with
    nodeMeta := aerase g.nodeMeta id
    edgeMeta := (aerase g.edgeMeta id).map (fun p => (p.1, aerase p.2 id)) }

/-- `RemoveNode` removes a node and all its incident edges (and, per the
spec, the metadata records of the node and its edges). -/
def Graph.RemoveNode (g : Graph N E V) (id : String) : Graph N E V :=
  if ¬ g.HasNode id then g
  else
    let outAdj := (alookup g.out id).getD []
    let inAdj := (alookup g.inn id).getD []
    let inn1 := outAdj.foldl (fun acc p => aerase2 acc p.1 id) g.inn
    let out1 := inAdj.foldl (fun acc p => aerase2 acc p.1 id) g.out
    let g1 := { g with
      nodes := aerase g.nodes id
      out := aerase out1 id
      inn := aerase inn1 id }
    g1.removeMetaOfNode id

/-- Modelled from the spec: edge-metadata cleanup on `RemoveEdge` (the
metadata layer file is not in the provided sources; its tests require
the store of a removed edge to be gone). -/
def Graph.removeMetaOfEdge (g : Graph N E V) (from_ to_ : String) :
    Graph N E V :=
  if g.Directed then { g with edgeMeta := aerase2 g.edgeMeta from_ to_ }
  else { g with
    edgeMeta := aerase2 (aerase2 g.edgeMeta from_ to_) to_ from_ }

/-- `RemoveEdge` removes the edge `from_ → to_` (both directions for an
undirected graph). -/
def Graph.RemoveEdge (g : Graph N E V) (from_ to_ : String) : Graph N E V :=
  let g1 := { g with
    out := aerase2 g.out from_ to_
    inn := aerase2 g.inn to_ from_ }
  let g2 :=
    if g.Directed then g1
    else { g1 with
      out := aerase2 g1.out to_ from_
      inn := aerase2 g1.inn from_ to_ }
  g2.removeMetaOfEdge from_ to_

/-- `GetNode` returns the node's payload (the Go version returns a
`Node{ID, Data}` record whose ID equals the key). -/
def Graph.GetNode (g : Graph N E V) (id : String) : Option N :=
  alookup g.nodes id

/-- `GetEdge` returns the edge `from_ → to_` when present. -/
def Graph.GetEdge (g : Graph N E V) (from_ to_ : String) : Option (GEdge E) :=
  alookup2 g.out from_ to_

/-- `HasEdge` returns true if an edge `from_ → to_` exists. -/
def Graph.HasEdge (g : Graph N E V) (from_ to_ : String) : Bool :=
  (alookup2 g.out from_ to_).isSome

/-- Comparator for `sort.Strings`. -/
def strLt (a b : String) : Bool := a < b

/-- `Neighbors` returns the IDs adjacent to `id` in outgoing direction,
sorted. -/
def Graph.Neighbors (g : Graph N E V) (id : String) : List String :=
  sortWith strLt (akeys ((alookup g.out id).getD []))

/-- `OutEdges` returns all edges originating from `id` (map-iteration
order: the model's list order). -/
def Graph.OutEdges (g : Graph N E V) (id : String) : List (GEdge E) :=
  ((alookup g.out id).getD []).map Prod.snd

/-- `InEdges` returns all edges pointing to `id`. -/
def Graph.InEdges (g : Graph N E V) (id : String) : List (GEdge E) :=
  ((alookup g.inn id).getD []).map Prod.snd

/-- Comparator used by `Nodes()` (`sort.Slice` by ID). -/
def nodeLt {N : Type} (a b : String × N) : Bool := a.1 < b.1

/-- `Nodes` returns all nodes sorted by ID. -/
def Graph.Nodes (g : Graph N E V) : List (String × N) :=
  sortWith nodeLt g.nodes

/-- A two-level association structure flattened in iteration order:
`(k1, k2, value)` triples. -/
def flat2 {α : Type} (l : List (String × List (String × α))) :
    List (String × String × α) :=
  l.foldr (fun p acc => p.2.map (fun q => (p.1, q.1, q.2)) ++ acc) []

/-- The out-adjacency structure flattened in iteration order:
`(from, to, edge)` triples. -/
def Graph.flatOut (g : Graph N E V) : List (String × String × GEdge E) :=
  flat2 g.out

/-- The `seen`-guarded edge enumeration of Go `Edges()`: undirected
graphs report each logical edge once. -/
def edgesAux {E : Type} (directed : Bool) :
    List (String × String × GEdge E) → List (String × String) → List (GEdge E)
  | [], _ => []
  | (f, t, e) :: rest, seen =>
    if directed = false ∧ (t, f) ∈ seen then edgesAux directed rest seen
    else if (f, t) ∈ seen then edgesAux directed rest seen
    else e :: edgesAux directed rest ((f, t) :: seen)

/-- `Edges` returns all edges in the graph (each logical undirected edge
exactly once). -/
def Graph.Edges (g : Graph N E V) : List (GEdge E) :=
  edgesAux g.Directed g.flatOut []

/-- `Order` returns the number of nodes. -/
def Graph.Order (g : Graph N E V) : Nat :=
  g.nodes.length

/-- `Size` returns the number of edges. -/
def Graph.Size (g : Graph N E V) : Nat :=
  g.Edges.length

/-! ### Metadata accessors

The file defining `Graph.NodeMeta`/`Graph.EdgeMeta` is not among the
provided sources (only its tests and call sites are), so the accessors
are modelled from the spec and pinned down by the tests in
`meta` tests: a store exists per existing node/edge, is created lazily,
is `nil` for a missing node/edge, and an undirected edge's store is
shared by both orientations. -/

/-- Modelled from the spec: `NodeMeta(id)` returns the node's metadata
store (creating it lazily), or nil when the node does not exist.  The
observable result: `none` for a missing node, otherwise the stored
store or a fresh empty one. -/
def Graph.NodeMeta (g : Graph N E V) (id : String) : Option (Store V) :=
  if g.HasNode id then some ((alookup g.nodeMeta id).getD NewStore)
  else none

/-- Modelled from the spec: `EdgeMeta(from, to)` returns the edge's
metadata store, `nil` when the edge does not exist; for an undirected
graph both orientations reach the same store. -/
def Graph.EdgeMeta (g : Graph N E V) (from_ to_ : String) :
    Option (Store V) :=
  if ¬ g.HasEdge from_ to_ then none
  else
    match alookup2 g.edgeMeta from_ to_ with
    | some s => some s
    | none =>
      if g.Directed then some NewStore
      else some ((alookup2 g.edgeMeta to_ from_).getD NewStore)

/-- Modelled from the spec: mutation through `NodeMeta(id)` — applies
`upd` to the (lazily created) store of an existing node. -/
def Graph.nodeMetaUpdate (g : Graph N E V) (id : String)
    (upd : Store V → Store V) : Graph N E V :=
  if ¬ g.HasNode id then g
  else { g with
    nodeMeta := aset g.nodeMeta id (upd ((alookup g.nodeMeta id).getD NewStore)) }

/-- Modelled from the spec: mutation through `EdgeMeta(from, to)` — the
store is looked up under the given orientation, then (for undirected
graphs) under the reverse orientation, and is created lazily under the
given key when absent. -/
def Graph.edgeMetaUpdate (g : Graph N E V) (from_ to_ : String)
    (upd : Store V → Store V) : Graph N E V :=
  if ¬ g.HasEdge from_ to_ then g
  else
    match alookup2 g.edgeMeta from_ to_ with
    | some s => { g with edgeMeta := aset2 g.edgeMeta from_ to_ (upd s) }
    | none =>
      if g.Directed = false then
        match alookup2 g.edgeMeta to_ from_ with
        | some s => { g with edgeMeta := aset2 g.edgeMeta to_ from_ (upd s) }
        | none =>
          { g with edgeMeta := aset2 g.edgeMeta from_ to_ (upd NewStore) }
      else { g with edgeMeta := aset2 g.edgeMeta from_ to_ (upd NewStore) }

/-! ### The task scheduler state machine (`task.go`) -/

/-- `TaskState` represents the current state of a task. -/
inductive TaskState where
  | Pending
  | Ready
  | Running
  | Done
  | Failed
  | Skipped
deriving DecidableEq

/-- `Task` is a unit of work with typed data and a state. -/
structure Task (T : Type) where
  ID : String
  Data : T
  State : TaskState
deriving DecidableEq

/-- `validTransitions` of `task.go`: the allowed state transitions.  A
state absent from the Go map yields the nil slice. -/
def validTransitions : TaskState → List TaskState
  | .Pending => [.Ready, .Skipped]
  | .Ready => [.Running, .Skipped]
  | .Running => [.Done, .Failed]
  | _ => []

/-- The graph underlying a `TaskGraph` (node data `Task T`, edge data
`struct{}`). -/
abbrev TaskG (T : Type) : Type := Graph (Task T) Unit Unit

/-- `NewTaskGraph` creates a new (directed) task graph. -/
def NewTaskGraph (T : Type) : TaskG T := NewGraph (Task T) Unit Unit true

/-- `AddTask` adds a task with initial state `Pending`. -/
def TaskG.AddTask {T : Type} (tg : TaskG T) (id : String) (data : T) :
    TaskG T :=
  Graph.AddNode tg id ⟨id, data, .Pending⟩

/-- `AddDependency(from, to)`: task `from` depends on task `to`; the
edge added is `to → from`. -/
def TaskG.AddDependency {T : Type} (tg : TaskG T) (from_ to_ : String) :
    Except String (TaskG T) :=
  Graph.AddEdge tg to_ from_ () 0

/-- `TaskGraph.Transition` (via `transitionLocked`): moves a task to a
new state after validating the transition; on failure the task graph is
unchanged and an error is reported. -/
def TaskG.Transition {T : Type} (tg : TaskG T) (id : String)
    (newState : TaskState) : TaskG T × Option String :=
  match alookup (Graph.nodes tg) id with
  | none => (tg, some ("task " ++ id ++ " not found"))
  | some task =>
    if newState ∈ validTransitions task.State then
      (Graph.AddNode tg id { task with State := newState }, none)
    else
      (tg, some ("invalid transition for task " ++ id))

/-! ### JSON values

Metadata values travel through the API as Go `any`; every value a JSON
client can submit is a JSON value.  `Jval` is their model; numbers keep
an integer/real distinction so that the numeric widening performed by a
decode (Go unmarshals every JSON number into `float64`) is observable. -/

mutual

inductive Jval where
  | jnull
  | jbool (b : Bool)
  | jint (n : Int)
  | jnum (q : ℚ)
  | jstr (s : String)
  | jarr (elems : JvalList)
  | jobj (fields : JvalFields)
deriving DecidableEq

/-- Elements of a JSON array. -/
inductive JvalList where
  | nil
  | cons (hd : Jval) (tl : JvalList)
deriving DecidableEq

/-- Fields of a JSON object. -/
inductive JvalFields where
  | nil
  | cons (key : String) (val : Jval) (tl : JvalFields)
deriving DecidableEq

end

mutual

/-- Go `json.Unmarshal` into `any` turns every number into `float64`:
re-decoding an encoded value widens integers to floats, recursively. -/
def Jval.widen : Jval → Jval
  | .jnull => .jnull
  | .jbool b => .jbool b
  | .jint n => .jnum (n : ℚ)
  | .jnum q => .jnum q
  | .jstr s => .jstr s
  | .jarr elems => .jarr (JvalList.widen elems)
  | .jobj fields => .jobj (JvalFields.widen fields)

def JvalList.widen : JvalList → JvalList
  | .nil => .nil
  | .cons hd tl => .cons hd.widen (JvalList.widen tl)

def JvalFields.widen : JvalFields → JvalFields
  | .nil => .nil
  | .cons k v tl => .cons k v.widen (JvalFields.widen tl)

end

/-! ### The API layer (`api` package) -/

/-- `api.NodeData`: the concrete node payload of the API layer. -/
structure NodeData where
  Label : String
  Status : String
deriving DecidableEq

/-- `api.EdgeData`: the concrete edge payload of the API layer. -/
structure EdgeData where
  Label : String
deriving DecidableEq

/-- A graph as managed by the API layer. -/
abbrev AGraph : Type := Graph NodeData EdgeData Jval

/-- A `Manager`'s in-memory cache of named graphs (`graphs map[string]*Graph`). -/
abbrev ManagerG : Type := List (String × AGraph)

/-- `api.validTransitions`: allowed status changes of `transition.go`. -/
def apiValidTargets (s : String) : List String :=
  if s = "" then ["pending", "ready"]
  else if s = "pending" then ["ready", "skipped"]
  else if s = "ready" then ["running", "skipped"]
  else if s = "running" then ["done", "failed"]
  else if s = "failed" then ["pending"]
  else []

/-- `api.TransitionResult`. -/
structure TransitionResultS where
  ID : String
  OldStatus : String
  NewStatus : String
  NewlyReady : List String
deriving DecidableEq

/-- One step of the auto-ready propagation loop in `Manager.Transition`:
for an outgoing edge of the node that just became `done`, promote the
downstream node to `ready` when it is `pending` and all of its incoming
dependencies are `done`. -/
def propagateStep (acc : AGraph × List String) (e : GEdge EdgeData) :
    AGraph × List String :=
  let g := acc.1
  match alookup g.nodes e.To with
  | none => acc
  | some dd =>
    if dd.Status ≠ "pending" then acc
    else
      let allDone := (Graph.InEdges g e.To).all (fun ie =>
        match alookup g.nodes ie.From with
        | none => false
        | some dep => dep.Status = "done")
      if allDone then
        (Graph.AddNode g e.To { dd with Status := "ready" },
         acc.2 ++ [e.To])
      else acc

/-- `Manager.Transition` restricted to the graph it operates on (after
`getGraph`): validates the transition, applies it, and when the new
status is `done` runs the readiness propagation over the node's
outgoing edges. -/
def transitionG (g : AGraph) (id status : String) :
    Except String (AGraph × TransitionResultS) :=
  match alookup g.nodes id with
  | none => .error ("node " ++ id ++ " not found")
  | some nd =>
    let oldStatus := nd.Status
    if status ∉ apiValidTargets oldStatus then
      .error ("invalid transition: " ++ oldStatus ++ " -> " ++ status)
    else
      let g1 := Graph.AddNode g id { nd with Status := status }
      if status = "done" then
        let stepped := (Graph.OutEdges g1 id).foldl propagateStep (g1, [])
        .ok (stepped.1, ⟨id, oldStatus, status, stepped.2⟩)
      else
        .ok (g1, ⟨id, oldStatus, status, []⟩)

/-- `Manager.Transition`: looks up the named graph (error when not
open), then transitions the node; on error the manager state is
unchanged. -/
def managerTransition (m : ManagerG) (graph id status : String) :
    ManagerG × Except String TransitionResultS :=
  match alookup m graph with
  | none => (m, .error ("graph " ++ graph ++ " not open"))
  | some g =>
    match transitionG g id status with
    | .error e => (m, .error e)
    | .ok (g', res) => (aset m graph g', .ok res)

/-! ### Read filters (`api/filter.go`) -/

/-- `api.MetaFilter`: a single filter predicate. -/
structure MetaFilter where
  Key : String
  Op : String
  Value : Jval
deriving DecidableEq

/-- Rendering of a value by Go `fmt.Sprintf("%v", v)`.  The exact
format of composite values does not influence any analysed property;
scalars render as their Go forms. -/
def sprint : Jval → String
  | .jnull => "<nil>"
  | .jbool b => if b then "true" else "false"
  | .jint n => toString n
  | .jnum q => toString q
  | .jstr s => s
  | .jarr _ => "[...]"
  | .jobj _ => "map[...]"

/-- Go `strings.Contains(hay, needle)`. -/
def strContains (hay needle : String) : Bool :=
  needle = "" || (hay.splitOn needle).length ≥ 2

/-- `toFloat64` of `filter.go`: numeric Go values convert, everything
else is rejected. -/
def toFloat64 : Jval → Option ℚ
  | .jint n => some (n : ℚ)
  | .jnum q => some q
  | _ => none

/-- `compareFloat` of `filter.go`: `-2` when comparison is impossible,
otherwise sign. -/
def compareFloat (a b : Jval) (found : Bool) : Int :=
  if found = false then -2
  else
    match toFloat64 a, toFloat64 b with
    | some af, some bf => if af < bf then -1 else if af > bf then 1 else 0
    | _, _ => -2

/-- `matchFilter` of `filter.go`: evaluates one filter against a node's
structural fields and its metadata store (`none` models a nil store). -/
def matchFilter (store : Option (Store Jval)) (data : NodeData)
    (f : MetaFilter) : Bool :=
  let vf : Jval × Bool :=
    if f.Key = "status" then (.jstr data.Status, true)
    else if f.Key = "label" then (.jstr data.Label, true)
    else
      match store with
      | none => (.jnull, false)
      | some st =>
        match Store.Get st f.Key with
        | some v => (v, true)
        | none => (.jnull, false)
  let val := vf.1
  let found := vf.2
  if f.Op = "exists" then found
  else if f.Op = "eq" then
    if found = false then false else sprint val = sprint f.Value
  else if f.Op = "neq" then
    if found = false then true else sprint val ≠ sprint f.Value
  else if f.Op = "contains" then
    if found = false then false
    else strContains (sprint val) (sprint f.Value)
  else if f.Op = "gt" then compareFloat val f.Value found > 0
  else if f.Op = "gte" then compareFloat val f.Value found ≥ 0
  else if f.Op = "lt" then compareFloat val f.Value found < 0
  else if f.Op = "lte" then compareFloat val f.Value found ≤ 0
  else false

/-! ### Store validation (`store.go`)

`GoVal` models the dynamic type of a Go `any` metadata value as it is
inspected by `matchesType`'s type switches: strings, the integer
widths, the float widths, bools, `[]byte`, the slice shapes admitted by
`FieldSlice`, string-keyed maps, and anything else. -/

inductive GoVal where
  | vstring (s : String)
  | vint (n : Int)
  | vfloat (q : ℚ)
  | vbool (b : Bool)
  | vbytes (len : Nat)
  | vslice (len : Nat)
  | vmap (len : Nat)
  | vother
deriving DecidableEq

/-- `matchesType` of `store.go`.  `[]byte` satisfies both `bytes` and
`slice` (it is in both type lists); `any` accepts everything. -/
def matchesType (val : GoVal) : FieldType → Bool
  | .string => match val with | .vstring _ => true | _ => false
  | .int => match val with | .vint _ => true | _ => false
  | .float => match val with | .vfloat _ => true | _ => false
  | .bool => match val with | .vbool _ => true | _ => false
  | .bytes => match val with | .vbytes _ => true | _ => false
  | .slice => match val with
    | .vslice _ => true
    | .vbytes _ => true
    | _ => false
  | .map => match val with | .vmap _ => true | _ => false
  | .any => true

/-- `Store.Validate`: checks all entries against the schema, visiting
schema fields in sorted key order; returns the empty list when no
schema is set or everything is valid. -/
def Store.Validate (s : Store GoVal) : List String :=
  match s.schema with
  | none => []
  | some schema =>
    let keys := sortWith strLt (akeys schema)
    keys.foldl (fun errs key =>
      match alookup schema key with
      | none => errs
      | some fdef =>
        match alookup s.entries key with
        | none =>
          if fdef.required then errs ++ ["missing required field " ++ key]
          else errs
        | some val =>
          if fdef.type = .any then errs
          else if matchesType val fdef.type then errs
          else errs ++ ["field " ++ key ++ ": type mismatch"]) []

/-! ### The MCP JSON-RPC server (`mcp` package)

The transport layer (byte streams, line framing) is outside the model;
`Server.handle` is translated over already-parsed frames.  `A` is the
type of raw tool arguments, `R` the type of tool results; `jenc`
stands for `json.Marshal` of a result value. -/

/-- JSON-RPC error object. -/
structure RPCError where
  code : Int
  message : String
deriving DecidableEq

/-- A content block of a tool-call result. -/
structure ContentBlock where
  type : String
  text : String
deriving DecidableEq

/-- `mcp.ToolCallResult`. -/
structure ToolCallResult where
  content : List ContentBlock
  isError : Bool
deriving DecidableEq

/-- The result value of a successful JSON-RPC response. -/
inductive RpcResult where
  | initializeResult (protocolVersion serverName serverVersion : String)
  | toolsList (toolNames : List String)
  | toolCall (r : ToolCallResult)
deriving DecidableEq

/-- A JSON-RPC response frame. -/
structure Response where
  id : String
  result : Option RpcResult
  error : Option RPCError
deriving DecidableEq

/-- The parsed `params` of a request: for `tools/call`, either the
decoded `{name, arguments}` or a JSON decoding failure. -/
inductive ReqParams (A : Type) where
  | malformed (msg : String)
  | toolCall (name : String) (args : A)

/-- A JSON-RPC request frame (`id` empty for a notification is not
modelled; the analysed paths all carry an id). -/
structure Request (A : Type) where
  id : String
  method : String
  params : ReqParams A

/-- The MCP server: registered tool handlers by name. -/
structure Server (A R : Type) where
  toolNames : List String
  tools : List (String × (A → Except String R))

/-- `Server.handle`, translated from `mcp.go`: dispatches one request
and produces at most one response (`none` for notifications). -/
def Server.handle {A R : Type} (jenc : R → String) (s : Server A R)
    (req : Request A) : Option Response :=
  if req.method = "initialize" then
    some ⟨req.id, some (.initializeResult "2024-11-05" "spine-mcp" "0.1.0"), none⟩
  else if req.method = "notifications/initialized" then
    none
  else if req.method = "tools/list" then
    some ⟨req.id, some (.toolsList s.toolNames), none⟩
  else if req.method = "tools/call" then
    match req.params with
    | .malformed msg =>
      some ⟨req.id, none, some ⟨-32602, "invalid params: " ++ msg⟩⟩
    | .toolCall name args =>
      match alookup s.tools name with
      | none =>
        some ⟨req.id, none, some ⟨-32602, "unknown tool: " ++ name⟩⟩
      | some handler =>
        match handler args with
        | .error e =>
          some ⟨req.id, some (.toolCall ⟨[⟨"text", e⟩], true⟩), none⟩
        | .ok result =>
          some ⟨req.id, some (.toolCall ⟨[⟨"text", jenc result⟩], false⟩), none⟩
  else
    some ⟨req.id, none, some ⟨-32601, "method not found: " ++ req.method⟩⟩

/-! ### Dijkstra with a binary min-heap (`traverse.go` + `container/heap`)

The `container/heap` operations are translated index-for-index over a
list; `heapDown` carries fuel `n` (the sift can take at most `n`
steps), and the main loop carries explicit fuel — the Go loop has no
such bound, so fuel exhaustion is reported as a distinct error that
provably does not occur on the analysed inputs. -/

/-- An entry of the Dijkstra priority queue. -/
structure DijkstraItem where
  id : String
  dist : ℚ
deriving DecidableEq, Inhabited

/-- `dijkstraHeap.Less`. -/
def dijkstraLess (h : List DijkstraItem) (i j : Nat) : Bool :=
  (h.getD i default).dist < (h.getD j default).dist

/-- `Swap`. -/
def lswap {α : Type} (l : List α) (i j : Nat) : List α :=
  match l.get? i, l.get? j with
  | some a, some b => (l.set i b).set j a
  | _, _ => l

/-- `container/heap.up` (the parent index strictly decreases, so fuel
`j + 1` is exact). -/
def heapUp : Nat → List DijkstraItem → Nat → List DijkstraItem
  | 0, h, _ => h
  | fuel + 1, h, j =>
    if j = 0 then h
    else
      let i := (j - 1) / 2
      if dijkstraLess h j i then heapUp fuel (lswap h i j) i else h

/-- `container/heap.down` (fuel bounds the sift depth; `n` suffices). -/
def heapDown : Nat → List DijkstraItem → Nat → Nat → List DijkstraItem
  | 0, h, _, _ => h
  | fuel + 1, h, i, n =>
    let j1 := 2 * i + 1
    if j1 ≥ n then h
    else
      let j := if j1 + 1 < n ∧ dijkstraLess h (j1 + 1) j1 then j1 + 1 else j1
      if dijkstraLess h j i then heapDown fuel (lswap h i j) j n else h

/-- `container/heap.Push`. -/
def heapPush (h : List DijkstraItem) (x : DijkstraItem) : List DijkstraItem :=
  heapUp (h.length + 1) (h ++ [x]) h.length

/-- `container/heap.Pop` (callers guarantee non-emptiness). -/
def heapPop (h : List DijkstraItem) :
    Option (DijkstraItem × List DijkstraItem) :=
  match h with
  | [] => none
  | _ =>
    let n := h.length - 1
    let h1 := lswap h 0 n
    let h2 := heapDown (n + 1) h1 0 n
    match h2.getLast? with
    | some x => some (x, h2.dropLast)
    | none => none

/-- The mutable state of the Dijkstra loop. -/
structure DijkstraState where
  heap : List DijkstraItem
  dist : List (String × ℚ)
  prev : List (String × String)

/-- Edge relaxation: the body of the `for _, e := range g.OutEdges`
loop. -/
def relaxEdge (cur : DijkstraItem) (st : DijkstraState) (e : GEdge E) :
    DijkstraState :=
  let nd := cur.dist + e.Weight
  let improve : Bool :=
    match alookup st.dist e.To with
    | none => true
    | some d => nd < d
  if improve then
    { heap := heapPush st.heap ⟨e.To, nd⟩
      dist := aset st.dist e.To nd
      prev := aset st.prev e.To cur.id }
  else st

/-- The main Dijkstra loop (fuel is a model artifact). -/
def dijkstraLoop (g : Graph N E V) (dst : String) :
    Nat → DijkstraState → Option DijkstraState
  | 0, _ => none
  | fuel + 1, st =>
    match heapPop st.heap with
    | none => some st
    | some (cur, h') =>
      if cur.dist > ((alookup st.dist cur.id).getD 0) then
        dijkstraLoop g dst fuel { st with heap := h' }
      else if cur.id = dst then
        some { st with heap := h' }
      else
        let st' := (g.OutEdges cur.id).foldl (relaxEdge cur)
          { st with heap := h' }
        dijkstraLoop g dst fuel st'

/-- The predecessor-chain path reconstruction loop. -/
def buildPath (prev : List (String × String)) (src : String) :
    Nat → String → List String → Option (List String)
  | 0, _, _ => none
  | fuel + 1, cur, acc =>
    if cur = "" then some acc
    else
      let acc' := acc ++ [cur]
      if cur = src then some acc'
      else buildPath prev src fuel ((alookup prev cur).getD "") acc'

/-- Total number of adjacency records. -/
def Graph.edgeRecords (g : Graph N E V) : Nat :=
  (g.out.map (fun p => p.2.length)).sum

/-- `ShortestPath` of `traverse.go`: Dijkstra from `src` to `dst`. -/
def ShortestPath (g : Graph N E V) (src dst : String) :
    Except String (List String × ℚ) :=
  if ¬ g.HasNode src then .error "source node not found"
  else if ¬ g.HasNode dst then .error "destination node not found"
  else
    let bound := (g.Order + g.edgeRecords + 2) * (g.Order + g.edgeRecords + 2)
    match dijkstraLoop g dst bound ⟨[⟨src, 0⟩], [(src, 0)], []⟩ with
    | none => .error "model fuel exhausted"
    | some st =>
      match alookup st.dist dst with
      | none => .error "no path found"
      | some d =>
        match buildPath st.prev src (g.Order + 1) dst [] with
        | none => .error "model fuel exhausted"
        | some path => .ok (path.reverse, d)

/-! ### Subgraph (`traverse.go`) -/

/-- `Subgraph` extracts a new graph containing only the given node IDs,
the edges between them, and copies of their metadata stores. -/
def Subgraph (g : Graph N E V) (ids : List String) : Graph N E V :=
  let sub1 := ids.foldl (fun s id =>
    match Graph.GetNode g id with
    | some d => Graph.AddNode s id d
    | none => s) (NewGraph N E V g.Directed)
  let sub2 := ids.foldl (fun s id =>
    (Graph.OutEdges g id).foldl (fun s e =>
      if e.To ∈ ids ∧ ¬ Graph.HasEdge s e.From e.To then
        match Graph.AddEdge s e.From e.To e.Data e.Weight with
        | .ok s' => s'
        | .error _ => s
      else s) s) sub1
  let sub3 := ids.foldl (fun s id =>
    match alookup g.nodeMeta id with
    | some store => { s with nodeMeta := aset s.nodeMeta id store }
    | none => s) sub2
  g.edgeMeta.foldl (fun s p =>
    p.2.foldl (fun s q =>
      if p.1 ∈ ids ∧ q.1 ∈ ids ∧ Graph.HasEdge s p.1 q.1 then
        { s with edgeMeta := aset2 s.edgeMeta p.1 q.1 q.2 }
      else s) s) sub3

/-! ### The snapshot codec (`serialize.go`)

The JSON byte layer is deterministic given the snapshot value:
`encoding/json` serializes struct fields in declaration order and maps
in sorted key order.  The model therefore works at the level of
`SnapshotS`, in which every map that `json.Marshal` would sort is
already sorted, so two equal `SnapshotS` values have byte-identical
encodings and the byte round-trip of a snapshot is `widenSnapshot`
(JSON numbers decode into `float64`). -/

/-- The serialized metadata of one node (`entries` sorted as
`json.Marshal` sorts map keys; `schema` is `none` when the `omitempty`
tag would drop it). -/
structure NodeMetaOut (V : Type) where
  id : String
  entries : List (String × V)
  schema : Option (List (String × FieldDef))
deriving DecidableEq

/-- The serialized metadata of one edge. -/
structure EdgeMetaOut (V : Type) where
  From : String
  To : String
  entries : List (String × V)
  schema : Option (List (String × FieldDef))
deriving DecidableEq

/-- `Snapshot`: the top-level serialized form. -/
structure SnapshotS (N E V : Type) where
  version : Nat
  directed : Bool
  graph : Option (List (String × N) × List (GEdge E))
  meta : Option (List (NodeMetaOut V) × List (EdgeMetaOut V))
deriving DecidableEq

/-- `MarshalOptions`. -/
structure MarshalOptions where
  NodeIDs : Option (List String)
  Graph : Bool
  Meta : Bool
  Schemas : Bool
  Indent : Bool

/-- Comparator of the `sort.Slice` on edges: by `From`, then `To`. -/
def edgeLt {E : Type} (a b : GEdge E) : Bool :=
  if a.From ≠ b.From then a.From < b.From else a.To < b.To

/-- Comparator of the `sort.Slice` on edge-metadata keys. -/
def keyPairLt (a b : String × String) : Bool :=
  if a.1 ≠ b.1 then a.1 < b.1 else a.2 < b.2

/-- Undirected normalization: swap the `From`/`To` fields when
`From > To`. -/
def normEdge {E : Type} (e : GEdge E) : GEdge E :=
  if e.From > e.To then { e with From := e.To, To := e.From } else e

/-- The schema as serialized: dropped when the `Schemas` option is off,
when no schema is set, or when it is empty (`omitempty`); otherwise a
key-sorted JSON object. -/
def schemaOut {V : Type} (flag : Bool) (store : Store V) :
    Option (List (String × FieldDef)) :=
  if flag then
    match store.schema with
    | some l => if l.isEmpty then none else some (sortWith nodeLt l)
    | none => none
  else none

/-- The node-metadata section: iterate `Nodes()` (sorted by ID), skip
nodes with no or empty store. -/
def marshalNodeMeta (g : Graph N E V) (schemas : Bool) :
    List (NodeMetaOut V) :=
  (Graph.Nodes g).foldr (fun n acc =>
    match alookup g.nodeMeta n.1 with
    | none => acc
    | some store =>
      if store.Len = 0 then acc
      else ⟨n.1, sortWith nodeLt store.entries, schemaOut schemas store⟩ :: acc) []

/-- The edge-metadata section: collect the keys of non-empty stores,
sort them by `(from, to)`, then serialize each store. -/
def marshalEdgeMeta (g : Graph N E V) (schemas : Bool) :
    List (EdgeMetaOut V) :=
  let keys := ((flat2 g.edgeMeta).filter (fun t => t.2.2.Len > 0)).map
    (fun t => (t.1, t.2.1))
  (sortWith keyPairLt keys).map (fun k =>
    let store := (alookup2 g.edgeMeta k.1 k.2).getD NewStore
    ⟨k.1, k.2, sortWith nodeLt store.entries, schemaOut schemas store⟩)

/-- The default options (`opts == nil`). -/
def defaultMarshalOptions : MarshalOptions := ⟨none, true, true, true, true⟩

/-- `Marshal` of `serialize.go`, producing the snapshot whose JSON
encoding is the emitted byte string. -/
def marshalG (g : Graph N E V) (opts0 : Option MarshalOptions) :
    SnapshotS N E V :=
  let opts := opts0.getD defaultMarshalOptions
  let target := match opts.NodeIDs with
    | some ids => Subgraph g ids
    | none => g
  let graphSec :=
    if opts.Graph then
      let edges := Graph.Edges target
      let edges := if target.Directed = false then edges.map normEdge else edges
      some (Graph.Nodes target, sortWith edgeLt edges)
    else none
  let metaSec :=
    if opts.Meta then
      some (marshalNodeMeta target opts.Schemas,
            marshalEdgeMeta target opts.Schemas)
    else none
  ⟨1, target.Directed, graphSec, metaSec⟩

/-- The store mutation replaying one decoded metadata record: `Set` per
entry, then `SetSchema` when a schema was serialized. -/
def recApply {V : Type} (entries : List (String × V))
    (schema : Option (List (String × FieldDef))) (st : Store V) : Store V :=
  let st := entries.foldl (fun st p => Store.Set st p.1 p.2) st
  match schema with
  | some sc => Store.SetSchema st sc
  | none => st

/-- Application of one decoded node-metadata record: skipped for an
unknown node, otherwise `Set` per entry and `SetSchema` when present. -/
def applyNodeMetaRec (g : Graph N E V) (nm : NodeMetaOut V) : Graph N E V :=
  if ¬ Graph.HasNode g nm.id then g
  else Graph.nodeMetaUpdate g nm.id (recApply nm.entries nm.schema)

/-- Application of one decoded edge-metadata record: skipped for an
unknown edge. -/
def applyEdgeMetaRec (g : Graph N E V) (em : EdgeMetaOut V) : Graph N E V :=
  if ¬ Graph.HasEdge g em.From em.To then g
  else Graph.edgeMetaUpdate g em.From em.To (recApply em.entries em.schema)

/-- `Unmarshal` of `serialize.go`: version check, replay of nodes and
edges (propagating `AddEdge` failures), then replay of metadata with
silent skipping of unknown IDs. -/
def unmarshalG (snap : SnapshotS N E V) : Except String (Graph N E V) := do
  if snap.version ≠ 1 then
    throw ("unsupported version: " ++ toString snap.version)
  let g0 := NewGraph N E V snap.directed
  let g1 ← match snap.graph with
    | none => pure g0
    | some (ns, es) =>
      let gn := ns.foldl (fun g p => Graph.AddNode g p.1 p.2) g0
      es.foldlM (fun g e => Graph.AddEdge g e.From e.To e.Data e.Weight) gn
  match snap.meta with
  | none => pure g1
  | some (nms, ems) =>
    pure (ems.foldl applyEdgeMetaRec (nms.foldl applyNodeMetaRec g1))

/-- The effect of a byte-level encode/decode round trip on a snapshot:
typed payloads and topology survive exactly; metadata values (decoded
into `any`) have their numbers widened to floats. -/
def widenSnapshot {N E : Type} (s : SnapshotS N E Jval) : SnapshotS N E Jval :=
  { s with
    meta := s.meta.map (fun m =>
      (m.1.map (fun nm =>
        { nm with entries := nm.entries.map (fun p => (p.1, p.2.widen)) }),
       m.2.map (fun em =>
        { em with entries := em.entries.map (fun p => (p.1, p.2.widen)) }))) }

/-! ### Reachable-state invariants

`Wf` collects the invariants every graph reachable through the public
API satisfies: unique map keys, out/in mirror consistency, edge
endpoints referencing nodes, undirected symmetry, and metadata keyed by
existing edges.  All quantifiers are list-bounded, so `Wf` is decidable
on concrete graphs. -/

/-- A metadata store with well-formed maps. -/
def StoreWf {V : Type} (s : Store V) : Prop :=
  NodupKeys s.entries ∧ NodupKeys (s.schema.getD [])

/-- The mirrored edge record of an undirected adjacency. -/
def mirrorEdge {E : Type} (e : GEdge E) : GEdge E :=
  ⟨e.To, e.From, e.Data, e.Weight⟩

@[mk_iff]
structure Wf (g : Graph N E V) : Prop where
  nodesNodup : NodupKeys g.nodes
  outNodup : NodupKeys g.out
  outInnerNodup : ∀ p ∈ g.out, NodupKeys p.2
  innNodup : NodupKeys g.inn
  innInnerNodup : ∀ p ∈ g.inn, NodupKeys p.2
  fieldConsistent : ∀ p ∈ g.out, ∀ q ∈ p.2, q.2.From = p.1 ∧ q.2.To = q.1
  fieldConsistentIn : ∀ p ∈ g.inn, ∀ q ∈ p.2, q.2.From = q.1 ∧ q.2.To = p.1
  outInn : ∀ p ∈ g.out, ∀ q ∈ p.2, alookup2 g.inn q.1 p.1 = some q.2
  innOut : ∀ p ∈ g.inn, ∀ q ∈ p.2, alookup2 g.out q.1 p.1 = some q.2
  outKeysNodes : ∀ p ∈ g.out, p.1 ∈ akeys g.nodes
  nodesKeysOut : ∀ p ∈ g.nodes, p.1 ∈ akeys g.out
  innKeysNodes : ∀ p ∈ g.inn, p.1 ∈ akeys g.nodes
  nodesKeysInn : ∀ p ∈ g.nodes, p.1 ∈ akeys g.inn
  undirSym : g.Directed = false → ∀ p ∈ g.out, ∀ q ∈ p.2,
    alookup2 g.out q.1 p.1 = some (mirrorEdge q.2)
  nodeMetaNodup : NodupKeys g.nodeMeta
  nodeMetaStores : ∀ p ∈ g.nodeMeta, StoreWf p.2
  edgeMetaNodup : NodupKeys g.edgeMeta
  edgeMetaInnerNodup : ∀ p ∈ g.edgeMeta, NodupKeys p.2
  edgeMetaStores : ∀ p ∈ g.edgeMeta, ∀ q ∈ p.2, StoreWf q.2
  edgeMetaEdges : ∀ p ∈ g.edgeMeta, ∀ q ∈ p.2, Graph.HasEdge g p.1 q.1 = true
  edgeMetaUndir : g.Directed = false → ∀ p ∈ g.edgeMeta, ∀ q ∈ p.2,
    p.1 ≠ q.1 → (alookup2 g.edgeMeta q.1 p.1).isNone = true

instance {α : Type} (l : List (String × α)) : Decidable (NodupKeys l) :=
  inferInstanceAs (Decidable (akeys l).Nodup)

instance {V : Type} (s : Store V) : Decidable (StoreWf s) :=
  inferInstanceAs
    (Decidable (NodupKeys s.entries ∧ NodupKeys (s.schema.getD [])))

instance [DecidableEq E] [DecidableEq V] (g : Graph N E V) :
    Decidable (Wf g) :=
  decidable_of_iff _ (wf_iff g).symm

/-- Equivalence of optional metadata stores up to map-iteration order. -/
def StoreEquiv {V : Type} (s1 s2 : Store V) : Prop :=
  s1.entries.Perm s2.entries ∧
  (s1.schema = none ↔ s2.schema = none) ∧
  (s1.schema.getD []).Perm (s2.schema.getD [])

def StoreEquivOpt {V : Type} : Option (Store V) → Option (Store V) → Prop
  | none, none => True
  | some a, some b => StoreEquiv a b
  | _, _ => False

instance {V : Type} [DecidableEq V] (s1 s2 : Store V) :
    Decidable (StoreEquiv s1 s2) :=
  inferInstanceAs (Decidable (s1.entries.Perm s2.entries ∧
    (s1.schema = none ↔ s2.schema = none) ∧
    (s1.schema.getD []).Perm (s2.schema.getD [])))

instance {V : Type} [DecidableEq V] :
    (o1 o2 : Option (Store V)) → Decidable (StoreEquivOpt o1 o2)
  | none, none => inferInstanceAs (Decidable True)
  | some a, some b => inferInstanceAs (Decidable (StoreEquiv a b))
  | none, some _ => inferInstanceAs (Decidable False)
  | some _, none => inferInstanceAs (Decidable False)

/-- The projection of the edge-metadata structure to its key pairs, in
iteration order. -/
def emFlatKeys (g : Graph N E V) : List (String × String) :=
  (flat2 g.edgeMeta).map (fun t => (t.1, t.2.1))

/-- Two graph values represent the same logical graph state: they
differ at most in the iteration order of their Go maps. -/
def LogicalEq (g1 g2 : Graph N E V) : Prop :=
  g1.Directed = g2.Directed ∧
  g1.nodes.Perm g2.nodes ∧
  (Graph.flatOut g1).Perm (Graph.flatOut g2) ∧
  (∀ p ∈ g1.nodes, StoreEquivOpt (alookup g1.nodeMeta p.1)
    (alookup g2.nodeMeta p.1)) ∧
  (emFlatKeys g1).Perm (emFlatKeys g2) ∧
  (∀ k ∈ emFlatKeys g1, StoreEquivOpt (alookup2 g1.edgeMeta k.1 k.2)
    (alookup2 g2.edgeMeta k.1 k.2))

instance [DecidableEq N] [DecidableEq E] [DecidableEq V]
    (g1 g2 : Graph N E V) : Decidable (LogicalEq g1 g2) :=
  inferInstanceAs (Decidable (g1.Directed = g2.Directed ∧
    g1.nodes.Perm g2.nodes ∧
    (Graph.flatOut g1).Perm (Graph.flatOut g2) ∧
    (∀ p ∈ g1.nodes, StoreEquivOpt (alookup g1.nodeMeta p.1)
      (alookup g2.nodeMeta p.1)) ∧
    (emFlatKeys g1).Perm (emFlatKeys g2) ∧
    (∀ k ∈ emFlatKeys g1, StoreEquivOpt (alookup2 g1.edgeMeta k.1 k.2)
      (alookup2 g2.edgeMeta k.1 k.2))))

/-! ## Claim theorems -/

/-- C10: in `ReadNodes` filtering, a key that is neither `status` nor
`label` and is absent from the node's metadata store makes an `neq`
filter pass and an `eq` filter fail; any unknown operator makes any
filter fail. -/
theorem matchFilter_absent_key_neq_eq_unknown
    (store : Option (Store Jval)) (data : NodeData) (key : String) (v : Jval)
    (hks : key ≠ "status") (hkl : key ≠ "label")
    (habs : store.bind (fun st => Store.Get st key) = none) :
    matchFilter store data ⟨key, "neq", v⟩ = true ∧
    matchFilter store data ⟨key, "eq", v⟩ = false ∧
    (∀ (store' : Option (Store Jval)) (data' : NodeData) (f : MetaFilter),
      f.Op ∉ ["exists", "eq", "neq", "contains", "gt", "gte", "lt", "lte"] →
      matchFilter store' data' f = false) := by
  refine ⟨?_, ?_, ?_⟩
  · cases store with
    | none => simp [matchFilter, hks, hkl]
    | some st =>
      have habs' : Store.Get st key = none := habs
      simp [matchFilter, hks, hkl, habs']
  · cases store with
    | none => simp [matchFilter, hks, hkl]
    | some st =>
      have habs' : Store.Get st key = none := habs
      simp [matchFilter, hks, hkl, habs']
  · intro store' data' f hop
    simp only [List.mem_cons, List.mem_singleton, not_or] at hop
    obtain ⟨h1, h2, h3, h4, h5, h6, h7, h8, _⟩ := hop
    simp [matchFilter, h1, h2, h3, h4, h5, h6, h7, h8]

/-- C7: for a `tools/call` request, a registered tool whose handler
fails yields a successful JSON-RPC result `{content:[{type:"text",
text:<error>}], isError:true}` with no error envelope, while an
unregistered tool name yields a JSON-RPC error with code `-32602`. -/
theorem toolsCall_error_routing {A R : Type} (jenc : R → String)
    (s : Server A R) (req : Request A) (name : String) (args : A)
    (hm : req.method = "tools/call")
    (hp : req.params = .toolCall name args) :
    (∀ handler e, alookup s.tools name = some handler →
      handler args = .error e →
      Server.handle jenc s req =
        some ⟨req.id, some (.toolCall ⟨[⟨"text", e⟩], true⟩), none⟩) ∧
    (alookup s.tools name = none →
      Server.handle jenc s req =
        some ⟨req.id, none, some ⟨-32602, "unknown tool: " ++ name⟩⟩) := by
  constructor
  · intro handler e hlook herr
    simp [Server.handle, hm, hp, hlook, herr]
  · intro hlook
    simp [Server.handle, hm, hp, hlook]

theorem matchFilter_absent_key_neq_eq_unknown_witness :
    matchFilter (some ⟨[("x", Jval.jint 1)], none⟩) ⟨"L", "running"⟩
      ⟨"prio", "neq", Jval.jstr "z"⟩ = true ∧
    matchFilter (some ⟨[("x", Jval.jint 1)], none⟩) ⟨"L", "running"⟩
      ⟨"prio", "eq", Jval.jstr "z"⟩ = false ∧
    matchFilter none ⟨"L", "running"⟩ ⟨"status", "between", Jval.jnull⟩
      = false := by
  have h := matchFilter_absent_key_neq_eq_unknown
    (some ⟨[("x", Jval.jint 1)], none⟩) ⟨"L", "running"⟩ "prio"
    (Jval.jstr "z") (by decide) (by decide) rfl
  exact ⟨h.1, h.2.1, h.2.2 none ⟨"L", "running"⟩
    ⟨"status", "between", Jval.jnull⟩ (by decide)⟩

theorem toolsCall_error_routing_witness :
    Server.handle (fun _ : Unit => "null")
        ⟨["t1"], [("t1", fun _ : Unit => Except.error "boom")]⟩
        ⟨"1", "tools/call", .toolCall "t1" ()⟩ =
      some ⟨"1", some (.toolCall ⟨[⟨"text", "boom"⟩], true⟩), none⟩ ∧
    Server.handle (fun _ : Unit => "null")
        ⟨["t1"], [("t1", fun _ : Unit => Except.error "boom")]⟩
        ⟨"2", "tools/call", .toolCall "nope" ()⟩ =
      some ⟨"2", none, some ⟨-32602, "unknown tool: " ++ "nope"⟩⟩ := by
  have h := toolsCall_error_routing (fun _ : Unit => "null")
    ⟨["t1"], [("t1", fun _ : Unit => Except.error "boom")]⟩
    ⟨"1", "tools/call", .toolCall "t1" ()⟩ "t1" () rfl rfl
  have h2 := toolsCall_error_routing (fun _ : Unit => "null")
    ⟨["t1"], [("t1", fun _ : Unit => Except.error "boom")]⟩
    ⟨"2", "tools/call", .toolCall "nope" ()⟩ "nope" () rfl rfl
  exact ⟨h.1 _ "boom" rfl rfl, h2.2 rfl⟩

/-! ### C6: `Store.Validate` -/

/-- The errors contributed by one schema key during `Validate`. -/
def validateStep (entries : List (String × GoVal))
    (schema : List (String × FieldDef)) (key : String) : List String :=
  match alookup schema key with
  | none => []
  | some fdef =>
    match alookup entries key with
    | none =>
      if fdef.required then ["missing required field " ++ key] else []
    | some val =>
      if fdef.type = .any then []
      else if matchesType val fdef.type then []
      else ["field " ++ key ++ ": type mismatch"]

/-- Concatenation of per-key error lists. -/
def joinMap (g : String → List String) : List String → List String
  | [] => []
  | k :: ks => g k ++ joinMap g ks

theorem joinMap_eq_nil_iff (g : String → List String) (l : List String) :
    joinMap g l = [] ↔ ∀ k ∈ l, g k = [] := by
  induction l with
  | nil => simp [joinMap]
  | cons k ks ih => simp [joinMap, ih]

theorem joinMap_congr (g1 g2 : String → List String) (l : List String)
    (h : ∀ k ∈ l, g1 k = g2 k) : joinMap g1 l = joinMap g2 l := by
  induction l with
  | nil => rfl
  | cons k ks ih =>
    simp only [joinMap, h k (by simp), ih (fun k hk => h k (by simp [hk]))]

theorem foldl_append_join (g : String → List String) (keys : List String)
    (init : List String) :
    keys.foldl (fun errs k => errs ++ g k) init = init ++ joinMap g keys := by
  induction keys generalizing init with
  | nil => simp [joinMap]
  | cons k ks ih => simp [joinMap, ih]

theorem validate_eq_joinMap (entries : List (String × GoVal))
    (schema : List (String × FieldDef)) :
    Store.Validate ⟨entries, some schema⟩ =
      joinMap (validateStep entries schema) (sortWith strLt (akeys schema)) := by
  show (sortWith strLt (akeys schema)).foldl _ [] = _
  have hfun : (fun (errs : List String) key =>
      match alookup schema key with
      | none => errs
      | some fdef =>
        match alookup entries key with
        | none =>
          if fdef.required then errs ++ ["missing required field " ++ key]
          else errs
        | some val =>
          if fdef.type = .any then errs
          else if matchesType val fdef.type then errs
          else errs ++ ["field " ++ key ++ ": type mismatch"]) =
      (fun errs k => errs ++ validateStep entries schema k) := by
    funext errs key
    unfold validateStep
    cases alookup schema key with
    | none => simp
    | some fdef =>
      cases alookup entries key with
      | none => by_cases h : fdef.required <;> simp [h]
      | some val =>
        by_cases h1 : fdef.type = FieldType.any
        · simp [h1]
        · by_cases h2 : matchesType val fdef.type <;> simp [h1, h2]
  rw [hfun, foldl_append_join]
  simp

/-- The per-field condition of the (amended) validation contract: a
missing field is admissible iff not required; a present field must be
of the declared type (or the type is `any`). -/
def validEntry (entries : List (String × GoVal)) (p : String × FieldDef) :
    Bool :=
  match alookup entries p.1 with
  | none => !p.2.required
  | some v => p.2.type = FieldType.any || matchesType v p.2.type

/-- C6 counterexample: a present optional field of the wrong type makes
`Validate` non-empty although every required field (there are none) is
present with a matching type — the claimed "iff" fails left-to-right. -/
theorem validate_required_only_iff_counterexample :
    ¬ (Store.Validate ⟨[("opt", GoVal.vint 42)],
          some [("opt", ⟨FieldType.string, false⟩)]⟩ = [] ↔
       ∀ p ∈ [("opt", (⟨FieldType.string, false⟩ : FieldDef))],
         p.2.required = true →
         ((alookup [("opt", GoVal.vint 42)] p.1).map
           (fun v => matchesType v p.2.type)).getD false = true) := by
  decide

/-- C6 (amended): `Validate` returns the empty list iff every required
schema field is present with a matching declared type AND every present
schema field matches its declared type; unknown keys never contribute
errors (adding an entry whose key is outside the schema leaves the
result unchanged). -/
theorem validate_empty_iff_schema_ok (entries : List (String × GoVal))
    (schema : List (String × FieldDef)) (hnd : NodupKeys schema) :
    (Store.Validate ⟨entries, some schema⟩ = [] ↔
      ∀ p ∈ schema, validEntry entries p = true) ∧
    (∀ (k : String) (v : GoVal), k ∉ akeys schema →
      Store.Validate ⟨aset entries k v, some schema⟩ =
        Store.Validate ⟨entries, some schema⟩) := by
  constructor
  · rw [validate_eq_joinMap, joinMap_eq_nil_iff]
    constructor
    · intro h p hp
      have hk : p.1 ∈ sortWith strLt (akeys schema) :=
        (sortWith_perm strLt (akeys schema)).mem_iff.mpr
          (List.mem_map.mpr ⟨p, hp, rfl⟩)
      have hstep := h p.1 hk
      have hlook : alookup schema p.1 = some p.2 :=
        alookup_eq_some_of_mem schema p.1 p.2 hnd hp
      unfold validateStep at hstep
      rw [hlook] at hstep
      unfold validEntry
      cases he : alookup entries p.1 with
      | none =>
        rw [he] at hstep
        by_cases hr : p.2.required
        · simp [hr] at hstep
        · simp [hr]
      | some v =>
        rw [he] at hstep
        by_cases h1 : p.2.type = FieldType.any
        · simp [h1]
        · by_cases h2 : matchesType v p.2.type
          · simp [h1, h2]
          · simp [h1, h2] at hstep
    · intro h k hk
      unfold validateStep
      cases hs : alookup schema k with
      | none => rfl
      | some fdef =>
        have hmem : (k, fdef) ∈ schema := mem_of_alookup_eq_some _ _ _ hs
        have := h (k, fdef) hmem
        unfold validEntry at this
        cases he : alookup entries k with
        | none =>
          rw [he] at this
          simp only [Bool.not_eq_true'] at this
          simp [this]
        | some v =>
          rw [he] at this
          simp only [Bool.or_eq_true, decide_eq_true_eq] at this
          rcases this with h1 | h2
          · simp [h1]
          · by_cases hany : fdef.type = FieldType.any
            · simp [hany]
            · simp [hany, h2]
  · intro k v hk
    rw [validate_eq_joinMap, validate_eq_joinMap]
    apply joinMap_congr
    intro key hkey
    have hkmem : key ∈ akeys schema :=
      (sortWith_perm strLt (akeys schema)).mem_iff.mp hkey
    have hne : k ≠ key := fun h => hk (h ▸ hkmem)
    unfold validateStep
    rw [alookup_aset_ne entries k key v hne]

theorem validate_empty_iff_schema_ok_witness :
    Store.Validate ⟨[("a", GoVal.vint 3)],
      some [("a", ⟨FieldType.int, true⟩)]⟩ = [] := by
  have h := validate_empty_iff_schema_ok [("a", GoVal.vint 3)]
    [("a", ⟨FieldType.int, true⟩)] (by decide)
  exact h.1.mpr (by decide)

/-! ### C1: the transition tables -/

/-- The transition table as the claim states it (status-string pairs;
written from the spec's table for comparison against both
implementations). -/
def claimedTransitionTable : List (String × String) :=
  [("", "pending"), ("", "ready"),
   ("pending", "ready"), ("pending", "skipped"),
   ("ready", "running"), ("ready", "skipped"),
   ("running", "done"), ("running", "failed"),
   ("failed", "pending")]

/-- The claim's (lowercase, API-style) name of a library task state. -/
def stateStr : TaskState → String
  | .Pending => "pending"
  | .Ready => "ready"
  | .Running => "running"
  | .Done => "done"
  | .Failed => "failed"
  | .Skipped => "skipped"

/-- Success tester for `Except`. -/
def isOkE {ε α : Type} : Except ε α → Bool
  | .ok _ => true
  | .error _ => false

theorem mem_claimedTable_iff (old new : String) :
    (old, new) ∈ claimedTransitionTable ↔ new ∈ apiValidTargets old := by
  constructor
  · intro h
    simp only [claimedTransitionTable, List.mem_cons, List.not_mem_nil,
      or_false, Prod.mk.injEq] at h
    rcases h with ⟨h1, h2⟩ | ⟨h1, h2⟩ | ⟨h1, h2⟩ | ⟨h1, h2⟩ | ⟨h1, h2⟩ |
      ⟨h1, h2⟩ | ⟨h1, h2⟩ | ⟨h1, h2⟩ | ⟨h1, h2⟩ <;>
      subst h1 <;> subst h2 <;> decide
  · intro h
    unfold apiValidTargets at h
    by_cases h0 : old = ""
    · subst h0
      simp only [if_pos rfl] at h
      rcases List.mem_cons.mp h with rfl | h
      · decide
      · rcases List.mem_cons.mp h with rfl | h
        · decide
        · simp at h
    · rw [if_neg h0] at h
      by_cases h1 : old = "pending"
      · subst h1
        simp only [if_pos rfl] at h
        rcases List.mem_cons.mp h with rfl | h
        · decide
        · rcases List.mem_cons.mp h with rfl | h
          · decide
          · simp at h
      · rw [if_neg h1] at h
        by_cases h2 : old = "ready"
        · subst h2
          simp only [if_pos rfl] at h
          rcases List.mem_cons.mp h with rfl | h
          · decide
          · rcases List.mem_cons.mp h with rfl | h
            · decide
            · simp at h
        · rw [if_neg h2] at h
          by_cases h3 : old = "running"
          · subst h3
            simp only [if_pos rfl] at h
            rcases List.mem_cons.mp h with rfl | h
            · decide
            · rcases List.mem_cons.mp h with rfl | h
              · decide
              · simp at h
          · rw [if_neg h3] at h
            by_cases h4 : old = "failed"
            · subst h4
              simp only [if_pos rfl] at h
              rcases List.mem_cons.mp h with rfl | h
              · decide
              · simp at h
            · rw [if_neg h4] at h
              simp at h

/-- A task graph whose single task `t` has been driven to `Failed`
through valid transitions. -/
def failedTaskGraph : TaskG Nat :=
  (TaskG.Transition ((TaskG.Transition ((TaskG.Transition
    (TaskG.AddTask (NewTaskGraph Nat) "t" 0)
    "t" .Ready).1) "t" .Running).1) "t" .Failed).1

/-- C1 counterexample: the pair `failed → pending` is a row of the
claimed table, yet the library `TaskGraph.Transition` rejects it (its
`validTransitions` map has no `Failed` entry) and leaves the task graph
unchanged. -/
theorem taskGraph_failed_pending_counterexample :
    ("failed", "pending") ∈ claimedTransitionTable ∧
    (alookup (Graph.nodes failedTaskGraph) "t").map Task.State =
      some .Failed ∧
    (TaskG.Transition failedTaskGraph "t" .Pending).2.isSome = true ∧
    (TaskG.Transition failedTaskGraph "t" .Pending).1 = failedTaskGraph := by
  decide

/-- C1 (amended): the Manager's `Transition` succeeds exactly on the
claimed table's rows and leaves the manager (and hence every status)
unchanged on rejection; the library `TaskGraph.Transition` accepts
exactly the claimed table's rows other than `failed → pending` (its
states carry no blank status), and on rejection leaves the task graph
unchanged. -/
theorem transition_tables (m : ManagerG) (graphName id status : String)
    (g : AGraph) (nd : NodeData) (tg : TaskG Nat) (tid : String)
    (task : Task Nat) (ns : TaskState)
    (hg : alookup m graphName = some g)
    (hn : alookup g.nodes id = some nd)
    (ht : alookup (Graph.nodes tg) tid = some task) :
    (isOkE (managerTransition m graphName id status).2 = true ↔
      (nd.Status, status) ∈ claimedTransitionTable) ∧
    (isOkE (managerTransition m graphName id status).2 = false →
      (managerTransition m graphName id status).1 = m) ∧
    ((TaskG.Transition tg tid ns).2 = none ↔
      ((stateStr task.State, stateStr ns) ∈ claimedTransitionTable ∧
        ¬ (task.State = .Failed ∧ ns = .Pending))) ∧
    ((TaskG.Transition tg tid ns).2 ≠ none →
      (TaskG.Transition tg tid ns).1 = tg) := by
  have hlib : ns ∈ validTransitions task.State ↔
      ((stateStr task.State, stateStr ns) ∈ claimedTransitionTable ∧
        ¬ (task.State = .Failed ∧ ns = .Pending)) := by
    cases task.State <;> cases ns <;> decide
  refine ⟨?_, ?_, ?_, ?_⟩
  · rw [mem_claimedTable_iff]
    unfold managerTransition transitionG
    simp only [hg, hn]
    by_cases hs : status ∈ apiValidTargets nd.Status
    · by_cases hd : status = "done"
      · subst hd
        simp [hs, isOkE]
      · simp [hs, hd, isOkE]
    · simp [hs, isOkE]
  · intro hfail
    unfold managerTransition transitionG at hfail ⊢
    simp only [hg, hn] at hfail ⊢
    by_cases hs : status ∈ apiValidTargets nd.Status
    · by_cases hd : status = "done"
      · subst hd
        simp [hs, isOkE] at hfail
      · simp [hs, hd, isOkE] at hfail
    · simp [hs]
  · unfold TaskG.Transition
    simp only [ht]
    by_cases hm : ns ∈ validTransitions task.State
    · simp only [if_pos hm]
      simpa using hlib.mp hm
    · simp only [if_neg hm]
      simp only [Option.some_ne_none, false_iff]
      intro hc
      exact hm (hlib.mpr hc)
  · intro hne
    unfold TaskG.Transition at hne ⊢
    simp only [ht] at hne ⊢
    by_cases hm : ns ∈ validTransitions task.State
    · simp [hm] at hne
    · simp [hm]

theorem transition_tables_witness :
    isOkE (managerTransition [("g", Graph.AddNode
      (NewGraph NodeData EdgeData Jval true) "n" ⟨"", "running"⟩)]
      "g" "n" "done").2 = true ∧
    (TaskG.Transition (TaskG.AddTask (NewTaskGraph Nat) "t" 0)
      "t" .Ready).2 = none := by
  have h := transition_tables
    [("g", Graph.AddNode (NewGraph NodeData EdgeData Jval true) "n"
      ⟨"", "running"⟩)]
    "g" "n" "done"
    (Graph.AddNode (NewGraph NodeData EdgeData Jval true) "n"
      ⟨"", "running"⟩)
    ⟨"", "running"⟩
    (TaskG.AddTask (NewTaskGraph Nat) "t" 0) "t" ⟨"t", 0, .Pending⟩ .Ready
    rfl (by decide) (by decide)
  exact ⟨h.1.mpr (by decide), h.2.2.1.mpr (by decide)⟩

/-! ### C9: `AddNode` on an existing ID is a payload-only update -/

theorem alookup2_ensure {α : Type} (l : List (String × List (String × α)))
    (id a b : String) :
    alookup2 (if (alookup l id).isNone then aset l id [] else l) a b =
      alookup2 l a b := by
  by_cases hn : (alookup l id).isNone
  · rw [if_pos hn]
    by_cases ha : id = a
    · subst ha
      unfold alookup2
      rw [alookup_aset]
      rw [Option.isNone_iff_eq_none] at hn
      rw [hn]
      simp [alookup]
    · unfold alookup2
      rw [alookup_aset_ne l id a [] ha]
  · rw [if_neg hn]

theorem alookup_getD_ensure {α : Type} (l : List (String × List (String × α)))
    (id a : String) :
    ((alookup (if (alookup l id).isNone then aset l id [] else l) a).getD []) =
      ((alookup l a).getD []) := by
  by_cases hn : (alookup l id).isNone
  · rw [if_pos hn]
    by_cases ha : id = a
    · subst ha
      rw [alookup_aset]
      rw [Option.isNone_iff_eq_none] at hn
      rw [hn]
      rfl
    · rw [alookup_aset_ne l id a [] ha]
  · rw [if_neg hn]

/-- C9: re-adding an existing node changes only that node's payload:
every edge observable (`HasEdge`, `GetEdge`, `Neighbors`, `InEdges`,
`OutEdges`), every other node's payload, and all metadata stores are
unchanged. -/
theorem addNode_existing_frame (g : Graph N E V) (id : String) (newData : N)
    (hid : Graph.HasNode g id = true) :
    Graph.GetNode (Graph.AddNode g id newData) id = some newData ∧
    (∀ x, x ≠ id →
      Graph.GetNode (Graph.AddNode g id newData) x = Graph.GetNode g x) ∧
    (∀ a b, Graph.HasEdge (Graph.AddNode g id newData) a b =
      Graph.HasEdge g a b) ∧
    (∀ a b, Graph.GetEdge (Graph.AddNode g id newData) a b =
      Graph.GetEdge g a b) ∧
    (∀ a, Graph.Neighbors (Graph.AddNode g id newData) a =
      Graph.Neighbors g a) ∧
    (∀ a, Graph.InEdges (Graph.AddNode g id newData) a =
      Graph.InEdges g a) ∧
    (∀ a, Graph.OutEdges (Graph.AddNode g id newData) a =
      Graph.OutEdges g a) ∧
    (Graph.AddNode g id newData).nodeMeta = g.nodeMeta ∧
    (Graph.AddNode g id newData).edgeMeta = g.edgeMeta ∧
    (∀ a, Graph.NodeMeta (Graph.AddNode g id newData) a =
      Graph.NodeMeta g a) ∧
    (∀ a b, Graph.EdgeMeta (Graph.AddNode g id newData) a b =
      Graph.EdgeMeta g a b) := by
  have hhe : ∀ a b, Graph.HasEdge (Graph.AddNode g id newData) a b =
      Graph.HasEdge g a b := by
    intro a b
    unfold Graph.HasEdge Graph.AddNode
    simp only
    rw [alookup2_ensure]
  have hhn : ∀ a, Graph.HasNode (Graph.AddNode g id newData) a =
      Graph.HasNode g a := by
    intro a
    unfold Graph.HasNode Graph.AddNode
    simp only
    by_cases ha : id = a
    · subst ha
      rw [alookup_aset]
      unfold Graph.HasNode at hid
      rw [Option.isSome_iff_exists] at hid
      obtain ⟨v, hv⟩ := hid
      rw [hv]
      rfl
    · rw [alookup_aset_ne g.nodes id a newData ha]
  refine ⟨?_, ?_, hhe, ?_, ?_, ?_, ?_, rfl, rfl, ?_, ?_⟩
  · unfold Graph.GetNode Graph.AddNode
    simp only
    exact alookup_aset g.nodes id newData
  · intro x hx
    unfold Graph.GetNode Graph.AddNode
    simp only
    exact alookup_aset_ne g.nodes id x newData (fun h => hx h.symm)
  · intro a b
    unfold Graph.GetEdge Graph.AddNode
    simp only
    rw [alookup2_ensure]
  · intro a
    unfold Graph.Neighbors Graph.AddNode
    simp only
    rw [alookup_getD_ensure]
  · intro a
    unfold Graph.InEdges Graph.AddNode
    simp only
    rw [alookup_getD_ensure]
  · intro a
    unfold Graph.OutEdges Graph.AddNode
    simp only
    rw [alookup_getD_ensure]
  · intro a
    unfold Graph.NodeMeta
    rw [hhn a]
    rfl
  · intro a b
    unfold Graph.EdgeMeta
    rw [hhe a b]
    rfl

def frameWitnessGraph : Graph Nat Unit Unit :=
  match Graph.AddEdge (Graph.AddNode (Graph.AddNode
      (NewGraph Nat Unit Unit true) "a" 1) "b" 2) "a" "b" () 1 with
  | .ok g => g
  | .error _ => NewGraph Nat Unit Unit true

theorem addNode_existing_frame_witness :
    Graph.GetNode (Graph.AddNode frameWitnessGraph "a" 7) "a" = some 7 ∧
    Graph.HasEdge (Graph.AddNode frameWitnessGraph "a" 7) "a" "b" =
      Graph.HasEdge frameWitnessGraph "a" "b" ∧
    Graph.GetNode (Graph.AddNode frameWitnessGraph "a" 7) "b" =
      Graph.GetNode frameWitnessGraph "b" := by
  have h := addNode_existing_frame frameWitnessGraph "a" 7 (by decide)
  exact ⟨h.1, h.2.2.1 "a" "b", h.2.1 "b" (by decide)⟩

/-! ### C8: `RemoveNode` leaves no incident edge and no reachable
metadata -/

theorem aerase2_lookup2 {α : Type} (m : List (String × List (String × α)))
    (p1 k x y : String) (hm : ∀ p ∈ m, NodupKeys p.2) :
    alookup2 (aerase2 m p1 k) x y =
      if x = p1 ∧ y = k then none else alookup2 m x y := by
  unfold aerase2
  cases hp : alookup m p1 with
  | none =>
    by_cases hx : x = p1
    · subst hx
      by_cases hy : y = k
      · subst hy
        simp [alookup2, hp]
      · simp [hy]
    · simp [hx]
  | some mx =>
    have hmx : NodupKeys mx := hm (p1, mx) (mem_of_alookup_eq_some m p1 mx hp)
    by_cases hx : x = p1
    · subst hx
      unfold alookup2
      rw [alookup_aset]
      by_cases hy : y = k
      · subst hy
        rw [if_pos ⟨rfl, rfl⟩]
        exact alookup_aerase mx y hmx
      · simp only [hy, and_false, if_false]
        rw [hp]
        exact alookup_aerase_ne mx k y (fun h => hy h.symm)
    · simp only [hx, false_and, if_false]
      unfold alookup2
      rw [alookup_aset_ne m p1 x (aerase mx k) (fun h => hx h.symm)]

theorem aerase2_inner_nodup {α : Type} (m : List (String × List (String × α)))
    (p1 k : String) (hm : ∀ p ∈ m, NodupKeys p.2) :
    ∀ p ∈ aerase2 m p1 k, NodupKeys p.2 := by
  unfold aerase2
  cases hp : alookup m p1 with
  | none => exact hm
  | some mx =>
    intro p hmem
    rcases mem_aset_elim hmem with rfl | h'
    · exact nodupKeys_aerase mx k
        (hm (p1, mx) (mem_of_alookup_eq_some m p1 mx hp))
    · exact hm p h'

theorem foldl_aerase2_inner_nodup {α β : Type} (l : List (String × β))
    (m : List (String × List (String × α))) (k : String)
    (hm : ∀ p ∈ m, NodupKeys p.2) :
    ∀ p ∈ l.foldl (fun acc q => aerase2 acc q.1 k) m, NodupKeys p.2 := by
  induction l generalizing m with
  | nil => exact hm
  | cons q rest ih =>
    simp only [List.foldl_cons]
    exact ih (aerase2 m q.1 k) (aerase2_inner_nodup m q.1 k hm)

theorem foldl_aerase2_lookup2 {α β : Type} (l : List (String × β))
    (m : List (String × List (String × α))) (k x y : String)
    (hm : ∀ p ∈ m, NodupKeys p.2) :
    alookup2 (l.foldl (fun acc q => aerase2 acc q.1 k) m) x y =
      if x ∈ l.map Prod.fst ∧ y = k then none else alookup2 m x y := by
  induction l generalizing m with
  | nil => simp
  | cons q rest ih =>
    simp only [List.foldl_cons]
    rw [ih (aerase2 m q.1 k) (aerase2_inner_nodup m q.1 k hm)]
    rw [aerase2_lookup2 m q.1 k x y hm]
    simp only [List.map_cons, List.mem_cons]
    by_cases hrest : x ∈ rest.map Prod.fst ∧ y = k
    · rw [if_pos hrest, if_pos ⟨Or.inr hrest.1, hrest.2⟩]
    · rw [if_neg hrest]
      by_cases hq : x = q.1 ∧ y = k
      · rw [if_pos hq, if_pos ⟨Or.inl hq.1, hq.2⟩]
      · rw [if_neg hq, if_neg]
        intro hc
        rcases hc.1 with h1 | h1
        · exact hq ⟨h1, hc.2⟩
        · exact hrest ⟨h1, hc.2⟩

theorem foldl_aerase2_akeys {α β : Type} (l : List (String × β))
    (m : List (String × List (String × α))) (k : String) :
    akeys (l.foldl (fun acc q => aerase2 acc q.1 k) m) = akeys m := by
  induction l generalizing m with
  | nil => rfl
  | cons q rest ih =>
    simp only [List.foldl_cons]
    rw [ih]
    unfold aerase2
    cases hp : alookup m q.1 with
    | none => rfl
    | some mx =>
      rw [akeys_aset]
      have : q.1 ∈ akeys m :=
        mem_akeys_of_alookup m q.1 (by rw [hp]; exact fun h => Option.noConfusion h)
      simp [this]

theorem foldl_aerase2_mem_inner {α β : Type} (l : List (String × β))
    (m : List (String × List (String × α))) (k x : String)
    (mx' : List (String × α)) (q : String × α)
    (hlk : alookup (l.foldl (fun acc q => aerase2 acc q.1 k) m) x = some mx')
    (hq : q ∈ mx')
    (hm : ∀ p ∈ m, NodupKeys p.2) :
    alookup2 m x q.1 = some q.2 := by
  have h1 : alookup2 (l.foldl (fun acc q => aerase2 acc q.1 k) m) x q.1 =
      some q.2 := by
    unfold alookup2
    rw [hlk]
    exact alookup_eq_some_of_mem mx' q.1 q.2
      (foldl_aerase2_inner_nodup l m k hm (x, mx')
        (mem_of_alookup_eq_some _ x mx' hlk)) hq
  rw [foldl_aerase2_lookup2 l m k x q.1 hm] at h1
  by_cases hc : x ∈ l.map Prod.fst ∧ q.1 = k
  · rw [if_pos hc] at h1
    exact absurd h1 (fun h => Option.noConfusion h)
  · rwa [if_neg hc] at h1

theorem foldl_aerase2_not_key {α β : Type} (l : List (String × β))
    (m : List (String × List (String × α))) (k x : String)
    (mx' : List (String × α)) (q : String × α)
    (hlk : alookup (l.foldl (fun acc q => aerase2 acc q.1 k) m) x = some mx')
    (hq : q ∈ mx') (hx : x ∈ l.map Prod.fst)
    (hm : ∀ p ∈ m, NodupKeys p.2) :
    q.1 ≠ k := by
  intro hqk
  have h1 : alookup2 (l.foldl (fun acc q => aerase2 acc q.1 k) m) x q.1 =
      some q.2 := by
    unfold alookup2
    rw [hlk]
    exact alookup_eq_some_of_mem mx' q.1 q.2
      (foldl_aerase2_inner_nodup l m k hm (x, mx')
        (mem_of_alookup_eq_some _ x mx' hlk)) hq
  rw [foldl_aerase2_lookup2 l m k x q.1 hm, if_pos ⟨hx, hqk⟩] at h1
  exact Option.noConfusion h1

theorem alookup2_aerase_ne {α : Type}
    (l : List (String × List (String × α))) (k x y : String) (h : k ≠ x) :
    alookup2 (aerase l k) x y = alookup2 l x y := by
  unfold alookup2
  rw [alookup_aerase_ne l k x h]

theorem alookup2_aerase_self {α : Type}
    (l : List (String × List (String × α))) (k y : String)
    (hnd : NodupKeys l) :
    alookup2 (aerase l k) k y = none := by
  unfold alookup2
  rw [alookup_aerase l k hnd]

theorem alookup2_eq_some_elim {α : Type}
    {l : List (String × List (String × α))} {x y : String} {v : α}
    (h : alookup2 l x y = some v) :
    ∃ m, alookup l x = some m ∧ alookup m y = some v := by
  unfold alookup2 at h
  cases hx : alookup l x with
  | none => rw [hx] at h; exact absurd h (by simp)
  | some m => rw [hx] at h; exact ⟨m, rfl, h⟩

/-- The explicit form of `RemoveNode` on a present node. -/
theorem removeNode_eq (g : Graph N E V) (a : String)
    (ha : Graph.HasNode g a = true) :
    Graph.RemoveNode g a =
      { Directed := g.Directed
        nodes := aerase g.nodes a
        out := aerase (((alookup g.inn a).getD []).foldl
          (fun acc p => aerase2 acc p.1 a) g.out) a
        inn := aerase (((alookup g.out a).getD []).foldl
          (fun acc p => aerase2 acc p.1 a) g.inn) a
        nodeMeta := aerase g.nodeMeta a
        edgeMeta := (aerase g.edgeMeta a).map
          (fun p => (p.1, aerase p.2 a)) } := by
  unfold Graph.RemoveNode Graph.removeMetaOfNode
  rw [if_neg (by simp [ha])]

/-- C8: after `RemoveNode(a)` on a present node of a well-formed graph,
no edge references `a` — `HasEdge(a, x)` and `HasEdge(x, a)` are false
and `a` appears in no node's in- or out-edge list — and the metadata
stores of `a` and of every edge touching `a` are unreachable
(`NodeMeta`/`EdgeMeta` return nil). -/
theorem removeNode_clean (g : Graph N E V) (a : String)
    (hwf : Wf g) (ha : Graph.HasNode g a = true) :
    (∀ x, Graph.HasEdge (Graph.RemoveNode g a) a x = false) ∧
    (∀ x, Graph.HasEdge (Graph.RemoveNode g a) x a = false) ∧
    (∀ x, ∀ e ∈ Graph.OutEdges (Graph.RemoveNode g a) x,
      e.From ≠ a ∧ e.To ≠ a) ∧
    (∀ x, ∀ e ∈ Graph.InEdges (Graph.RemoveNode g a) x,
      e.From ≠ a ∧ e.To ≠ a) ∧
    Graph.NodeMeta (Graph.RemoveNode g a) a = none ∧
    (∀ x, Graph.EdgeMeta (Graph.RemoveNode g a) a x = none) ∧
    (∀ x, Graph.EdgeMeta (Graph.RemoveNode g a) x a = none) := by
  have hout1N : NodupKeys (((alookup g.inn a).getD []).foldl
      (fun acc p => aerase2 acc p.1 a) g.out) := by
    unfold NodupKeys
    rw [foldl_aerase2_akeys]
    exact hwf.outNodup
  have hinn1N : NodupKeys (((alookup g.out a).getD []).foldl
      (fun acc p => aerase2 acc p.1 a) g.inn) := by
    unfold NodupKeys
    rw [foldl_aerase2_akeys]
    exact hwf.innNodup
  -- out-side lookups after removal
  have hOutLook : ∀ x y, alookup2 (Graph.RemoveNode g a).out x y =
      (if x = a then none
       else if x ∈ ((alookup g.inn a).getD []).map Prod.fst ∧ y = a then none
       else alookup2 g.out x y) := by
    intro x y
    rw [removeNode_eq g a ha]
    simp only
    by_cases hx : x = a
    · rw [if_pos hx, hx]
      exact alookup2_aerase_self _ a y hout1N
    · rw [if_neg hx, alookup2_aerase_ne _ a x y (fun h => hx h.symm)]
      rw [foldl_aerase2_lookup2 _ _ _ _ _ hwf.outInnerNodup]
  have hInnLook : ∀ x y, alookup2 (Graph.RemoveNode g a).inn x y =
      (if x = a then none
       else if x ∈ ((alookup g.out a).getD []).map Prod.fst ∧ y = a then none
       else alookup2 g.inn x y) := by
    intro x y
    rw [removeNode_eq g a ha]
    simp only
    by_cases hx : x = a
    · rw [if_pos hx, hx]
      exact alookup2_aerase_self _ a y hinn1N
    · rw [if_neg hx, alookup2_aerase_ne _ a x y (fun h => hx h.symm)]
      rw [foldl_aerase2_lookup2 _ _ _ _ _ hwf.innInnerNodup]
  -- a dangling out-edge into a would contradict the in-index
  have hOutA : ∀ x, x ∉ ((alookup g.inn a).getD []).map Prod.fst →
      alookup2 g.out x a = none := by
    intro x hmem
    by_contra hne
    obtain ⟨e, he⟩ := Option.ne_none_iff_exists'.mp hne
    obtain ⟨mx, hmx, hma⟩ := alookup2_eq_some_elim he
    have h1 := hwf.outInn (x, mx) (mem_of_alookup_eq_some _ _ _ hmx)
      (a, e) (mem_of_alookup_eq_some _ _ _ hma)
    obtain ⟨m', hm', hx'⟩ := alookup2_eq_some_elim h1
    apply hmem
    rw [hm']
    simp only [Option.getD_some]
    exact List.mem_map.mpr ⟨(x, e), mem_of_alookup_eq_some _ _ _ hx', rfl⟩
  have hInnA : ∀ x, x ∉ ((alookup g.out a).getD []).map Prod.fst →
      alookup2 g.inn x a = none := by
    intro x hmem
    by_contra hne
    obtain ⟨e, he⟩ := Option.ne_none_iff_exists'.mp hne
    obtain ⟨mx, hmx, hma⟩ := alookup2_eq_some_elim he
    have h1 := hwf.innOut (x, mx) (mem_of_alookup_eq_some _ _ _ hmx)
      (a, e) (mem_of_alookup_eq_some _ _ _ hma)
    obtain ⟨m', hm', hx'⟩ := alookup2_eq_some_elim h1
    apply hmem
    rw [hm']
    simp only [Option.getD_some]
    exact List.mem_map.mpr ⟨(x, e), mem_of_alookup_eq_some _ _ _ hx', rfl⟩
  have hAX : ∀ x, Graph.HasEdge (Graph.RemoveNode g a) a x = false := by
    intro x
    unfold Graph.HasEdge
    rw [hOutLook a x, if_pos rfl]
    rfl
  have hXA : ∀ x, Graph.HasEdge (Graph.RemoveNode g a) x a = false := by
    intro x
    unfold Graph.HasEdge
    rw [hOutLook x a]
    by_cases hx : x = a
    · rw [if_pos hx]; rfl
    · rw [if_neg hx]
      by_cases hmem : x ∈ ((alookup g.inn a).getD []).map Prod.fst
      · rw [if_pos ⟨hmem, rfl⟩]; rfl
      · rw [if_neg (fun hc => hmem hc.1), hOutA x hmem]
        rfl
  refine ⟨hAX, hXA, ?_, ?_, ?_, ?_, ?_⟩
  · -- OutEdges contain no reference to a
    intro x e he
    rw [removeNode_eq g a ha] at he
    unfold Graph.OutEdges at he
    simp only at he
    by_cases hx : x = a
    · rw [hx, alookup_aerase _ a hout1N] at he
      simp at he
    · rw [alookup_aerase_ne _ a x (fun h => hx h.symm)] at he
      cases hlk : alookup (((alookup g.inn a).getD []).foldl
          (fun acc p => aerase2 acc p.1 a) g.out) x with
      | none => rw [hlk] at he; simp at he
      | some mx' =>
        rw [hlk] at he
        simp only [Option.getD_some] at he
        obtain ⟨q, hq, rfl⟩ := List.mem_map.mp he
        have hq2 := foldl_aerase2_mem_inner _ _ _ _ _ q hlk hq
          hwf.outInnerNodup
        obtain ⟨mx, hmx, hmq⟩ := alookup2_eq_some_elim hq2
        have hfc := hwf.fieldConsistent (x, mx)
          (mem_of_alookup_eq_some _ _ _ hmx) (q.1, q.2)
          (mem_of_alookup_eq_some _ _ _ hmq)
        refine ⟨by rw [hfc.1]; exact hx, ?_⟩
        rw [hfc.2]
        by_cases hmem : x ∈ ((alookup g.inn a).getD []).map Prod.fst
        · exact foldl_aerase2_not_key _ _ _ _ _ q hlk hq hmem
            hwf.outInnerNodup
        · intro hqa
          rw [hqa] at hq2
          rw [hOutA x hmem] at hq2
          exact Option.noConfusion hq2
  · -- InEdges contain no reference to a
    intro x e he
    rw [removeNode_eq g a ha] at he
    unfold Graph.InEdges at he
    simp only at he
    by_cases hx : x = a
    · rw [hx, alookup_aerase _ a hinn1N] at he
      simp at he
    · rw [alookup_aerase_ne _ a x (fun h => hx h.symm)] at he
      cases hlk : alookup (((alookup g.out a).getD []).foldl
          (fun acc p => aerase2 acc p.1 a) g.inn) x with
      | none => rw [hlk] at he; simp at he
      | some mx' =>
        rw [hlk] at he
        simp only [Option.getD_some] at he
        obtain ⟨q, hq, rfl⟩ := List.mem_map.mp he
        have hq2 := foldl_aerase2_mem_inner _ _ _ _ _ q hlk hq
          hwf.innInnerNodup
        obtain ⟨mx, hmx, hmq⟩ := alookup2_eq_some_elim hq2
        have hfc := hwf.fieldConsistentIn (x, mx)
          (mem_of_alookup_eq_some _ _ _ hmx) (q.1, q.2)
          (mem_of_alookup_eq_some _ _ _ hmq)
        refine ⟨?_, by rw [hfc.2]; exact hx⟩
        rw [hfc.1]
        by_cases hmem : x ∈ ((alookup g.out a).getD []).map Prod.fst
        · exact foldl_aerase2_not_key _ _ _ _ _ q hlk hq hmem
            hwf.innInnerNodup
        · intro hqa
          rw [hqa] at hq2
          rw [hInnA x hmem] at hq2
          exact Option.noConfusion hq2
  · -- node metadata unreachable
    unfold Graph.NodeMeta Graph.HasNode
    rw [removeNode_eq g a ha]
    simp only
    rw [alookup_aerase _ a hwf.nodesNodup]
    rfl
  · intro x
    unfold Graph.EdgeMeta
    rw [hAX x]
    rfl
  · intro x
    unfold Graph.EdgeMeta
    rw [hXA x]
    rfl

/-- A concrete graph (nodes a, b; edge a → b; metadata on a and on the
edge) for exercising `RemoveNode`. -/
def removeWitnessGraph : Graph Nat Unit Unit :=
  Graph.edgeMetaUpdate
    (Graph.nodeMetaUpdate frameWitnessGraph "a"
      (fun st => Store.Set st "color" ()))
    "a" "b" (fun st => Store.Set st "kind" ())

theorem removeNode_clean_witness :
    Graph.HasEdge (Graph.RemoveNode removeWitnessGraph "a") "a" "b" = false ∧
    Graph.HasEdge (Graph.RemoveNode removeWitnessGraph "a") "b" "a" = false ∧
    Graph.NodeMeta (Graph.RemoveNode removeWitnessGraph "a") "a" = none ∧
    Graph.EdgeMeta (Graph.RemoveNode removeWitnessGraph "a") "a" "b" =
      none := by
  have h := removeNode_clean removeWitnessGraph "a" (by decide) (by decide)
  exact ⟨h.1 "b", h.2.1 "b", h.2.2.2.2.1, h.2.2.2.2.2.1 "b"⟩

/-! ### C5: a concrete shortest path -/

instance {ε α : Type} [DecidableEq ε] [DecidableEq α] :
    DecidableEq (Except ε α)
  | .ok x, .ok y =>
    match decEq x y with
    | isTrue h => isTrue (by rw [h])
    | isFalse h => isFalse (fun hh => h (Except.ok.inj hh))
  | .error x, .error y =>
    match decEq x y with
    | isTrue h => isTrue (by rw [h])
    | isFalse h => isFalse (fun hh => h (Except.error.inj hh))
  | .ok _, .error _ => isFalse (fun h => Except.noConfusion h)
  | .error _, .ok _ => isFalse (fun h => Except.noConfusion h)

/-- The claim's graph: directed, nodes {a,b,c,d}, edges a→b(1), b→d(2),
a→c(1), c→d(1). -/
def c5graph : Graph Unit Unit Unit :=
  let g0 := Graph.AddNode (Graph.AddNode (Graph.AddNode (Graph.AddNode
    (NewGraph Unit Unit Unit true) "a" ()) "b" ()) "c" ()) "d" ()
  let g1 := match Graph.AddEdge g0 "a" "b" () 1 with
    | .ok g => g | .error _ => g0
  let g2 := match Graph.AddEdge g1 "b" "d" () 2 with
    | .ok g => g | .error _ => g1
  let g3 := match Graph.AddEdge g2 "a" "c" () 1 with
    | .ok g => g | .error _ => g2
  match Graph.AddEdge g3 "c" "d" () 1 with
    | .ok g => g | .error _ => g3

section
attribute [local semireducible] Rat.add

/-- C5: on the claim's graph, `ShortestPath(g, a, d)` returns the path
`[a, c, d]` with total cost `2.0` and no error (the `.ok` result also
certifies that the model's fuel bound was not hit, i.e. the Go loop
terminates here). -/
theorem shortestPath_c5 :
    ShortestPath c5graph "a" "d" = .ok (["a", "c", "d"], 2) := by
  decide

end

/-! ### C2: readiness propagation after a `done` transition -/

/-- The status of a node, `none` when the node is absent. -/
def statusOf (g : AGraph) (x : String) : Option String :=
  (alookup g.nodes x).map NodeData.Status

/-- The out-adjacency row of a node. -/
def edgeRow (g : Graph N E V) (x : String) : List (String × GEdge E) :=
  (alookup g.out x).getD []

/-- The in-adjacency row of a node. -/
def inRow (g : Graph N E V) (x : String) : List (String × GEdge E) :=
  (alookup g.inn x).getD []

/-- The claim's qualification for readiness promotion of `d` after `n`
turns `done`: an edge `n → d` exists, `d` was `pending` before the
transition, and every incoming dependency of `d` is `done` afterwards
(i.e. is `n` itself or was already `done`). -/
def readyQual (g : AGraph) (n d : String) : Prop :=
  Graph.HasEdge g n d = true ∧
  statusOf g d = some "pending" ∧
  (∀ p, Graph.HasEdge g p d = true → p = n ∨ statusOf g p = some "done")

theorem mem_akeys_elim {α : Type} {l : List (String × α)} {k : String}
    (h : k ∈ akeys l) : ∃ v, (k, v) ∈ l := by
  obtain ⟨p, hp, hpe⟩ := List.mem_map.mp h
  exact ⟨p.2, by rwa [← hpe, Prod.mk.eta]⟩

theorem edgeRow_hasEdge (g : Graph N E V) (f t : String) (e : GEdge E)
    (hwf : Wf g) (hmem : (t, e) ∈ edgeRow g f) :
    Graph.HasEdge g f t = true := by
  unfold edgeRow at hmem
  cases hf : alookup g.out f with
  | none => rw [hf] at hmem; simp at hmem
  | some m =>
    rw [hf] at hmem
    simp only [Option.getD_some] at hmem
    have hnd : NodupKeys m := hwf.outInnerNodup (f, m)
      (mem_of_alookup_eq_some _ _ _ hf)
    unfold Graph.HasEdge alookup2
    rw [hf]
    have h' : (alookup m t).isSome = true := by
      rw [alookup_eq_some_of_mem m t e hnd hmem]
      rfl
    exact h'

theorem hasEdge_edgeRow (g : Graph N E V) (f t : String)
    (h : Graph.HasEdge g f t = true) :
    ∃ e, (t, e) ∈ edgeRow g f := by
  unfold Graph.HasEdge alookup2 at h
  cases hf : alookup g.out f with
  | none => rw [hf] at h; simp at h
  | some m =>
    rw [hf] at h
    have h' : (alookup m t).isSome = true := h
    cases ht : alookup m t with
    | none => rw [ht] at h'; simp at h'
    | some e =>
      refine ⟨e, ?_⟩
      unfold edgeRow
      rw [hf]
      exact mem_of_alookup_eq_some m t e ht

theorem edgeRow_target_rows (g : Graph N E V) (f t : String) (e : GEdge E)
    (hwf : Wf g) (hmem : (t, e) ∈ edgeRow g f) :
    (alookup g.nodes t).isSome = true ∧
    (alookup g.out t).isSome = true ∧
    (alookup g.inn t).isSome = true := by
  unfold edgeRow at hmem
  cases hf : alookup g.out f with
  | none => rw [hf] at hmem; simp at hmem
  | some m =>
    rw [hf] at hmem
    simp only [Option.getD_some] at hmem
    have hio := hwf.outInn (f, m) (mem_of_alookup_eq_some _ _ _ hf) (t, e) hmem
    obtain ⟨m', hm', _⟩ := alookup2_eq_some_elim hio
    have htnodes : t ∈ akeys g.nodes :=
      hwf.innKeysNodes (t, m') (mem_of_alookup_eq_some _ _ _ hm')
    obtain ⟨v, hv⟩ := mem_akeys_elim htnodes
    refine ⟨?_, ?_, ?_⟩
    · cases hl : alookup g.nodes t with
      | none => exact absurd hl (alookup_ne_none_of_mem_akeys _ _ htnodes)
      | some _ => rfl
    · have := hwf.nodesKeysOut (t, v) hv
      cases hl : alookup g.out t with
      | none => exact absurd hl (alookup_ne_none_of_mem_akeys _ _ this)
      | some _ => rfl
    · have := hwf.nodesKeysInn (t, v) hv
      cases hl : alookup g.inn t with
      | none => exact absurd hl (alookup_ne_none_of_mem_akeys _ _ this)
      | some _ => rfl

/-- `AddNode` on a node whose adjacency rows exist does not change the
adjacency structure. -/
theorem addNode_rows_eq (g : Graph N E V) (x : String) (d : N)
    (hout : (alookup g.out x).isSome = true)
    (hinn : (alookup g.inn x).isSome = true) :
    (Graph.AddNode g x d).out = g.out ∧
    (Graph.AddNode g x d).inn = g.inn ∧
    (Graph.AddNode g x d).nodes = aset g.nodes x d ∧
    (Graph.AddNode g x d).nodeMeta = g.nodeMeta ∧
    (Graph.AddNode g x d).edgeMeta = g.edgeMeta := by
  have ho : ¬ (alookup g.out x).isNone = true := by
    rw [Option.isNone_iff_eq_none]
    intro hc
    rw [hc] at hout
    exact Bool.noConfusion hout
  have hi : ¬ (alookup g.inn x).isNone = true := by
    rw [Option.isNone_iff_eq_none]
    intro hc
    rw [hc] at hinn
    exact Bool.noConfusion hinn
  refine ⟨?_, ?_, rfl, rfl, rfl⟩
  · show (if (alookup g.out x).isNone = true then aset g.out x [] else g.out)
      = g.out
    rw [if_neg ho]
  · show (if (alookup g.inn x).isNone = true then aset g.inn x [] else g.inn)
      = g.inn
    rw [if_neg hi]

theorem inRow_hasEdge (g : Graph N E V) (t f : String) (ie : GEdge E)
    (hwf : Wf g) (hmem : (f, ie) ∈ inRow g t) :
    Graph.HasEdge g f t = true ∧ ie.From = f := by
  unfold inRow at hmem
  cases ht : alookup g.inn t with
  | none => rw [ht] at hmem; simp at hmem
  | some m =>
    rw [ht] at hmem
    simp only [Option.getD_some] at hmem
    have hio := hwf.innOut (t, m) (mem_of_alookup_eq_some _ _ _ ht)
      (f, ie) hmem
    have hfc := hwf.fieldConsistentIn (t, m)
      (mem_of_alookup_eq_some _ _ _ ht) (f, ie) hmem
    refine ⟨?_, hfc.1⟩
    unfold Graph.HasEdge
    rw [hio]
    rfl

theorem hasEdge_inRow (g : Graph N E V) (p t : String)
    (hwf : Wf g) (h : Graph.HasEdge g p t = true) :
    ∃ ie, (p, ie) ∈ inRow g t := by
  unfold Graph.HasEdge at h
  cases he : alookup2 g.out p t with
  | none => rw [he] at h; exact Bool.noConfusion h
  | some e =>
    obtain ⟨m, hm, hmt⟩ := alookup2_eq_some_elim he
    have hio := hwf.outInn (p, m) (mem_of_alookup_eq_some _ _ _ hm)
      (t, e) (mem_of_alookup_eq_some _ _ _ hmt)
    obtain ⟨m', hm', hx'⟩ := alookup2_eq_some_elim hio
    refine ⟨e, ?_⟩
    unfold inRow
    rw [hm']
    exact mem_of_alookup_eq_some m' p e hx'

theorem propagateStep_none (gcur : AGraph) (acc : List String)
    (e : GEdge EdgeData) (h : alookup gcur.nodes e.To = none) :
    propagateStep (gcur, acc) e = (gcur, acc) := by
  unfold propagateStep
  simp [h]

theorem propagateStep_notPending (gcur : AGraph) (acc : List String)
    (e : GEdge EdgeData) (dd : NodeData)
    (h : alookup gcur.nodes e.To = some dd) (h2 : dd.Status ≠ "pending") :
    propagateStep (gcur, acc) e = (gcur, acc) := by
  unfold propagateStep
  simp [h, h2]

theorem propagateStep_promote (gcur : AGraph) (acc : List String)
    (e : GEdge EdgeData) (dd : NodeData)
    (h : alookup gcur.nodes e.To = some dd) (h2 : dd.Status = "pending")
    (h3 : (Graph.InEdges gcur e.To).all (fun ie =>
      match alookup gcur.nodes ie.From with
      | none => false
      | some dep => dep.Status = "done") = true) :
    propagateStep (gcur, acc) e =
      (Graph.AddNode gcur e.To ⟨dd.Label, "ready"⟩, acc ++ [e.To]) := by
  unfold propagateStep
  simp [h, h2, h3]

theorem propagateStep_skip (gcur : AGraph) (acc : List String)
    (e : GEdge EdgeData) (dd : NodeData)
    (h : alookup gcur.nodes e.To = some dd) (h2 : dd.Status = "pending")
    (h3 : ¬ (Graph.InEdges gcur e.To).all (fun ie =>
      match alookup gcur.nodes ie.From with
      | none => false
      | some dep => dep.Status = "done") = true) :
    propagateStep (gcur, acc) e = (gcur, acc) := by
  unfold propagateStep
  simp [h, h2, h3]

/-- The workhorse induction for the readiness-propagation loop of
`Manager.Transition`: folding `propagateStep` over a sub-row of the
done-node's out-edges promotes exactly the qualifying downstream nodes. -/
theorem propagate_fold_inv
    (g : AGraph) (n : String) (nd : NodeData)
    (hwf : Wf g) (hn : alookup g.nodes n = some nd)
    (hrun : nd.Status = "running") :
    ∀ (l : List (String × GEdge EdgeData)) (gcur : AGraph)
      (acc : List String),
    (∀ p ∈ l, p ∈ edgeRow g n) →
    (l.map Prod.fst).Nodup →
    gcur.out = g.out →
    gcur.inn = g.inn →
    (∀ p ∈ l, p.1 ∉ acc) →
    (∀ x, x ∉ acc → alookup gcur.nodes x =
       alookup (Graph.AddNode g n ⟨nd.Label, "done"⟩).nodes x) →
    (∀ x ∈ acc, readyQual g n x ∧ ∃ od, alookup g.nodes x = some od ∧
       od.Status = "pending" ∧ alookup gcur.nodes x = some ⟨od.Label, "ready"⟩) →
    ((l.foldl (fun st p => propagateStep st p.2) (gcur, acc)).1.out = g.out ∧
     (l.foldl (fun st p => propagateStep st p.2) (gcur, acc)).1.inn = g.inn ∧
     (∀ x, x ∉ (l.foldl (fun st p => propagateStep st p.2) (gcur, acc)).2 →
       alookup (l.foldl (fun st p => propagateStep st p.2) (gcur, acc)).1.nodes x =
       alookup (Graph.AddNode g n ⟨nd.Label, "done"⟩).nodes x) ∧
     (∀ x ∈ (l.foldl (fun st p => propagateStep st p.2) (gcur, acc)).2,
       readyQual g n x ∧ ∃ od, alookup g.nodes x = some od ∧
       od.Status = "pending" ∧
       alookup (l.foldl (fun st p => propagateStep st p.2) (gcur, acc)).1.nodes x =
         some ⟨od.Label, "ready"⟩) ∧
     (∀ x ∈ acc, x ∈ (l.foldl (fun st p => propagateStep st p.2) (gcur, acc)).2) ∧
     (∀ p ∈ l, readyQual g n p.1 →
       p.1 ∈ (l.foldl (fun st p => propagateStep st p.2) (gcur, acc)).2)) := by
  -- facts about the done-node and its rows
  have hnmem : (n, nd) ∈ g.nodes := mem_of_alookup_eq_some _ _ _ hn
  have hnout : (alookup g.out n).isSome = true := by
    have := hwf.nodesKeysOut (n, nd) hnmem
    cases hl : alookup g.out n with
    | none => exact absurd hl (alookup_ne_none_of_mem_akeys _ _ this)
    | some _ => rfl
  have hninn : (alookup g.inn n).isSome = true := by
    have := hwf.nodesKeysInn (n, nd) hnmem
    cases hl : alookup g.inn n with
    | none => exact absurd hl (alookup_ne_none_of_mem_akeys _ _ this)
    | some _ => rfl
  have hgdrows := addNode_rows_eq g n (⟨nd.Label, "done"⟩ : NodeData)
    hnout hninn
  have hgdn : alookup (Graph.AddNode g n ⟨nd.Label, "done"⟩).nodes n =
      some ⟨nd.Label, "done"⟩ := by
    rw [hgdrows.2.2.1]
    exact alookup_aset g.nodes n _
  have hgdx : ∀ x, x ≠ n →
      alookup (Graph.AddNode g n ⟨nd.Label, "done"⟩).nodes x =
      alookup g.nodes x := by
    intro x hx
    rw [hgdrows.2.2.1]
    exact alookup_aset_ne g.nodes n x _ (fun h => hx h.symm)
  intro l
  induction l with
  | nil =>
    intro gcur acc _ _ hout hinn _ hframe hacc
    simp only [List.foldl_nil]
    exact ⟨hout, hinn, hframe,
      fun x hx => ⟨(hacc x hx).1, (hacc x hx).2⟩,
      fun x hx => hx, fun p hp => absurd hp (List.not_mem_nil p)⟩
  | cons hd rest ih =>
    intro gcur acc hsub hlnd hout hinn hfresh hframe hacc
    obtain ⟨t, e⟩ := hd
    simp only [List.map_cons, List.nodup_cons] at hlnd
    have hhdrow : (t, e) ∈ edgeRow g n := hsub (t, e) (by simp)
    have hfreshhd : t ∉ acc := hfresh (t, e) (by simp)
    have hsub' : ∀ p ∈ rest, p ∈ edgeRow g n :=
      fun p hp => hsub p (List.mem_cons_of_mem _ hp)
    have hfresh' : ∀ p ∈ rest, p.1 ∉ acc :=
      fun p hp => hfresh p (List.mem_cons_of_mem _ hp)
    have heTo : e.To = t ∧ e.From = n := by
      unfold edgeRow at hhdrow
      cases hf : alookup g.out n with
      | none => rw [hf] at hhdrow; simp at hhdrow
      | some m =>
        rw [hf] at hhdrow
        simp only [Option.getD_some] at hhdrow
        have := hwf.fieldConsistent (n, m) (mem_of_alookup_eq_some _ _ _ hf)
          (t, e) hhdrow
        exact ⟨this.2, this.1⟩
    -- the status transfer between the current graph and the base graph
    have htrans : ∀ p, ((match alookup gcur.nodes p with
        | none => false
        | some dep => decide (dep.Status = "done")) = true) ↔
        (p = n ∨ statusOf g p = some "done") := by
      intro p
      constructor
      · intro hmatch
        cases hlp : alookup gcur.nodes p with
        | none => rw [hlp] at hmatch; exact Bool.noConfusion hmatch
        | some dep =>
          rw [hlp] at hmatch
          have hdep : dep.Status = "done" := by simpa using hmatch
          by_cases hpacc : p ∈ acc
          · obtain ⟨_, od, _, _, hlook⟩ := hacc p hpacc
            rw [hlook] at hlp
            cases hlp
            simp at hdep
          · have := hframe p hpacc
            rw [hlp] at this
            by_cases hpn : p = n
            · exact Or.inl hpn
            · rw [hgdx p hpn] at this
              unfold statusOf
              rw [← this]
              simp [hdep]
      · intro hcases
        have hpacc : p ∉ acc := by
          intro hpacc
          obtain ⟨_, od, hodg, hodp, _⟩ := hacc p hpacc
          rcases hcases with rfl | hdone
          · rw [hn] at hodg
            cases hodg
            rw [hrun] at hodp
            exact absurd hodp (by decide)
          · unfold statusOf at hdone
            rw [hodg] at hdone
            have hds : od.Status = "done" := by simpa using hdone
            rw [hodp] at hds
            exact absurd hds (by decide)
        have hgcur := hframe p hpacc
        rcases hcases with rfl | hdone
        · rw [hgdn] at hgcur
          rw [hgcur]
          simp
        · by_cases hpn : p = n
          · rw [hpn] at hdone
            unfold statusOf at hdone
            rw [hn] at hdone
            have hds : nd.Status = "done" := by simpa using hdone
            rw [hrun] at hds
            exact absurd hds (by decide)
          · rw [hgdx p hpn] at hgcur
            unfold statusOf at hdone
            cases hlp : alookup g.nodes p with
            | none => rw [hlp] at hdone; simp at hdone
            | some dep =>
              rw [hlp] at hdone
              have hds : dep.Status = "done" := by simpa using hdone
              rw [hlp] at hgcur
              rw [hgcur]
              simp [hds]
    have hgcurt := hframe t hfreshhd
    simp only [List.foldl_cons]
    by_cases htn : t = n
    · -- the done node itself: its status is "done", never pending
      have hlookTo : alookup gcur.nodes e.To = some ⟨nd.Label, "done"⟩ := by
        rw [heTo.1, htn]
        rw [htn] at hgcurt
        exact hgcurt.trans hgdn
      rw [propagateStep_notPending gcur acc e _ hlookTo (by simp)]
      refine (ih gcur acc hsub' hlnd.2 hout hinn hfresh' hframe hacc).imp id
        (fun h => h.imp id (fun h => h.imp id (fun h => h.imp id
          (fun h => h.imp id (fun hcomp p hp hq => ?_)))))
      rcases List.mem_cons.mp hp with rfl | hp'
      · exfalso
        obtain ⟨_, hpend, _⟩ := hq
        rw [htn] at hpend
        unfold statusOf at hpend
        rw [hn] at hpend
        have hds : nd.Status = "pending" := by simpa using hpend
        rw [hrun] at hds
        exact absurd hds (by decide)
      · exact hcomp p hp' hq
    · rw [hgdx t htn] at hgcurt
      cases hgt : alookup g.nodes t with
      | none =>
        have hlookTo : alookup gcur.nodes e.To = none := by
          rw [heTo.1]
          exact hgcurt.trans hgt
        rw [propagateStep_none gcur acc e hlookTo]
        refine (ih gcur acc hsub' hlnd.2 hout hinn hfresh' hframe hacc).imp id
          (fun h => h.imp id (fun h => h.imp id (fun h => h.imp id
            (fun h => h.imp id (fun hcomp p hp hq => ?_)))))
        rcases List.mem_cons.mp hp with rfl | hp'
        · exfalso
          obtain ⟨_, hpend, _⟩ := hq
          unfold statusOf at hpend
          rw [hgt] at hpend
          simp at hpend
        · exact hcomp p hp' hq
      | some dd =>
        have hlookTo : alookup gcur.nodes e.To = some dd := by
          rw [heTo.1]
          exact hgcurt.trans hgt
        by_cases hpend : dd.Status = "pending"
        · -- the dependency check agrees with the claim's condition
          have hdepiff : ((Graph.InEdges gcur e.To).all (fun ie =>
              match alookup gcur.nodes ie.From with
              | none => false
              | some dep => decide (dep.Status = "done")) = true) ↔
              (∀ p, Graph.HasEdge g p t = true →
                p = n ∨ statusOf g p = some "done") := by
            rw [heTo.1]
            constructor
            · intro hall p hpe
              obtain ⟨ie, hie⟩ := hasEdge_inRow g p t hwf hpe
              have hieF : ie.From = p := (inRow_hasEdge g t p ie hwf hie).2
              have hmem : ie ∈ Graph.InEdges gcur t := by
                unfold Graph.InEdges
                rw [hinn]
                exact List.mem_map.mpr ⟨(p, ie), hie, rfl⟩
              have := List.all_eq_true.mp hall ie hmem
              rw [hieF] at this
              exact (htrans p).mp this
            · intro hdep
              rw [List.all_eq_true]
              intro ie hmem
              unfold Graph.InEdges at hmem
              rw [hinn] at hmem
              obtain ⟨⟨f, ie2⟩, hfmem, rfl⟩ := List.mem_map.mp hmem
              have hfe := inRow_hasEdge g t f ie2 hwf hfmem
              rw [hfe.2]
              exact (htrans f).mpr (hdep f hfe.1)
          by_cases hall : (Graph.InEdges gcur e.To).all (fun ie =>
              match alookup gcur.nodes ie.From with
              | none => false
              | some dep => dep.Status = "done") = true
          · rw [propagateStep_promote gcur acc e dd hlookTo hpend hall]
            -- promote t and recurse with the extended accumulator
            have htrows := edgeRow_target_rows g n t e hwf hhdrow
            have haddrows := addNode_rows_eq gcur e.To
              (⟨dd.Label, "ready"⟩ : NodeData)
              (by rw [hout, heTo.1]; exact htrows.2.1)
              (by rw [hinn, heTo.1]; exact htrows.2.2)
            have hq : readyQual g n t := by
              refine ⟨edgeRow_hasEdge g n t e hwf hhdrow, ?_, hdepiff.mp hall⟩
              unfold statusOf
              rw [hgt]
              simp [hpend]
            have hres := ih (Graph.AddNode gcur e.To ⟨dd.Label, "ready"⟩)
              (acc ++ [e.To])
              hsub'
              hlnd.2
              (by rw [haddrows.1, hout])
              (by rw [haddrows.2.1, hinn])
              (fun p hp => by
                simp only [List.mem_append, List.mem_singleton, not_or]
                rw [heTo.1]
                exact ⟨hfresh' p hp, fun hc => hlnd.1
                  (hc ▸ List.mem_map.mpr ⟨p, hp, rfl⟩)⟩)
              (fun x hx => by
                simp only [List.mem_append, List.mem_singleton, not_or] at hx
                rw [haddrows.2.2.1,
                  alookup_aset_ne gcur.nodes e.To x _ (fun h => hx.2 h.symm)]
                exact hframe x hx.1)
              (fun x hx => by
                simp only [List.mem_append, List.mem_singleton] at hx
                rcases hx with hx | rfl
                · obtain ⟨hq2, od, h1, h2, h3⟩ := hacc x hx
                  refine ⟨hq2, od, h1, h2, ?_⟩
                  rw [haddrows.2.2.1,
                    alookup_aset_ne gcur.nodes e.To x _
                      (fun h => hfreshhd ((heTo.1 ▸ h) ▸ hx))]
                  exact h3
                · refine ⟨heTo.1 ▸ hq, dd, heTo.1 ▸ hgt, hpend, ?_⟩
                  rw [haddrows.2.2.1]
                  exact alookup_aset gcur.nodes e.To _)
            refine hres.imp id (fun h => h.imp id (fun h => h.imp id
              (fun h => h.imp id (fun h => ?_))))
            obtain ⟨hsup, hcomp⟩ := h
            refine ⟨fun x hx => hsup x (List.mem_append_left _ hx),
              fun p hp hq2 => ?_⟩
            rcases List.mem_cons.mp hp with rfl | hp'
            · exact hsup t (by rw [heTo.1]; simp)
            · exact hcomp p hp' hq2
          · rw [propagateStep_skip gcur acc e dd hlookTo hpend hall]
            refine (ih gcur acc hsub' hlnd.2 hout hinn hfresh' hframe
              hacc).imp id (fun h => h.imp id (fun h => h.imp id (fun h =>
                h.imp id (fun h => h.imp id (fun hcomp p hp hq => ?_)))))
            rcases List.mem_cons.mp hp with rfl | hp'
            · exact absurd (hdepiff.mpr hq.2.2) hall
            · exact hcomp p hp' hq
        · rw [propagateStep_notPending gcur acc e dd hlookTo hpend]
          refine (ih gcur acc hsub' hlnd.2 hout hinn hfresh' hframe
            hacc).imp id (fun h => h.imp id (fun h => h.imp id (fun h =>
              h.imp id (fun h => h.imp id (fun hcomp p hp hq => ?_)))))
          rcases List.mem_cons.mp hp with rfl | hp'
          · exfalso
            obtain ⟨_, hpend2, _⟩ := hq
            unfold statusOf at hpend2
            rw [hgt] at hpend2
            have hds2 : dd.Status = "pending" := by simpa using hpend2
            exact hpend hds2
          · exact hcomp p hp' hq

theorem apiValidTargets_done {s : String}
    (h : "done" ∈ apiValidTargets s) : s = "running" := by
  unfold apiValidTargets at h
  by_cases h0 : s = ""
  · rw [if_pos h0] at h
    exact absurd h (by decide)
  · rw [if_neg h0] at h
    by_cases h1 : s = "pending"
    · rw [if_pos h1] at h
      exact absurd h (by decide)
    · rw [if_neg h1] at h
      by_cases h2 : s = "ready"
      · rw [if_pos h2] at h
        exact absurd h (by decide)
      · rw [if_neg h2] at h
        by_cases h3 : s = "running"
        · exact h3
        · rw [if_neg h3] at h
          by_cases h4 : s = "failed"
          · rw [if_pos h4] at h
            exact absurd h (by decide)
          · rw [if_neg h4] at h
            exact absurd h (by decide)

/-- C2: immediately after a successful `Manager.Transition` of node `n`
into `done` on an open graph, the done node's status is `done`; every
downstream node `d` with an edge `n → d` that was `pending` before and
all of whose incoming dependencies are now `done` has status `ready` and
appears in the result's `newly_ready` list; `newly_ready` holds only such
nodes; and every other node's status is unchanged. -/
theorem transition_done_propagation
    (m : ManagerG) (gname n : String) (g : AGraph)
    (hwf : Wf g) (hg : alookup m gname = some g)
    (m' : ManagerG) (res : TransitionResultS)
    (hrun : managerTransition m gname n "done" = (m', .ok res)) :
    ∃ g', alookup m' gname = some g' ∧
      statusOf g' n = some "done" ∧
      (∀ d, readyQual g n d →
        statusOf g' d = some "ready" ∧ d ∈ res.NewlyReady) ∧
      (∀ d ∈ res.NewlyReady, readyQual g n d) ∧
      (∀ x, x ≠ n → x ∉ res.NewlyReady → statusOf g' x = statusOf g x) := by
  unfold managerTransition at hrun
  simp only [hg] at hrun
  cases ht : transitionG g n "done" with
  | error e =>
    rw [ht] at hrun
    injection hrun with h1 h2
    exact Except.noConfusion h2
  | ok pr =>
    obtain ⟨g0, res0⟩ := pr
    rw [ht] at hrun
    injection hrun with h1 h2
    injection h2 with hres
    unfold transitionG at ht
    cases hn : alookup g.nodes n with
    | none =>
      simp only [hn] at ht
      exact Except.noConfusion ht
    | some nd =>
      simp only [hn] at ht
      by_cases hv : "done" ∈ apiValidTargets nd.Status
      · rw [if_neg (not_not_intro hv), if_pos trivial] at ht
        injection ht with ht1
        injection ht1 with hg0 hres0
        have hrun2 : nd.Status = "running" := apiValidTargets_done hv
        have hnmem : (n, nd) ∈ g.nodes := mem_of_alookup_eq_some _ _ _ hn
        have hnout : (alookup g.out n).isSome = true := by
          have := hwf.nodesKeysOut (n, nd) hnmem
          cases hl : alookup g.out n with
          | none => exact absurd hl (alookup_ne_none_of_mem_akeys _ _ this)
          | some _ => rfl
        have hninn : (alookup g.inn n).isSome = true := by
          have := hwf.nodesKeysInn (n, nd) hnmem
          cases hl : alookup g.inn n with
          | none => exact absurd hl (alookup_ne_none_of_mem_akeys _ _ this)
          | some _ => rfl
        have hgdrows := addNode_rows_eq g n (⟨nd.Label, "done"⟩ : NodeData)
          hnout hninn
        have hgdn : alookup (Graph.AddNode g n ⟨nd.Label, "done"⟩).nodes n =
            some ⟨nd.Label, "done"⟩ := by
          rw [hgdrows.2.2.1]
          exact alookup_aset g.nodes n _
        have hgdx : ∀ x, x ≠ n →
            alookup (Graph.AddNode g n ⟨nd.Label, "done"⟩).nodes x =
            alookup g.nodes x := by
          intro x hx
          rw [hgdrows.2.2.1]
          exact alookup_aset_ne g.nodes n x _ (fun h => hx h.symm)
        have hOE : Graph.OutEdges (Graph.AddNode g n ⟨nd.Label, "done"⟩) n =
            (edgeRow g n).map Prod.snd := by
          unfold Graph.OutEdges edgeRow
          rw [hgdrows.1]
        have hfold :
            (Graph.OutEdges (Graph.AddNode g n ⟨nd.Label, "done"⟩) n).foldl
              propagateStep (Graph.AddNode g n ⟨nd.Label, "done"⟩, []) =
            (edgeRow g n).foldl (fun st p => propagateStep st p.2)
              (Graph.AddNode g n ⟨nd.Label, "done"⟩, []) := by
          rw [hOE, List.foldl_map]
        have hnodup : ((edgeRow g n).map Prod.fst).Nodup := by
          unfold edgeRow
          cases hf : alookup g.out n with
          | none => simp
          | some row =>
            simp only [Option.getD_some]
            exact hwf.outInnerNodup (n, row) (mem_of_alookup_eq_some _ _ _ hf)
        have hinv := propagate_fold_inv g n nd hwf hn hrun2 (edgeRow g n)
          (Graph.AddNode g n ⟨nd.Label, "done"⟩) []
          (fun p hp => hp) hnodup hgdrows.1 hgdrows.2.1
          (fun p _ => List.not_mem_nil p.1)
          (fun x _ => rfl)
          (fun x hx => absurd hx (List.not_mem_nil x))
        obtain ⟨hFout, hFinn, hFframe, hFmem, _, hFcomp⟩ := hinv
        rw [hfold] at hg0 hres0
        have hnnotF : n ∉ ((edgeRow g n).foldl
            (fun st p => propagateStep st p.2)
            (Graph.AddNode g n ⟨nd.Label, "done"⟩, [])).2 := by
          intro hc
          obtain ⟨_, od, hod, hodp, _⟩ := hFmem n hc
          rw [hn] at hod
          injection hod with hod2
          rw [← hod2, hrun2] at hodp
          exact absurd hodp (by decide)
        refine ⟨g0, ?_, ?_, ?_, ?_, ?_⟩
        · rw [← h1]
          exact alookup_aset m gname g0
        · unfold statusOf
          rw [← hg0, hFframe n hnnotF, hgdn]
          rfl
        · intro d hq
          obtain ⟨e, he⟩ := hasEdge_edgeRow g n d hq.1
          have hdF := hFcomp (d, e) he hq
          obtain ⟨_, od, hod, hodp, hlook⟩ := hFmem d hdF
          constructor
          · unfold statusOf
            rw [← hg0, hlook]
            rfl
          · rw [← hres, ← hres0]
            exact hdF
        · intro d hd
          rw [← hres, ← hres0] at hd
          exact (hFmem d hd).1
        · intro x hxn hxF
          rw [← hres, ← hres0] at hxF
          unfold statusOf
          rw [← hg0, hFframe x hxF, hgdx x hxn]
      · rw [if_pos hv] at ht
        exact Except.noConfusion ht

/-- The C2 scenario graph: tasks `a`, `b`, `c` with `c` depending on `a`
and on `b`; `a` and `b` are `running`, `c` is `pending`. -/
def c2graph : AGraph :=
  let g0 := ((((NewGraph NodeData EdgeData Jval true).AddNode
    "a" ⟨"a", "running"⟩).AddNode "b" ⟨"b", "running"⟩).AddNode
    "c" ⟨"c", "pending"⟩)
  let g1 := match g0.AddEdge "a" "c" ⟨"dep"⟩ 1 with
    | .ok g => g
    | .error _ => g0
  match g1.AddEdge "b" "c" ⟨"dep"⟩ 1 with
  | .ok g => g
  | .error _ => g1

/-- The scenario manager holding the open graph `g`. -/
def c2mgr : ManagerG := [("g", c2graph)]

/-- The manager after transitioning `a` to `done`. -/
def c2mgr1 : ManagerG := (managerTransition c2mgr "g" "a" "done").1

/-- The graph after transitioning `a` to `done`. -/
def c2g1 : AGraph :=
  (alookup c2mgr1 "g").getD (NewGraph NodeData EdgeData Jval true)

/-- The manager after also transitioning `b` to `done`. -/
def c2mgr2 : ManagerG := (managerTransition c2mgr1 "g" "b" "done").1

theorem transition_done_propagation_witness :
    (managerTransition c2mgr "g" "a" "done").2 =
      .ok ⟨"a", "running", "done", []⟩ ∧
    Wf c2g1 ∧ alookup c2mgr1 "g" = some c2g1 ∧
    managerTransition c2mgr1 "g" "b" "done" =
      (c2mgr2, .ok ⟨"b", "running", "done", ["c"]⟩) ∧
    (∃ g', alookup c2mgr2 "g" = some g' ∧
      statusOf g' "b" = some "done" ∧
      (∀ d, readyQual c2g1 "b" d →
        statusOf g' d = some "ready" ∧ d ∈ ["c"]) ∧
      (∀ d ∈ ["c"], readyQual c2g1 "b" d) ∧
      (∀ x, x ≠ "b" → x ∉ ["c"] → statusOf g' x = statusOf c2g1 x)) :=
  ⟨by decide, by decide, by decide, by decide,
   transition_done_propagation c2mgr1 "g" "b" c2g1 (by decide) (by decide)
     c2mgr2 ⟨"b", "running", "done", ["c"]⟩ (by decide)⟩


/-! ### C4: byte-determinism of `Marshal`

`encoding/json` is a function of the snapshot value, so byte-level
determinism is `marshalG g1 opts = marshalG g2 opts` whenever `g1` and
`g2` are the same logical state (`LogicalEq`): the only nondeterminism
in the Go program is map-iteration order, which the model exposes as
list order. -/

theorem nodeLt_key {N : Type} (a b : String × N) :
    nodeLt a b = true ↔ a.1 < b.1 := by
  simp [nodeLt]

theorem keyPairLt_key (a b : String × String) :
    keyPairLt a b = true ↔ toLex a < toLex b := by
  rw [Prod.Lex.lt_iff]
  unfold keyPairLt
  by_cases h : a.1 = b.1
  · rw [if_neg (not_not_intro h)]
    simp [h]
  · rw [if_pos h]
    simp [h]

theorem edgeLt_key {E : Type} (a b : GEdge E) :
    edgeLt a b = true ↔
      toLex (a.From, a.To) < toLex (b.From, b.To) := by
  rw [Prod.Lex.lt_iff]
  unfold edgeLt
  by_cases h : a.From = b.From
  · rw [if_neg (not_not_intro h)]
    simp [h]
  · rw [if_pos h]
    simp [h]

theorem alookup_eq_of_perm {α : Type} {l1 l2 : List (String × α)}
    (hnd : NodupKeys l1) (hp : l1.Perm l2) (k : String) :
    alookup l1 k = alookup l2 k := by
  have hnd2 : NodupKeys l2 := by
    unfold NodupKeys akeys at hnd ⊢
    exact (hp.map Prod.fst).nodup_iff.mp hnd
  cases h : alookup l1 k with
  | none =>
    cases h2 : alookup l2 k with
    | none => rfl
    | some v =>
      have hmem : (k, v) ∈ l1 :=
        hp.symm.subset (mem_of_alookup_eq_some _ _ _ h2)
      rw [alookup_eq_some_of_mem l1 k v hnd hmem] at h
      exact Option.noConfusion h
  | some v =>
    exact (alookup_eq_some_of_mem l2 k v hnd2
      (hp.subset (mem_of_alookup_eq_some _ _ _ h))).symm

theorem flat2_cons {α : Type} (p : String × List (String × α))
    (rest : List (String × List (String × α))) :
    flat2 (p :: rest) = p.2.map (fun q => (p.1, q.1, q.2)) ++ flat2 rest :=
  rfl

theorem mem_flat2 {α : Type} {l : List (String × List (String × α))}
    {a b : String} {v : α} :
    (a, b, v) ∈ flat2 l ↔ ∃ row, (a, row) ∈ l ∧ (b, v) ∈ row := by
  induction l with
  | nil => simp [flat2]
  | cons p rest ih =>
    rw [flat2_cons, List.mem_append, ih]
    constructor
    · intro h
      rcases h with h | ⟨row, h1, h2⟩
      · obtain ⟨q, hq, hqe⟩ := List.mem_map.mp h
        injection hqe with h1 h2
        injection h2 with h2 h3
        exact ⟨p.2, by rw [← h1]; simp, by rw [← h2, ← h3]; exact hq⟩
      · exact ⟨row, List.mem_cons_of_mem _ h1, h2⟩
    · intro h
      obtain ⟨row, h1, h2⟩ := h
      rcases List.mem_cons.mp h1 with h1 | h1
      · left
        subst h1
        exact List.mem_map.mpr ⟨(b, v), h2, rfl⟩
      · exact Or.inr ⟨row, h1, h2⟩

theorem flat2_keys_nodup {α : Type} {l : List (String × List (String × α))}
    (h1 : NodupKeys l) (h2 : ∀ p ∈ l, NodupKeys p.2) :
    ((flat2 l).map (fun t => (t.1, t.2.1))).Nodup := by
  induction l with
  | nil => simp [flat2]
  | cons p rest ih =>
    simp only [NodupKeys, akeys, List.map_cons, List.nodup_cons] at h1
    rw [flat2_cons, List.map_append]
    refine List.Nodup.append ?_ (ih h1.2 (fun q hq => h2 q
      (List.mem_cons_of_mem _ hq))) ?_
    · rw [List.map_map]
      have hin := h2 p (by simp)
      unfold NodupKeys akeys at hin
      have heq : (p.2.map ((fun t : String × String × α => (t.1, t.2.1)) ∘
          (fun q => (p.1, q.1, q.2)))) =
          (p.2.map Prod.fst).map (fun k => (p.1, k)) := by
        rw [List.map_map]
        rfl
      rw [heq]
      refine hin.map ?_
      intro x y hxy
      exact (Prod.mk.injEq _ _ _ _ ▸ hxy).2
    · intro x hx1 hx2
      obtain ⟨q, hq, hqe⟩ := List.mem_map.mp hx1
      obtain ⟨q2, hq2, hq2e⟩ := List.mem_map.mp hq
      obtain ⟨t, ht, hte⟩ := List.mem_map.mp hx2
      obtain ⟨row, hrowm, _⟩ := mem_flat2.mp ht
      apply h1.1
      have ht1 : t.1 = p.1 := by
        have hx : t.1 = x.1 := by
          rw [← hte]
        rw [hx, ← hqe, ← hq2e]
      rw [← ht1]
      exact List.mem_map.mpr ⟨(t.1, row), hrowm, rfl⟩

theorem alookup2_of_mem_flat2 {α : Type}
    {l : List (String × List (String × α))} {t : String × String × α}
    (h1 : NodupKeys l) (h2 : ∀ p ∈ l, NodupKeys p.2)
    (hm : t ∈ flat2 l) : alookup2 l t.1 t.2.1 = some t.2.2 := by
  obtain ⟨a, b, v⟩ := t
  obtain ⟨row, hrow, hbv⟩ := mem_flat2.mp hm
  show alookup2 l a b = some v
  unfold alookup2
  rw [alookup_eq_some_of_mem l a row h1 hrow]
  exact alookup_eq_some_of_mem row b v (h2 (a, row) hrow) hbv

theorem mem_flat2_of_alookup2 {α : Type}
    {l : List (String × List (String × α))} {a b : String} {v : α}
    (h : alookup2 l a b = some v) : (a, b, v) ∈ flat2 l := by
  obtain ⟨row, hrow, hin⟩ := alookup2_eq_some_elim h
  exact mem_flat2.mpr ⟨row, mem_of_alookup_eq_some _ _ _ hrow,
    mem_of_alookup_eq_some _ _ _ hin⟩

theorem filter_map_comm {α β : Type} (l : List α) (f : α → β)
    (p : α → Bool) (q : β → Bool) (h : ∀ a ∈ l, q (f a) = p a) :
    (l.filter p).map f = (l.map f).filter q := by
  induction l with
  | nil => rfl
  | cons x xs ih =>
    have hx := h x (by simp)
    have ih2 := ih (fun a ha => h a (List.mem_cons_of_mem _ ha))
    by_cases hpx : p x = true
    · rw [List.filter_cons, if_pos hpx, List.map_cons, List.map_cons,
        List.filter_cons]
      rw [hpx] at hx
      rw [if_pos hx, ih2]
    · have hpx2 : p x = false := by
        cases hp2 : p x
        · rfl
        · exact absurd hp2 hpx
      rw [hpx2] at hx
      rw [List.filter_cons, if_neg (by rw [hpx2]; exact Bool.false_ne_true),
        List.map_cons, List.filter_cons,
        if_neg (by rw [hx]; exact Bool.false_ne_true), ih2]


theorem schemaOut_congr {V : Type} {s1 s2 : Store V}
    (hiff : s1.schema = none ↔ s2.schema = none)
    (hperm : (s1.schema.getD []).Perm (s2.schema.getD []))
    (hnd : NodupKeys (s1.schema.getD [])) (flag : Bool) :
    schemaOut flag s1 = schemaOut flag s2 := by
  unfold schemaOut
  cases flag with
  | false => rfl
  | true =>
    rw [if_pos rfl, if_pos rfl]
    cases h1 : s1.schema with
    | none =>
      cases h2 : s2.schema with
      | none => rfl
      | some l2 =>
        rw [h2] at hiff
        exact absurd (hiff.mp h1) (by simp)
    | some l1 =>
      cases h2 : s2.schema with
      | none =>
        rw [h1] at hiff
        exact absurd (hiff.mpr h2) (by simp)
      | some l2 =>
        rw [h1, h2] at hperm
        rw [h1] at hnd
        simp only [Option.getD_some] at hperm hnd
        show (if l1.isEmpty = true then none
            else some (sortWith nodeLt l1)) =
          (if l2.isEmpty = true then none else some (sortWith nodeLt l2))
        have hie : l1.isEmpty = l2.isEmpty := by
          cases l1 with
          | nil => rw [hperm.nil_eq.symm]
          | cons a as =>
            cases l2 with
            | nil => exact absurd hperm.symm.nil_eq (by simp)
            | cons b bs => rfl
        rw [hie, sortWith_eq_of_perm (fun a b => nodeLt_key a b) hperm hnd]

/-- Prepend an optional emitted record. -/
def emitCons {γ : Type} (o : Option γ) (acc : List γ) : List γ :=
  match o with
  | none => acc
  | some r => r :: acc

/-- The optional record `Marshal` emits for one node's metadata. -/
def emitNodeMeta (g : Graph N E V) (schemas : Bool) (n : String × N) :
    Option (NodeMetaOut V) :=
  match alookup g.nodeMeta n.1 with
  | none => none
  | some store =>
    if store.Len = 0 then none
    else some ⟨n.1, sortWith nodeLt store.entries, schemaOut schemas store⟩

theorem marshalNodeMeta_emit (g : Graph N E V) (s : Bool) :
    marshalNodeMeta g s = (Graph.Nodes g).foldr
      (fun n acc => emitCons (emitNodeMeta g s n) acc) [] := by
  unfold marshalNodeMeta
  congr 1
  funext n acc
  unfold emitNodeMeta emitCons
  cases alookup g.nodeMeta n.1 with
  | none => rfl
  | some store =>
    by_cases hl : store.Len = 0
    · simp [hl]
    · simp [hl]

theorem foldr_emit_congr {β γ : Type} (l : List β) (f1 f2 : β → Option γ)
    (h : ∀ b ∈ l, f1 b = f2 b) :
    l.foldr (fun b acc => emitCons (f1 b) acc) [] =
    l.foldr (fun b acc => emitCons (f2 b) acc) [] := by
  induction l with
  | nil => rfl
  | cons x xs ih =>
    simp only [List.foldr_cons]
    rw [ih (fun b hb => h b (List.mem_cons_of_mem _ hb)), h x (by simp)]

theorem emitNodeMeta_congr (g1 g2 : Graph N E V) (s : Bool) (n : String × N)
    (heq : StoreEquivOpt (alookup g1.nodeMeta n.1) (alookup g2.nodeMeta n.1))
    (hwf1 : ∀ st, alookup g1.nodeMeta n.1 = some st → StoreWf st) :
    emitNodeMeta g1 s n = emitNodeMeta g2 s n := by
  unfold emitNodeMeta
  cases h1 : alookup g1.nodeMeta n.1 with
  | none =>
    cases h2 : alookup g2.nodeMeta n.1 with
    | none => rfl
    | some st2 =>
      rw [h1, h2] at heq
      exact heq.elim
  | some st1 =>
    cases h2 : alookup g2.nodeMeta n.1 with
    | none =>
      rw [h1, h2] at heq
      exact heq.elim
    | some st2 =>
      rw [h1, h2] at heq
      have heq2 : StoreEquiv st1 st2 := heq
      obtain ⟨hent, hiff, hsch⟩ := heq2
      have hwf := hwf1 st1 h1
      have hlen : st1.Len = st2.Len := hent.length_eq
      show (if st1.Len = 0 then none
          else some (⟨n.1, sortWith nodeLt st1.entries, schemaOut s st1⟩ :
            NodeMetaOut V)) =
        (if st2.Len = 0 then none
          else some (⟨n.1, sortWith nodeLt st2.entries, schemaOut s st2⟩ :
            NodeMetaOut V))
      by_cases hz : st1.Len = 0
      · rw [if_pos hz, if_pos (by rw [← hlen]; exact hz)]
      · rw [if_neg hz, if_neg (by rw [← hlen]; exact hz),
          sortWith_eq_of_perm (fun a b => nodeLt_key a b) hent hwf.1,
          schemaOut_congr hiff hsch hwf.2 s]

theorem marshalNodeMeta_eq (g1 g2 : Graph N E V) (s : Bool)
    (hnodes : Graph.Nodes g1 = Graph.Nodes g2)
    (hemit : ∀ n ∈ Graph.Nodes g1,
      emitNodeMeta g1 s n = emitNodeMeta g2 s n) :
    marshalNodeMeta g1 s = marshalNodeMeta g2 s := by
  rw [marshalNodeMeta_emit, marshalNodeMeta_emit, hnodes]
  exact foldr_emit_congr _ _ _ (fun n hn => hemit n (by rw [hnodes]; exact hn))

theorem marshalEdgeMeta_eq (g1 g2 : Graph N E V) (s : Bool)
    (hnd1o : NodupKeys g1.edgeMeta) (hnd1i : ∀ p ∈ g1.edgeMeta, NodupKeys p.2)
    (hnd2o : NodupKeys g2.edgeMeta) (hnd2i : ∀ p ∈ g2.edgeMeta, NodupKeys p.2)
    (hkperm : (emFlatKeys g1).Perm (emFlatKeys g2))
    (hst : ∀ k ∈ emFlatKeys g1, StoreEquivOpt (alookup2 g1.edgeMeta k.1 k.2)
      (alookup2 g2.edgeMeta k.1 k.2))
    (hwf1 : ∀ p ∈ g1.edgeMeta, ∀ q ∈ p.2, StoreWf q.2)
    (hwf2 : ∀ p ∈ g2.edgeMeta, ∀ q ∈ p.2, StoreWf q.2) :
    marshalEdgeMeta g1 s = marshalEdgeMeta g2 s := by
  have hkey1 : ((flat2 g1.edgeMeta).filter (fun t => t.2.2.Len > 0)).map
      (fun t => (t.1, t.2.1)) = (emFlatKeys g1).filter
      (fun k => ((alookup2 g1.edgeMeta k.1 k.2).getD NewStore).Len > 0) := by
    refine filter_map_comm _ _ _ _ ?_
    intro t ht
    rw [alookup2_of_mem_flat2 hnd1o hnd1i ht]
    rfl
  have hkey2 : ((flat2 g2.edgeMeta).filter (fun t => t.2.2.Len > 0)).map
      (fun t => (t.1, t.2.1)) = (emFlatKeys g2).filter
      (fun k => ((alookup2 g2.edgeMeta k.1 k.2).getD NewStore).Len > 0) := by
    refine filter_map_comm _ _ _ _ ?_
    intro t ht
    rw [alookup2_of_mem_flat2 hnd2o hnd2i ht]
    rfl
  have hsome1 : ∀ k ∈ emFlatKeys g1,
      ∃ st, alookup2 g1.edgeMeta k.1 k.2 = some st := by
    intro k hk
    obtain ⟨t, ht, hte⟩ := List.mem_map.mp hk
    refine ⟨t.2.2, ?_⟩
    rw [← hte]
    exact alookup2_of_mem_flat2 hnd1o hnd1i ht
  have hsome2 : ∀ k ∈ emFlatKeys g2,
      ∃ st, alookup2 g2.edgeMeta k.1 k.2 = some st := by
    intro k hk
    obtain ⟨t, ht, hte⟩ := List.mem_map.mp hk
    refine ⟨t.2.2, ?_⟩
    rw [← hte]
    exact alookup2_of_mem_flat2 hnd2o hnd2i ht
  have hfc : ∀ k ∈ emFlatKeys g2,
      (decide (((alookup2 g1.edgeMeta k.1 k.2).getD NewStore).Len > 0)) =
      (decide (((alookup2 g2.edgeMeta k.1 k.2).getD NewStore).Len > 0)) := by
    intro k hk
    have hk1 : k ∈ emFlatKeys g1 := hkperm.symm.subset hk
    obtain ⟨st1, h1⟩ := hsome1 k hk1
    have hse := hst k hk1
    rw [h1] at hse
    cases h2 : alookup2 g2.edgeMeta k.1 k.2 with
    | none =>
      rw [h2] at hse
      exact hse.elim
    | some st2 =>
      rw [h2] at hse
      have hse2 : StoreEquiv st1 st2 := hse
      have hlen : st1.Len = st2.Len := hse2.1.length_eq
      simp only [h1, h2, Option.getD_some]
      rw [hlen]
  have hkp : ((emFlatKeys g1).filter
      (fun k => ((alookup2 g1.edgeMeta k.1 k.2).getD NewStore).Len > 0)).Perm
      ((emFlatKeys g2).filter
      (fun k => ((alookup2 g2.edgeMeta k.1 k.2).getD NewStore).Len > 0)) := by
    refine (hkperm.filter _).trans ?_
    rw [List.filter_congr hfc]
  have hnodup1 : ((emFlatKeys g1).filter
      (fun k => ((alookup2 g1.edgeMeta k.1 k.2).getD NewStore).Len > 0)).Nodup :=
    (List.filter_sublist _).nodup (flat2_keys_nodup hnd1o hnd1i)
  have hsorteq : sortWith keyPairLt ((emFlatKeys g1).filter
      (fun k => ((alookup2 g1.edgeMeta k.1 k.2).getD NewStore).Len > 0)) =
      sortWith keyPairLt ((emFlatKeys g2).filter
      (fun k => ((alookup2 g2.edgeMeta k.1 k.2).getD NewStore).Len > 0)) := by
    refine sortWith_eq_of_perm (fun a b => keyPairLt_key a b) hkp ?_
    exact hnodup1.map (fun x y hxy => toLex.injective hxy)
  simp only [marshalEdgeMeta]
  rw [hkey1, hkey2, hsorteq]
  refine List.map_congr_left ?_
  intro k hk
  have hk2 : k ∈ emFlatKeys g2 := by
    have := (sortWith_perm keyPairLt _).subset hk
    exact (List.filter_sublist _).subset this
  have hk1 : k ∈ emFlatKeys g1 := hkperm.symm.subset hk2
  obtain ⟨st1, h1⟩ := hsome1 k hk1
  obtain ⟨st2, h2⟩ := hsome2 k hk2
  have hse := hst k hk1
  rw [h1, h2] at hse
  have hse2 : StoreEquiv st1 st2 := hse
  obtain ⟨hent, hiff, hsch⟩ := hse2
  have hwfa : StoreWf st1 := by
    obtain ⟨row, hrow, hin⟩ := alookup2_eq_some_elim h1
    exact hwf1 (k.1, row) (mem_of_alookup_eq_some _ _ _ hrow)
      (k.2, st1) (mem_of_alookup_eq_some _ _ _ hin)
  simp only [h1, h2, Option.getD_some]
  rw [sortWith_eq_of_perm (fun a b => nodeLt_key a b) hent hwfa.1,
    schemaOut_congr hiff hsch hwfa.2 s]


/-- The unordered form of an edge-key pair (the `seen` map of `Edges()`
identifies a pair with its swap on undirected graphs). -/
def spair (p : String × String) : String × String :=
  if p.1 ≤ p.2 then p else (p.2, p.1)

theorem spair_eq_iff {p q : String × String} :
    spair p = spair q ↔ p = q ∨ (p.1 = q.2 ∧ p.2 = q.1) := by
  obtain ⟨a, b⟩ := p
  obtain ⟨c, d⟩ := q
  unfold spair
  by_cases hab : a ≤ b
  · by_cases hcd : c ≤ d
    · rw [if_pos hab, if_pos hcd]
      simp only [Prod.mk.injEq]
      constructor
      · exact fun h => Or.inl h
      · intro h
        rcases h with ⟨h1, h2⟩ | ⟨h1, h2⟩
        · exact ⟨h1, h2⟩
        · have h3 : a ≤ c := h2 ▸ hab
          have h4 : c ≤ a := h1.symm ▸ hcd
          have hac : a = c := le_antisymm h3 h4
          refine ⟨hac, ?_⟩
          rw [h2, ← hac, h1]
    · rw [if_pos hab, if_neg hcd]
      simp only [Prod.mk.injEq]
      constructor
      · intro h
        exact Or.inr ⟨h.1, h.2⟩
      · intro h
        rcases h with ⟨h1, h2⟩ | ⟨h1, h2⟩
        · exact absurd (h1 ▸ h2 ▸ hab) hcd
        · exact ⟨h1, h2⟩
  · by_cases hcd : c ≤ d
    · rw [if_neg hab, if_pos hcd]
      simp only [Prod.mk.injEq]
      constructor
      · intro h
        exact Or.inr ⟨h.2, h.1⟩
      · intro h
        rcases h with ⟨h1, h2⟩ | ⟨h1, h2⟩
        · exact absurd (h1.symm ▸ h2.symm ▸ hcd) hab
        · exact ⟨h2, h1⟩
    · rw [if_neg hab, if_neg hcd]
      simp only [Prod.mk.injEq]
      constructor
      · intro h
        exact Or.inl ⟨h.2, h.1⟩
      · intro h
        rcases h with ⟨h1, h2⟩ | ⟨h1, h2⟩
        · exact ⟨h2, h1⟩
        · have hba : b < a := not_le.mp hab
          have hdc : d < c := not_le.mp hcd
          have hbb : b < b := by
            calc b < a := hba
              _ = d := h1
              _ < c := hdc
              _ = b := h2.symm
          exact absurd hbb (lt_irrefl b)

theorem seen_guard_iff {f t : String} {seen : List (String × String)} :
    ((t, f) ∈ seen ∨ (f, t) ∈ seen) ↔ spair (f, t) ∈ seen.map spair := by
  constructor
  · intro h
    rcases h with h | h
    · refine List.mem_map.mpr ⟨(t, f), h, ?_⟩
      rw [spair_eq_iff]
      exact Or.inr ⟨rfl, rfl⟩
    · exact List.mem_map.mpr ⟨(f, t), h, rfl⟩
  · intro h
    obtain ⟨q, hq, hqe⟩ := List.mem_map.mp h
    rcases spair_eq_iff.mp hqe with h1 | h1
    · exact Or.inr (h1 ▸ hq)
    · left
      have hqe2 : q = (t, f) := Prod.ext h1.1 h1.2
      exact hqe2 ▸ hq

theorem normEdge_of_le {E : Type} (e : GEdge E) (h : e.From ≤ e.To) :
    normEdge e = e := by
  unfold normEdge
  rw [if_neg (not_lt.mpr h)]

theorem normEdge_key {E : Type} (e : GEdge E) :
    ((normEdge e).From, (normEdge e).To) = spair (e.From, e.To) := by
  unfold normEdge spair
  by_cases h : e.To < e.From
  · rw [if_pos h, if_neg (not_le.mpr h)]
  · rw [if_neg h, if_pos (not_lt.mp h)]

theorem normEdge_mirror {E : Type} (e : GEdge E) :
    normEdge (mirrorEdge e) = normEdge e := by
  obtain ⟨f, t, d, w⟩ := e
  show normEdge ⟨t, f, d, w⟩ = normEdge ⟨f, t, d, w⟩
  unfold normEdge
  dsimp only
  rcases lt_trichotomy f t with h | h | h
  · rw [if_pos h, if_neg (lt_asymm h)]
  · subst h
    rfl
  · rw [if_neg (lt_asymm h), if_pos h]

theorem edgesAux_directed {E : Type} :
    ∀ (l : List (String × String × GEdge E)) (seen : List (String × String)),
    (l.map (fun x => (x.1, x.2.1))).Nodup →
    (∀ x ∈ l, (x.1, x.2.1) ∉ seen) →
    edgesAux true l seen = l.map (fun x => x.2.2) := by
  intro l
  induction l with
  | nil =>
    intro seen _ _
    rfl
  | cons hd rest ih =>
    intro seen hnd hseen
    obtain ⟨f, t, e⟩ := hd
    simp only [List.map_cons, List.nodup_cons] at hnd
    unfold edgesAux
    rw [if_neg (by simp), if_neg (hseen (f, t, e) (by simp))]
    rw [List.map_cons]
    congr 1
    refine ih ((f, t) :: seen) hnd.2 ?_
    intro x hx
    rw [List.mem_cons]
    intro hc
    rcases hc with hc | hc
    · exact hnd.1 (hc ▸ List.mem_map.mpr ⟨x, hx, rfl⟩)
    · exact hseen x (List.mem_cons_of_mem _ hx) hc

theorem edgesAux_sound {E : Type} :
    ∀ (l : List (String × String × GEdge E)) (seen : List (String × String))
    (e : GEdge E), e ∈ edgesAux false l seen → ∃ x ∈ l, x.2.2 = e := by
  intro l
  induction l with
  | nil =>
    intro seen e h
    exact absurd h (List.not_mem_nil e)
  | cons hd rest ih =>
    intro seen e h
    obtain ⟨f, t, e0⟩ := hd
    unfold edgesAux at h
    by_cases h1 : (false = false ∧ (t, f) ∈ seen)
    · rw [if_pos h1] at h
      obtain ⟨x, hx, he⟩ := ih seen e h
      exact ⟨x, List.mem_cons_of_mem _ hx, he⟩
    · rw [if_neg h1] at h
      by_cases h2 : ((f, t) ∈ seen)
      · rw [if_pos h2] at h
        obtain ⟨x, hx, he⟩ := ih seen e h
        exact ⟨x, List.mem_cons_of_mem _ hx, he⟩
      · rw [if_neg h2] at h
        rcases List.mem_cons.mp h with rfl | h
        · exact ⟨(f, t, e), by simp, rfl⟩
        · obtain ⟨x, hx, he⟩ := ih _ e h
          exact ⟨x, List.mem_cons_of_mem _ hx, he⟩

theorem edgesAux_classes {E : Type} :
    ∀ (l : List (String × String × GEdge E)) (seen : List (String × String)),
    (∀ x ∈ l, x.2.2.From = x.1 ∧ x.2.2.To = x.2.1) →
    ((edgesAux false l seen).map (fun e => spair (e.From, e.To))).Nodup ∧
    (∀ e ∈ edgesAux false l seen,
      spair (e.From, e.To) ∉ seen.map spair) := by
  intro l
  induction l with
  | nil =>
    intro seen _
    constructor
    · simp [edgesAux]
    · simp [edgesAux]
  | cons hd rest ih =>
    intro seen hfc
    obtain ⟨f, t, e0⟩ := hd
    have hfc2 : ∀ x ∈ rest, x.2.2.From = x.1 ∧ x.2.2.To = x.2.1 :=
      fun x hx => hfc x (List.mem_cons_of_mem _ hx)
    have hfce := hfc (f, t, e0) (by simp)
    unfold edgesAux
    by_cases h1 : (false = false ∧ (t, f) ∈ seen)
    · rw [if_pos h1]
      exact ih seen hfc2
    · rw [if_neg h1]
      by_cases h2 : ((f, t) ∈ seen)
      · rw [if_pos h2]
        exact ih seen hfc2
      · rw [if_neg h2]
        obtain ⟨ihnd, ihseen⟩ := ih ((f, t) :: seen) hfc2
        constructor
        · rw [List.map_cons]
          refine List.nodup_cons.mpr ⟨?_, ihnd⟩
          intro hc
          obtain ⟨e, he, hee⟩ := List.mem_map.mp hc
          apply ihseen e he
          rw [hee]
          have hf : e0.From = f := hfce.1
          have ht : e0.To = t := hfce.2
          rw [hf, ht]
          exact List.mem_map.mpr ⟨(f, t), by simp, rfl⟩
        · intro e he
          rcases List.mem_cons.mp he with rfl | he
          · rw [hfce.1, hfce.2]
            intro hc
            rcases seen_guard_iff.mpr hc with hh | hh
            · exact h1 ⟨rfl, hh⟩
            · exact h2 hh
          · intro hc
            refine ihseen e he ?_
            rw [List.map_cons]
            exact List.mem_cons_of_mem _ hc

theorem edgesAux_complete {E : Type}
    (l0 : List (String × String × GEdge E))
    (hval : ∀ x ∈ l0, ∀ y ∈ l0,
      spair (x.1, x.2.1) = spair (y.1, y.2.1) →
      normEdge x.2.2 = normEdge y.2.2) :
    ∀ (l : List (String × String × GEdge E)) (seen : List (String × String)),
    (∀ x ∈ l, x ∈ l0) →
    ∀ t0 ∈ l0, spair (t0.1, t0.2.1) ∉ seen.map spair →
    (∃ y ∈ l, spair (y.1, y.2.1) = spair (t0.1, t0.2.1)) →
    normEdge t0.2.2 ∈ (edgesAux false l seen).map normEdge := by
  intro l
  induction l with
  | nil =>
    intro seen _ t0 _ _ hex
    obtain ⟨y, hy, _⟩ := hex
    exact absurd hy (List.not_mem_nil y)
  | cons hd rest ih =>
    intro seen hsub t0 ht0 hseen hex
    obtain ⟨f, t, e0⟩ := hd
    unfold edgesAux
    by_cases h1 : (false = false ∧ (t, f) ∈ seen)
    · rw [if_pos h1]
      refine ih seen (fun x hx => hsub x (List.mem_cons_of_mem _ hx))
        t0 ht0 hseen ?_
      obtain ⟨y, hy, hye⟩ := hex
      rcases List.mem_cons.mp hy with rfl | hy2
      · exfalso
        apply hseen
        rw [← hye]
        exact seen_guard_iff.mp (Or.inl h1.2)
      · exact ⟨y, hy2, hye⟩
    · rw [if_neg h1]
      by_cases h2 : ((f, t) ∈ seen)
      · rw [if_pos h2]
        refine ih seen (fun x hx => hsub x (List.mem_cons_of_mem _ hx))
          t0 ht0 hseen ?_
        obtain ⟨y, hy, hye⟩ := hex
        rcases List.mem_cons.mp hy with rfl | hy2
        · exfalso
          apply hseen
          rw [← hye]
          exact seen_guard_iff.mp (Or.inr h2)
        · exact ⟨y, hy2, hye⟩
      · rw [if_neg h2]
        by_cases hcls : spair (f, t) = spair (t0.1, t0.2.1)
        · rw [List.map_cons]
          refine List.mem_cons.mpr (Or.inl ?_)
          exact (hval (f, t, e0) (hsub _ (by simp)) t0 ht0 hcls).symm
        · rw [List.map_cons]
          refine List.mem_cons.mpr (Or.inr ?_)
          refine ih ((f, t) :: seen)
            (fun x hx => hsub x (List.mem_cons_of_mem _ hx)) t0 ht0 ?_ ?_
          · rw [List.map_cons]
            intro hc
            rcases List.mem_cons.mp hc with hc | hc
            · exact hcls hc.symm
            · exact hseen hc
          · obtain ⟨y, hy, hye⟩ := hex
            rcases List.mem_cons.mp hy with rfl | hy2
            · exact absurd hye hcls
            · exact ⟨y, hy2, hye⟩


/-- The out-structure invariants `Marshal`'s edge section depends on
(a fragment of `Wf`, also established for `Subgraph` results). -/
structure OutWf (g : Graph N E V) : Prop where
  outNodup : NodupKeys g.out
  outInnerNodup : ∀ p ∈ g.out, NodupKeys p.2
  fieldConsistent : ∀ p ∈ g.out, ∀ q ∈ p.2, q.2.From = p.1 ∧ q.2.To = q.1
  undirSym : g.Directed = false → ∀ p ∈ g.out, ∀ q ∈ p.2,
    alookup2 g.out q.1 p.1 = some (mirrorEdge q.2)

theorem Wf.toOutWf {g : Graph N E V} (hwf : Wf g) : OutWf g :=
  ⟨hwf.outNodup, hwf.outInnerNodup, hwf.fieldConsistent, hwf.undirSym⟩

theorem normEdge_of_gt {E : Type} (e : GEdge E) (h : e.To < e.From) :
    normEdge e = mirrorEdge e := by
  unfold normEdge mirrorEdge
  rw [if_pos h]

theorem flatOut_fc (g : Graph N E V) (hwf : OutWf g) :
    ∀ x ∈ Graph.flatOut g, x.2.2.From = x.1 ∧ x.2.2.To = x.2.1 := by
  intro x hx
  obtain ⟨row, hrow, hin⟩ := mem_flat2.mp hx
  have h := hwf.fieldConsistent (x.1, row) hrow (x.2.1, x.2.2) hin
  exact ⟨h.1, h.2⟩

theorem flatOut_keys_nodup (g : Graph N E V) (hwf : OutWf g) :
    ((Graph.flatOut g).map (fun x => (x.1, x.2.1))).Nodup :=
  flat2_keys_nodup hwf.outNodup hwf.outInnerNodup

theorem flatOut_sym (g : Graph N E V) (hwf : OutWf g)
    (hdir : g.Directed = false) :
    ∀ x ∈ Graph.flatOut g,
      (x.2.1, x.1, mirrorEdge x.2.2) ∈ Graph.flatOut g := by
  intro x hx
  obtain ⟨row, hrow, hin⟩ := mem_flat2.mp hx
  have h := hwf.undirSym hdir (x.1, row) hrow (x.2.1, x.2.2) hin
  exact mem_flat2_of_alookup2 h

theorem flatOut_val (g : Graph N E V) (hwf : OutWf g)
    (hdir : g.Directed = false) :
    ∀ x ∈ Graph.flatOut g, ∀ y ∈ Graph.flatOut g,
      spair (x.1, x.2.1) = spair (y.1, y.2.1) →
      normEdge x.2.2 = normEdge y.2.2 := by
  intro x hx y hy h
  rcases spair_eq_iff.mp h with heq | hswap
  · have hxy : x = y :=
      List.inj_on_of_nodup_map (flatOut_keys_nodup g hwf) hx hy heq
    rw [hxy]
  · have hpy := flatOut_sym g hwf hdir y hy
    have hkey : ((x.1, x.2.1) : String × String) = (y.2.1, y.1) :=
      Prod.ext hswap.1 hswap.2
    have hxp : x = (y.2.1, y.1, mirrorEdge y.2.2) :=
      List.inj_on_of_nodup_map (flatOut_keys_nodup g hwf) hx hpy hkey
    rw [hxp]
    show normEdge (mirrorEdge y.2.2) = normEdge y.2.2
    exact normEdge_mirror y.2.2

theorem edges_directed_eq_map (g : Graph N E V) (hwf : OutWf g)
    (hdir : g.Directed = true) :
    Graph.Edges g = (Graph.flatOut g).map (fun x => x.2.2) := by
  unfold Graph.Edges
  rw [hdir]
  exact edgesAux_directed (Graph.flatOut g) [] (flatOut_keys_nodup g hwf)
    (by simp)

theorem edges_norm_keys_nodup (g : Graph N E V) (hwf : OutWf g)
    (hdir : g.Directed = false) :
    (((Graph.Edges g).map normEdge).map
      (fun e => ((e.From, e.To) : String × String))).Nodup := by
  have hE : Graph.Edges g = edgesAux false (Graph.flatOut g) [] := by
    unfold Graph.Edges
    rw [hdir]
  have hLkeys : ((Graph.Edges g).map normEdge).map
      (fun e => ((e.From, e.To) : String × String)) =
      (Graph.Edges g).map (fun e => spair (e.From, e.To)) := by
    rw [List.map_map]
    exact List.map_congr_left (fun e _ => normEdge_key e)
  rw [hLkeys, hE]
  exact (edgesAux_classes (Graph.flatOut g) [] (flatOut_fc g hwf)).1

theorem edges_undir_norm_perm (g : Graph N E V) (hwf : OutWf g)
    (hdir : g.Directed = false) :
    ((Graph.Edges g).map normEdge).Perm
      (((Graph.flatOut g).filter (fun x => x.1 ≤ x.2.1)).map
        (fun x => x.2.2)) := by
  have hfc := flatOut_fc g hwf
  have hval := flatOut_val g hwf hdir
  have hE : Graph.Edges g = edgesAux false (Graph.flatOut g) [] := by
    unfold Graph.Edges
    rw [hdir]
  have hLnd : ((Graph.Edges g).map normEdge).Nodup :=
    List.Nodup.of_map (fun e => ((e.From, e.To) : String × String))
      (edges_norm_keys_nodup g hwf hdir)
  have hCnd : (((Graph.flatOut g).filter (fun x => x.1 ≤ x.2.1)).map
      (fun x => x.2.2)).Nodup := by
    refine List.Nodup.of_map (fun e => ((e.From, e.To) : String × String)) ?_
    rw [List.map_map]
    have heq : ((Graph.flatOut g).filter (fun x => x.1 ≤ x.2.1)).map
        ((fun e : GEdge E => ((e.From, e.To) : String × String)) ∘
          (fun x => x.2.2)) =
        ((Graph.flatOut g).filter (fun x => x.1 ≤ x.2.1)).map
        (fun x => (x.1, x.2.1)) := by
      refine List.map_congr_left ?_
      intro x hx
      have h := hfc x ((List.filter_sublist _).subset hx)
      show ((x.2.2.From, x.2.2.To) : String × String) = (x.1, x.2.1)
      rw [h.1, h.2]
    rw [heq]
    exact ((List.filter_sublist _).map _).nodup (flatOut_keys_nodup g hwf)
  refine (List.perm_ext_iff_of_nodup hLnd hCnd).mpr ?_
  intro x
  constructor
  · intro hx
    obtain ⟨e, he, hne⟩ := List.mem_map.mp hx
    rw [hE] at he
    obtain ⟨y, hy, hye⟩ := edgesAux_sound (Graph.flatOut g) [] e he
    by_cases hasc : y.1 ≤ y.2.1
    · refine List.mem_map.mpr ⟨y,
        List.mem_filter.mpr ⟨hy, by simp [hasc]⟩, ?_⟩
      rw [← hne, ← hye]
      exact (normEdge_of_le y.2.2
        (by rw [(hfc y hy).1, (hfc y hy).2]; exact hasc)).symm
    · have hp := flatOut_sym g hwf hdir y hy
      have hle : y.2.1 ≤ y.1 := le_of_lt (not_le.mp hasc)
      refine List.mem_map.mpr ⟨(y.2.1, y.1, mirrorEdge y.2.2),
        List.mem_filter.mpr ⟨hp, by simp [hle]⟩, ?_⟩
      show mirrorEdge y.2.2 = x
      rw [← hne, ← hye]
      exact (normEdge_of_gt y.2.2
        (by rw [(hfc y hy).1, (hfc y hy).2]; exact not_le.mp hasc)).symm
  · intro hx
    obtain ⟨a, haf, hax⟩ := List.mem_map.mp hx
    have ham := List.mem_filter.mp haf
    have hasc : a.1 ≤ a.2.1 := by simpa using ham.2
    have hres := edgesAux_complete (Graph.flatOut g) hval (Graph.flatOut g)
      [] (fun z hz => hz) a ham.1 (by simp) ⟨a, ham.1, rfl⟩
    rw [← hE] at hres
    have hval2 : normEdge a.2.2 = x := by
      rw [← hax]
      exact normEdge_of_le a.2.2
        (by rw [(hfc a ham.1).1, (hfc a ham.1).2]; exact hasc)
    rw [← hval2]
    exact hres

theorem edgesSection_eq (g1 g2 : Graph N E V) (hwf1 : OutWf g1) (hwf2 : OutWf g2)
    (hdir : g1.Directed = g2.Directed)
    (hperm : (Graph.flatOut g1).Perm (Graph.flatOut g2)) :
    sortWith edgeLt (if g1.Directed = false then
      (Graph.Edges g1).map normEdge else Graph.Edges g1) =
    sortWith edgeLt (if g2.Directed = false then
      (Graph.Edges g2).map normEdge else Graph.Edges g2) := by
  cases hd : g1.Directed with
  | false =>
    have hd2 : g2.Directed = false := hdir.symm.trans hd
    rw [hd2]
    rw [if_pos rfl, if_pos rfl]
    have hperm2 : ((Graph.Edges g1).map normEdge).Perm
        ((Graph.Edges g2).map normEdge) :=
      (edges_undir_norm_perm g1 hwf1 hd).trans
        (((hperm.filter _).map _).trans
          (edges_undir_norm_perm g2 hwf2 hd2).symm)
    refine sortWith_eq_of_perm (fun a b => edgeLt_key a b) hperm2 ?_
    have h1 := edges_norm_keys_nodup g1 hwf1 hd
    have h2 : ((((Graph.Edges g1).map normEdge).map
        (fun e => ((e.From, e.To) : String × String))).map toLex).Nodup :=
      h1.map (fun x y hxy => toLex.injective hxy)
    rw [List.map_map] at h2
    exact h2
  | true =>
    have hd2 : g2.Directed = true := hdir.symm.trans hd
    rw [hd2]
    rw [if_neg (by simp), if_neg (by simp)]
    rw [edges_directed_eq_map g1 hwf1 hd, edges_directed_eq_map g2 hwf2 hd2]
    have hperm2 : ((Graph.flatOut g1).map (fun x => x.2.2)).Perm
        ((Graph.flatOut g2).map (fun x => x.2.2)) := hperm.map _
    refine sortWith_eq_of_perm (fun a b => edgeLt_key a b) hperm2 ?_
    rw [List.map_map]
    have heq : (Graph.flatOut g1).map
        ((fun e : GEdge E => toLex ((e.From, e.To) : String × String)) ∘
          (fun x => x.2.2)) =
        (Graph.flatOut g1).map
          (fun x => toLex ((x.1, x.2.1) : String × String)) := by
      refine List.map_congr_left ?_
      intro x hx
      have h := flatOut_fc g1 hwf1 x hx
      show toLex ((x.2.2.From, x.2.2.To) : String × String) =
        toLex ((x.1, x.2.1) : String × String)
      rw [h.1, h.2]
    rw [heq]
    have h2 : (((Graph.flatOut g1).map
        (fun x => ((x.1, x.2.1) : String × String))).map toLex).Nodup :=
      (flatOut_keys_nodup g1 hwf1).map (fun x y hxy => toLex.injective hxy)
    rw [List.map_map] at h2
    exact h2


/-- The section-wise determinism of `Marshal` without a `NodeIDs`
restriction: every component of the snapshot is a function of the
logical state. -/
theorem marshal_sections_eq (g1 g2 : Graph N E V)
    (how1 : OutWf g1) (how2 : OutWf g2)
    (hdir : g1.Directed = g2.Directed)
    (hnodes : Graph.Nodes g1 = Graph.Nodes g2)
    (hflat : (Graph.flatOut g1).Perm (Graph.flatOut g2))
    (hnmEquiv : ∀ n ∈ Graph.Nodes g1,
      StoreEquivOpt (alookup g1.nodeMeta n.1) (alookup g2.nodeMeta n.1))
    (hnmWf1 : ∀ p ∈ g1.nodeMeta, StoreWf p.2)
    (hem1o : NodupKeys g1.edgeMeta)
    (hem1i : ∀ p ∈ g1.edgeMeta, NodupKeys p.2)
    (hem2o : NodupKeys g2.edgeMeta)
    (hem2i : ∀ p ∈ g2.edgeMeta, NodupKeys p.2)
    (hemK : (emFlatKeys g1).Perm (emFlatKeys g2))
    (hemSt : ∀ k ∈ emFlatKeys g1,
      StoreEquivOpt (alookup2 g1.edgeMeta k.1 k.2)
        (alookup2 g2.edgeMeta k.1 k.2))
    (hemWf1 : ∀ p ∈ g1.edgeMeta, ∀ q ∈ p.2, StoreWf q.2)
    (hemWf2 : ∀ p ∈ g2.edgeMeta, ∀ q ∈ p.2, StoreWf q.2)
    (G M S I : Bool) :
    marshalG g1 (some ⟨none, G, M, S, I⟩) =
    marshalG g2 (some ⟨none, G, M, S, I⟩) := by
  have hgs : (if G = true then some (Graph.Nodes g1, sortWith edgeLt
        (if g1.Directed = false then (Graph.Edges g1).map normEdge
         else Graph.Edges g1)) else none) =
      (if G = true then some (Graph.Nodes g2, sortWith edgeLt
        (if g2.Directed = false then (Graph.Edges g2).map normEdge
         else Graph.Edges g2)) else none) := by
    cases G with
    | false => rfl
    | true =>
      rw [if_pos rfl, if_pos rfl, hnodes,
        edgesSection_eq g1 g2 how1 how2 hdir hflat]
  have hms : (if M = true then
        some (marshalNodeMeta g1 S, marshalEdgeMeta g1 S) else none) =
      (if M = true then
        some (marshalNodeMeta g2 S, marshalEdgeMeta g2 S) else none) := by
    cases M with
    | false => rfl
    | true =>
      rw [if_pos rfl, if_pos rfl]
      have hn : marshalNodeMeta g1 S = marshalNodeMeta g2 S := by
        refine marshalNodeMeta_eq g1 g2 S hnodes ?_
        intro n hn
        refine emitNodeMeta_congr g1 g2 S n (hnmEquiv n hn) ?_
        intro st hst
        exact hnmWf1 (n.1, st) (mem_of_alookup_eq_some _ _ _ hst)
      have he : marshalEdgeMeta g1 S = marshalEdgeMeta g2 S :=
        marshalEdgeMeta_eq g1 g2 S hem1o hem1i hem2o hem2i hemK hemSt
          hemWf1 hemWf2
      rw [hn, he]
  show (⟨1, g1.Directed,
      if G = true then some (Graph.Nodes g1, sortWith edgeLt
        (if g1.Directed = false then (Graph.Edges g1).map normEdge
         else Graph.Edges g1)) else none,
      if M = true then some (marshalNodeMeta g1 S, marshalEdgeMeta g1 S)
      else none⟩ : SnapshotS N E V) =
    ⟨1, g2.Directed,
      if G = true then some (Graph.Nodes g2, sortWith edgeLt
        (if g2.Directed = false then (Graph.Edges g2).map normEdge
         else Graph.Edges g2)) else none,
      if M = true then some (marshalNodeMeta g2 S, marshalEdgeMeta g2 S)
      else none⟩
  rw [hgs, hms, hdir]


/-! #### The `Subgraph` construction (C4's `NodeIDs` option) -/

theorem alookup_ensure_isSome {α : Type} (l : List (String × α)) (id x : String)
    (d : α) :
    (alookup (if (alookup l id).isNone = true then aset l id d else l)
      x).isSome =
    (if x = id then true else (alookup l x).isSome) := by
  by_cases hn : (alookup l id).isNone = true
  · rw [if_pos hn]
    by_cases hx : x = id
    · rw [if_pos hx, hx, alookup_aset]
      rfl
    · rw [if_neg hx, alookup_aset_ne l id x d (fun h => hx h.symm)]
  · rw [if_neg hn]
    by_cases hx : x = id
    · rw [if_pos hx, hx]
      rw [Option.isNone_iff_eq_none] at hn
      cases h : alookup l id with
      | none => exact absurd h hn
      | some v => rfl
    · rw [if_neg hx]

theorem nodeFold_inv (g : Graph N E V) :
    ∀ (l : List String) (s : Graph N E V),
    NodupKeys s.nodes → NodupKeys s.out →
    (∀ p ∈ s.out, p.2 = ([] : List (String × GEdge E))) →
    (∀ x, (alookup s.out x).isSome = (alookup s.nodes x).isSome) →
    ((l.foldl (fun s id => match Graph.GetNode g id with
      | some d => Graph.AddNode s id d | none => s) s).Directed =
        s.Directed ∧
     (l.foldl (fun s id => match Graph.GetNode g id with
      | some d => Graph.AddNode s id d | none => s) s).nodeMeta =
        s.nodeMeta ∧
     (l.foldl (fun s id => match Graph.GetNode g id with
      | some d => Graph.AddNode s id d | none => s) s).edgeMeta =
        s.edgeMeta ∧
     NodupKeys (l.foldl (fun s id => match Graph.GetNode g id with
      | some d => Graph.AddNode s id d | none => s) s).nodes ∧
     NodupKeys (l.foldl (fun s id => match Graph.GetNode g id with
      | some d => Graph.AddNode s id d | none => s) s).out ∧
     (∀ p ∈ (l.foldl (fun s id => match Graph.GetNode g id with
      | some d => Graph.AddNode s id d | none => s) s).out,
        p.2 = ([] : List (String × GEdge E))) ∧
     (∀ x, (alookup (l.foldl (fun s id => match Graph.GetNode g id with
      | some d => Graph.AddNode s id d | none => s) s).out x).isSome =
        (alookup (l.foldl (fun s id => match Graph.GetNode g id with
      | some d => Graph.AddNode s id d | none => s) s).nodes x).isSome) ∧
     (∀ x, alookup (l.foldl (fun s id => match Graph.GetNode g id with
      | some d => Graph.AddNode s id d | none => s) s).nodes x =
        (if x ∈ l ∧ (alookup g.nodes x).isSome = true
         then alookup g.nodes x else alookup s.nodes x))) := by
  intro l
  induction l with
  | nil =>
    intro s h1 h2 h3 h4
    refine ⟨rfl, rfl, rfl, h1, h2, h3, h4, ?_⟩
    intro x
    rw [if_neg (by simp)]
    rfl
  | cons id rest ih =>
    intro s h1 h2 h3 h4
    simp only [List.foldl_cons]
    cases hg : Graph.GetNode g id with
    | none =>
      have hg2 : alookup g.nodes id = none := hg
      simp only [hg]
      have hres := ih s h1 h2 h3 h4
      refine ⟨hres.1, hres.2.1, hres.2.2.1, hres.2.2.2.1, hres.2.2.2.2.1,
        hres.2.2.2.2.2.1, hres.2.2.2.2.2.2.1, ?_⟩
      intro x
      rw [hres.2.2.2.2.2.2.2 x]
      by_cases hx : x ∈ rest ∧ (alookup g.nodes x).isSome = true
      · rw [if_pos hx, if_pos ⟨List.mem_cons_of_mem _ hx.1, hx.2⟩]
      · rw [if_neg hx]
        by_cases hx2 : x ∈ id :: rest ∧ (alookup g.nodes x).isSome = true
        · rcases List.mem_cons.mp hx2.1 with hxi | hxr
          · exfalso
            rw [hxi, hg2] at hx2
            exact Bool.noConfusion hx2.2
          · exact absurd ⟨hxr, hx2.2⟩ hx
        · rw [if_neg hx2]
    | some d =>
      have hg2 : alookup g.nodes id = some d := hg
      simp only [hg]
      have hnd1 : NodupKeys (Graph.AddNode s id d).nodes :=
        nodupKeys_aset s.nodes id d h1
      have hnd2 : NodupKeys (Graph.AddNode s id d).out := by
        show NodupKeys (if (alookup s.out id).isNone = true
          then aset s.out id [] else s.out)
        by_cases hn : (alookup s.out id).isNone = true
        · rw [if_pos hn]
          exact nodupKeys_aset s.out id [] h2
        · rw [if_neg hn]
          exact h2
      have hrows : ∀ p ∈ (Graph.AddNode s id d).out,
          p.2 = ([] : List (String × GEdge E)) := by
        intro p hp
        show p.2 = []
        by_cases hn : (alookup s.out id).isNone = true
        · have hp2 : p ∈ aset s.out id [] := by
            have : (Graph.AddNode s id d).out = aset s.out id [] := by
              show (if (alookup s.out id).isNone = true
                then aset s.out id [] else s.out) = aset s.out id []
              rw [if_pos hn]
            rw [this] at hp
            exact hp
          rcases mem_aset_elim hp2 with hpe | hpe
          · rw [hpe]
          · exact h3 p hpe
        · have hp2 : p ∈ s.out := by
            have : (Graph.AddNode s id d).out = s.out := by
              show (if (alookup s.out id).isNone = true
                then aset s.out id [] else s.out) = s.out
              rw [if_neg hn]
            rw [this] at hp
            exact hp
          exact h3 p hp2
      have hok : ∀ x, (alookup (Graph.AddNode s id d).out x).isSome =
          (alookup (Graph.AddNode s id d).nodes x).isSome := by
        intro x
        show (alookup (if (alookup s.out id).isNone = true
          then aset s.out id [] else s.out) x).isSome =
          (alookup (aset s.nodes id d) x).isSome
        rw [alookup_ensure_isSome]
        by_cases hx : x = id
        · rw [if_pos hx, hx, alookup_aset]
          rfl
        · rw [if_neg hx, alookup_aset_ne s.nodes id x d (fun h => hx h.symm),
            h4 x]
      have hres := ih (Graph.AddNode s id d) hnd1 hnd2 hrows hok
      refine ⟨hres.1, hres.2.1, hres.2.2.1, hres.2.2.2.1, hres.2.2.2.2.1,
        hres.2.2.2.2.2.1, hres.2.2.2.2.2.2.1, ?_⟩
      intro x
      rw [hres.2.2.2.2.2.2.2 x]
      by_cases hx : x ∈ rest ∧ (alookup g.nodes x).isSome = true
      · rw [if_pos hx, if_pos ⟨List.mem_cons_of_mem _ hx.1, hx.2⟩]
      · rw [if_neg hx]
        show alookup (aset s.nodes id d) x = _
        by_cases hxi : x = id
        · rw [if_pos ⟨by rw [hxi]; simp, by rw [hxi, hg2]; rfl⟩]
          rw [hxi, alookup_aset, hg2]
        · rw [alookup_aset_ne s.nodes id x d (fun h => hxi h.symm)]
          by_cases hx2 : x ∈ id :: rest ∧ (alookup g.nodes x).isSome = true
          · rcases List.mem_cons.mp hx2.1 with hxe | hxr
            · exact absurd hxe hxi
            · exact absurd ⟨hxr, hx2.2⟩ hx
          · rw [if_neg hx2]


theorem alookup2_aset2_same {α : Type} (l : List (String × List (String × α)))
    (k1 k2 : String) (v : α) :
    alookup2 (aset2 l k1 k2 v) k1 k2 = some v := by
  unfold aset2 alookup2
  simp only [alookup_aset]

theorem alookup2_aset2_ne {α : Type} (l : List (String × List (String × α)))
    (k1 k2 a b : String) (v : α) (h : ¬(a = k1 ∧ b = k2)) :
    alookup2 (aset2 l k1 k2 v) a b = alookup2 l a b := by
  unfold aset2 alookup2
  by_cases ha : a = k1
  · have hb : b ≠ k2 := fun hb => h ⟨ha, hb⟩
    rw [ha, alookup_aset]
    simp only
    rw [alookup_aset_ne _ k2 b v (fun hh => hb hh.symm)]
    cases hl : alookup l k1 with
    | none => rfl
    | some m => rfl
  · rw [alookup_aset_ne l k1 a _ (fun hh => ha hh.symm)]

theorem alookup2_aset2_isSome_mono {α : Type}
    (l : List (String × List (String × α))) (k1 k2 a b : String) (v : α)
    (h : (alookup2 l a b).isSome = true) :
    (alookup2 (aset2 l k1 k2 v) a b).isSome = true := by
  by_cases hk : a = k1 ∧ b = k2
  · rw [hk.1, hk.2, alookup2_aset2_same]
    rfl
  · rw [alookup2_aset2_ne l k1 k2 a b v hk]
    exact h

theorem aset2_outer_nodup {α : Type} (l : List (String × List (String × α)))
    (k1 k2 : String) (v : α) (h : NodupKeys l) :
    NodupKeys (aset2 l k1 k2 v) :=
  nodupKeys_aset l k1 _ h

theorem aset2_inner_nodup {α : Type} (l : List (String × List (String × α)))
    (k1 k2 : String) (v : α) (h : ∀ p ∈ l, NodupKeys p.2) :
    ∀ p ∈ aset2 l k1 k2 v, NodupKeys p.2 := by
  intro p hp
  rcases mem_aset_elim hp with hpe | hpe
  · rw [hpe]
    refine nodupKeys_aset _ k2 v ?_
    cases hl : alookup l k1 with
    | none =>
      show NodupKeys ((none : Option (List (String × α))).getD [])
      simp [NodupKeys, akeys]
    | some m =>
      show NodupKeys ((some m).getD [])
      exact h (k1, m) (mem_of_alookup_eq_some _ _ _ hl)
  · exact h p hpe

theorem aset2_keys_isSome {α : Type} (l : List (String × List (String × α)))
    (k1 k2 : String) (v : α) (hk : (alookup l k1).isSome = true) :
    ∀ x, (alookup (aset2 l k1 k2 v) x).isSome = (alookup l x).isSome := by
  intro x
  unfold aset2
  by_cases hx : x = k1
  · rw [hx, alookup_aset, hk]
    rfl
  · rw [alookup_aset_ne l k1 x _ (fun hh => hx hh.symm)]

theorem aset2_fc {E : Type} (l : List (String × List (String × GEdge E)))
    (k1 k2 : String) (v : GEdge E) (hv : v.From = k1 ∧ v.To = k2)
    (h : ∀ p ∈ l, ∀ q ∈ p.2, q.2.From = p.1 ∧ q.2.To = q.1) :
    ∀ p ∈ aset2 l k1 k2 v, ∀ q ∈ p.2, q.2.From = p.1 ∧ q.2.To = q.1 := by
  intro p hp q hq
  rcases mem_aset_elim hp with hpe | hpe
  · rw [hpe] at hq ⊢
    rcases mem_aset_elim hq with hqe | hqe
    · rw [hqe]
      exact ⟨hv.1, hv.2⟩
    · cases hl : alookup l k1 with
      | none =>
        rw [hl] at hqe
        exact absurd hqe (List.not_mem_nil q)
      | some m =>
        rw [hl] at hqe
        have := h (k1, m) (mem_of_alookup_eq_some _ _ _ hl) q hqe
        exact ⟨this.1, this.2⟩
  · exact h p hpe q hq

theorem addEdge_fields (s : Graph N E V) (f t : String) (d : E) (w : ℚ)
    (hf : Graph.HasNode s f = true) (ht : Graph.HasNode s t = true) :
    ∃ s', Graph.AddEdge s f t d w = .ok s' ∧
      s'.Directed = s.Directed ∧ s'.nodes = s.nodes ∧
      s'.nodeMeta = s.nodeMeta ∧ s'.edgeMeta = s.edgeMeta ∧
      s'.out = (if s.Directed = true then aset2 s.out f t ⟨f, t, d, w⟩
        else aset2 (aset2 s.out f t ⟨f, t, d, w⟩) t f ⟨t, f, d, w⟩) := by
  by_cases hd : s.Directed = true
  · refine ⟨{ s with out := aset2 s.out f t ⟨f, t, d, w⟩
                     inn := aset2 s.inn t f ⟨f, t, d, w⟩ },
      ?_, rfl, rfl, rfl, rfl, ?_⟩
    · simp only [Graph.AddEdge, hf, ht, hd]
      simp
    · show aset2 s.out f t ⟨f, t, d, w⟩ = _
      rw [if_pos hd]
  · have hd2 : s.Directed = false := by
      cases hdd : s.Directed
      · rfl
      · exact absurd hdd hd
    refine ⟨{ s with out := aset2 (aset2 s.out f t ⟨f, t, d, w⟩) t f
                       ⟨t, f, d, w⟩
                     inn := aset2 (aset2 s.inn t f ⟨f, t, d, w⟩) f t
                       ⟨t, f, d, w⟩ },
      ?_, rfl, rfl, rfl, rfl, ?_⟩
    · simp only [Graph.AddEdge, hf, ht, hd2]
      simp
    · show aset2 (aset2 s.out f t ⟨f, t, d, w⟩) t f ⟨t, f, d, w⟩ = _
      rw [if_neg hd]


/-- The invariant maintained by the edge-copying fold of `Subgraph`. -/
structure EInv (g : Graph N E V) (ids : List String)
    (nsrc : List (String × N)) (s : Graph N E V) : Prop where
  dir : s.Directed = g.Directed
  nodes : s.nodes = nsrc
  nm : s.nodeMeta = []
  em : s.edgeMeta = []
  ndo : NodupKeys s.out
  ndi : ∀ p ∈ s.out, NodupKeys p.2
  fc : ∀ p ∈ s.out, ∀ q ∈ p.2, q.2.From = p.1 ∧ q.2.To = q.1
  sound : ∀ a b e, alookup2 s.out a b = some e →
    a ∈ ids ∧ b ∈ ids ∧ alookup2 g.out a b = some e
  pair : g.Directed = false → ∀ a b,
    (alookup2 s.out a b).isSome = true →
    (alookup2 s.out b a).isSome = true
  okeys : ∀ x, (alookup s.out x).isSome = (alookup s.nodes x).isSome

theorem einv_step (g : Graph N E V) (hwf : Wf g) (ids : List String)
    (nsrc : List (String × N))
    (hnsrc : ∀ x, alookup nsrc x =
      (if x ∈ ids then alookup g.nodes x else none))
    (s : Graph N E V) (hinv : EInv g ids nsrc s)
    (e : GEdge E) (ha : e.From ∈ ids)
    (hge : alookup2 g.out e.From e.To = some e) :
    EInv g ids nsrc (if e.To ∈ ids ∧ ¬ Graph.HasEdge s e.From e.To then
        match Graph.AddEdge s e.From e.To e.Data e.Weight with
        | .ok s' => s'
        | .error _ => s
      else s) ∧
    (∀ x y, (alookup2 s.out x y).isSome = true →
      (alookup2 (if e.To ∈ ids ∧ ¬ Graph.HasEdge s e.From e.To then
        match Graph.AddEdge s e.From e.To e.Data e.Weight with
        | .ok s' => s'
        | .error _ => s
      else s).out x y).isSome = true) ∧
    (e.To ∈ ids →
      (alookup2 (if e.To ∈ ids ∧ ¬ Graph.HasEdge s e.From e.To then
        match Graph.AddEdge s e.From e.To e.Data e.Weight with
        | .ok s' => s'
        | .error _ => s
      else s).out e.From e.To).isSome = true) := by
  obtain ⟨row, hrow, hin⟩ := alookup2_eq_some_elim hge
  have hrowm := mem_of_alookup_eq_some _ _ _ hrow
  have hinm := mem_of_alookup_eq_some _ _ _ hin
  have hFwf : (alookup g.nodes e.From).isSome = true := by
    have hk := hwf.outKeysNodes (e.From, row) hrowm
    cases hl : alookup g.nodes e.From with
    | none => exact absurd hl (alookup_ne_none_of_mem_akeys _ _ hk)
    | some _ => rfl
  have hTwf : (alookup g.nodes e.To).isSome = true := by
    have hio := hwf.outInn (e.From, row) hrowm (e.To, e) hinm
    obtain ⟨m', hm', _⟩ := alookup2_eq_some_elim hio
    have hk := hwf.innKeysNodes (e.To, m') (mem_of_alookup_eq_some _ _ _ hm')
    cases hl : alookup g.nodes e.To with
    | none => exact absurd hl (alookup_ne_none_of_mem_akeys _ _ hk)
    | some _ => rfl
  by_cases hguard : e.To ∈ ids ∧ ¬ Graph.HasEdge s e.From e.To
  · rw [if_pos hguard]
    have hf : Graph.HasNode s e.From = true := by
      show (alookup s.nodes e.From).isSome = true
      rw [hinv.nodes, hnsrc, if_pos ha]
      exact hFwf
    have ht : Graph.HasNode s e.To = true := by
      show (alookup s.nodes e.To).isSome = true
      rw [hinv.nodes, hnsrc, if_pos hguard.1]
      exact hTwf
    obtain ⟨s', hok, hd', hn', hnm', hem', hout'⟩ :=
      addEdge_fields s e.From e.To e.Data e.Weight hf ht
    simp only [hok]
    have he1 : (⟨e.From, e.To, e.Data, e.Weight⟩ : GEdge E) = e := rfl
    have hfromkey : (alookup s.out e.From).isSome = true := by
      rw [hinv.okeys e.From]
      show Graph.HasNode s e.From = true
      exact hf
    have htokey : (alookup s.out e.To).isSome = true := by
      rw [hinv.okeys e.To]
      show Graph.HasNode s e.To = true
      exact ht
    cases hdir : g.Directed with
    | true =>
      have hsd : s.Directed = true := by rw [hinv.dir, hdir]
      rw [hsd, if_pos rfl] at hout'
      refine ⟨⟨by rw [hd', hinv.dir], by rw [hn', hinv.nodes],
        by rw [hnm', hinv.nm], by rw [hem', hinv.em], ?_, ?_, ?_, ?_, ?_, ?_⟩,
        ?_, ?_⟩
      · rw [hout']
        exact aset2_outer_nodup _ _ _ _ hinv.ndo
      · rw [hout']
        exact aset2_inner_nodup _ _ _ _ hinv.ndi
      · rw [hout']
        exact aset2_fc _ _ _ _ ⟨rfl, rfl⟩ hinv.fc
      · intro a' b' e'' hlook
        rw [hout'] at hlook
        by_cases h1 : a' = e.From ∧ b' = e.To
        · rw [h1.1, h1.2, alookup2_aset2_same] at hlook
          injection hlook with he''
          rw [h1.1, h1.2, ← he'', he1]
          exact ⟨ha, hguard.1, hge⟩
        · rw [alookup2_aset2_ne _ _ _ _ _ _ h1] at hlook
          exact hinv.sound a' b' e'' hlook
      · intro hdf
        rw [hdir] at hdf
        exact Bool.noConfusion hdf
      · intro x
        rw [hout', hn']
        rw [aset2_keys_isSome s.out e.From e.To _ hfromkey x]
        exact hinv.okeys x
      · intro x y hxy
        rw [hout']
        exact alookup2_aset2_isSome_mono _ _ _ _ _ _ hxy
      · intro _
        rw [hout', alookup2_aset2_same]
        rfl
    | false =>
      have hsd : s.Directed = false := by rw [hinv.dir, hdir]
      have hsd2 : ¬ s.Directed = true := by
        rw [hsd]
        exact Bool.false_ne_true
      rw [if_neg hsd2] at hout'
      have he2 : (⟨e.To, e.From, e.Data, e.Weight⟩ : GEdge E) =
          mirrorEdge e := rfl
      have hmir : alookup2 g.out e.To e.From = some (mirrorEdge e) :=
        hwf.undirSym hdir (e.From, row) hrowm (e.To, e) hinm
      refine ⟨⟨by rw [hd', hinv.dir], by rw [hn', hinv.nodes],
        by rw [hnm', hinv.nm], by rw [hem', hinv.em], ?_, ?_, ?_, ?_, ?_, ?_⟩,
        ?_, ?_⟩
      · rw [hout']
        exact aset2_outer_nodup _ _ _ _ (aset2_outer_nodup _ _ _ _ hinv.ndo)
      · rw [hout']
        exact aset2_inner_nodup _ _ _ _ (aset2_inner_nodup _ _ _ _ hinv.ndi)
      · rw [hout']
        exact aset2_fc _ _ _ _ ⟨rfl, rfl⟩ (aset2_fc _ _ _ _ ⟨rfl, rfl⟩ hinv.fc)
      · intro a' b' e'' hlook
        rw [hout'] at hlook
        by_cases h1 : a' = e.To ∧ b' = e.From
        · rw [h1.1, h1.2, alookup2_aset2_same] at hlook
          injection hlook with he''
          rw [h1.1, h1.2, ← he'', he2]
          exact ⟨hguard.1, ha, hmir⟩
        · rw [alookup2_aset2_ne _ _ _ _ _ _ h1] at hlook
          by_cases h2 : a' = e.From ∧ b' = e.To
          · rw [h2.1, h2.2, alookup2_aset2_same] at hlook
            injection hlook with he''
            rw [h2.1, h2.2, ← he'', he1]
            exact ⟨ha, hguard.1, hge⟩
          · rw [alookup2_aset2_ne _ _ _ _ _ _ h2] at hlook
            exact hinv.sound a' b' e'' hlook
      · intro _ x y hxy
        rw [hout'] at hxy ⊢
        by_cases h1 : y = e.To ∧ x = e.From
        · rw [h1.1, h1.2, alookup2_aset2_same]
          rfl
        · rw [alookup2_aset2_ne _ _ _ _ _ _ h1]
          by_cases h2 : y = e.From ∧ x = e.To
          · rw [h2.1, h2.2, alookup2_aset2_same]
            rfl
          · rw [alookup2_aset2_ne _ _ _ _ _ _ h2]
            rw [alookup2_aset2_ne _ _ _ _ _ _
              (fun hc => h2 ⟨hc.2, hc.1⟩)] at hxy
            rw [alookup2_aset2_ne _ _ _ _ _ _
              (fun hc => h1 ⟨hc.2, hc.1⟩)] at hxy
            exact hinv.pair hdir x y hxy
      · intro x
        rw [hout', hn']
        rw [aset2_keys_isSome _ e.To e.From _ (by
          rw [aset2_keys_isSome s.out e.From e.To _ hfromkey e.To]
          exact htokey) x]
        rw [aset2_keys_isSome s.out e.From e.To _ hfromkey x]
        exact hinv.okeys x
      · intro x y hxy
        rw [hout']
        exact alookup2_aset2_isSome_mono _ _ _ _ _ _
          (alookup2_aset2_isSome_mono _ _ _ _ _ _ hxy)
      · intro _
        rw [hout']
        refine alookup2_aset2_isSome_mono _ _ _ _ _ _ ?_
        rw [alookup2_aset2_same]
        rfl
  · rw [if_neg hguard]
    refine ⟨hinv, fun x y h => h, ?_⟩
    intro hto
    have : Graph.HasEdge s e.From e.To = true := by
      by_cases hc : Graph.HasEdge s e.From e.To = true
      · exact hc
      · exact absurd ⟨hto, hc⟩ hguard
    exact this


theorem einv_innerFold (g : Graph N E V) (hwf : Wf g) (ids : List String)
    (nsrc : List (String × N))
    (hnsrc : ∀ x, alookup nsrc x =
      (if x ∈ ids then alookup g.nodes x else none)) :
    ∀ (es : List (GEdge E)) (s : Graph N E V), EInv g ids nsrc s →
    (∀ e ∈ es, e.From ∈ ids ∧ alookup2 g.out e.From e.To = some e) →
    (EInv g ids nsrc (es.foldl (fun s e =>
        if e.To ∈ ids ∧ ¬ Graph.HasEdge s e.From e.To then
          match Graph.AddEdge s e.From e.To e.Data e.Weight with
          | .ok s' => s'
          | .error _ => s
        else s) s) ∧
     (∀ x y, (alookup2 s.out x y).isSome = true →
       (alookup2 (es.foldl (fun s e =>
        if e.To ∈ ids ∧ ¬ Graph.HasEdge s e.From e.To then
          match Graph.AddEdge s e.From e.To e.Data e.Weight with
          | .ok s' => s'
          | .error _ => s
        else s) s).out x y).isSome = true) ∧
     (∀ e ∈ es, e.To ∈ ids →
       (alookup2 (es.foldl (fun s e =>
        if e.To ∈ ids ∧ ¬ Graph.HasEdge s e.From e.To then
          match Graph.AddEdge s e.From e.To e.Data e.Weight with
          | .ok s' => s'
          | .error _ => s
        else s) s).out e.From e.To).isSome = true)) := by
  intro es
  induction es with
  | nil =>
    intro s hinv _
    exact ⟨hinv, fun x y h => h,
      fun e he => absurd he (List.not_mem_nil e)⟩
  | cons e rest ih =>
    intro s hinv hes
    have hstep := einv_step g hwf ids nsrc hnsrc s hinv e
      (hes e (by simp)).1 (hes e (by simp)).2
    simp only [List.foldl_cons]
    have hres := ih _ hstep.1
      (fun e' he' => hes e' (List.mem_cons_of_mem _ he'))
    refine ⟨hres.1, fun x y h => hres.2.1 x y (hstep.2.1 x y h), ?_⟩
    intro e' he' hto
    rcases List.mem_cons.mp he' with rfl | he'
    · exact hres.2.1 e'.From e'.To (hstep.2.2 hto)
    · exact hres.2.2 e' he' hto

theorem einv_outerFold (g : Graph N E V) (hwf : Wf g) (ids : List String)
    (nsrc : List (String × N))
    (hnsrc : ∀ x, alookup nsrc x =
      (if x ∈ ids then alookup g.nodes x else none)) :
    ∀ (l : List String) (s : Graph N E V), EInv g ids nsrc s →
    (∀ a ∈ l, a ∈ ids) →
    (EInv g ids nsrc (l.foldl (fun s id => (Graph.OutEdges g id).foldl
        (fun s e =>
          if e.To ∈ ids ∧ ¬ Graph.HasEdge s e.From e.To then
            match Graph.AddEdge s e.From e.To e.Data e.Weight with
            | .ok s' => s'
            | .error _ => s
          else s) s) s) ∧
     (∀ x y, (alookup2 s.out x y).isSome = true →
       (alookup2 (l.foldl (fun s id => (Graph.OutEdges g id).foldl
        (fun s e =>
          if e.To ∈ ids ∧ ¬ Graph.HasEdge s e.From e.To then
            match Graph.AddEdge s e.From e.To e.Data e.Weight with
            | .ok s' => s'
            | .error _ => s
          else s) s) s).out x y).isSome = true) ∧
     (∀ a ∈ l, ∀ b e, b ∈ ids → alookup2 g.out a b = some e →
       (alookup2 (l.foldl (fun s id => (Graph.OutEdges g id).foldl
        (fun s e =>
          if e.To ∈ ids ∧ ¬ Graph.HasEdge s e.From e.To then
            match Graph.AddEdge s e.From e.To e.Data e.Weight with
            | .ok s' => s'
            | .error _ => s
          else s) s) s).out a b).isSome = true)) := by
  intro l
  induction l with
  | nil =>
    intro s hinv _
    exact ⟨hinv, fun x y h => h,
      fun a ha => absurd ha (List.not_mem_nil a)⟩
  | cons a rest ih =>
    intro s hinv hsub
    have ha : a ∈ ids := hsub a (by simp)
    have hes : ∀ e ∈ Graph.OutEdges g a,
        e.From ∈ ids ∧ alookup2 g.out e.From e.To = some e := by
      intro e he
      unfold Graph.OutEdges at he
      cases hr : alookup g.out a with
      | none =>
        rw [hr] at he
        exact absurd he (by simp)
      | some row =>
        rw [hr] at he
        simp only [Option.getD_some] at he
        obtain ⟨q, hq, hqe⟩ := List.mem_map.mp he
        have hfc := hwf.fieldConsistent (a, row)
          (mem_of_alookup_eq_some _ _ _ hr) q hq
        have hfrom : e.From = a := by rw [← hqe]; exact hfc.1
        have hto : e.To = q.1 := by rw [← hqe]; exact hfc.2
        refine ⟨by rw [hfrom]; exact ha, ?_⟩
        rw [hfrom, hto]
        unfold alookup2
        rw [hr]
        rw [← hqe]
        exact alookup_eq_some_of_mem row q.1 q.2
          (hwf.outInnerNodup (a, row) (mem_of_alookup_eq_some _ _ _ hr)) hq
    have hstep := einv_innerFold g hwf ids nsrc hnsrc (Graph.OutEdges g a)
      s hinv hes
    simp only [List.foldl_cons]
    have hres := ih _ hstep.1 (fun a' ha' => hsub a' (List.mem_cons_of_mem _ ha'))
    refine ⟨hres.1, fun x y h => hres.2.1 x y (hstep.2.1 x y h), ?_⟩
    intro a' ha' b e hb hge
    rcases List.mem_cons.mp ha' with rfl | ha2
    · obtain ⟨row, hrow, hin⟩ := alookup2_eq_some_elim hge
      have hfc := hwf.fieldConsistent (a', row)
        (mem_of_alookup_eq_some _ _ _ hrow) (b, e)
        (mem_of_alookup_eq_some _ _ _ hin)
      have hmem : e ∈ Graph.OutEdges g a' := by
        unfold Graph.OutEdges
        rw [hrow]
        exact List.mem_map.mpr ⟨(b, e), mem_of_alookup_eq_some _ _ _ hin, rfl⟩
      have hsat := hstep.2.2 e hmem (by rw [hfc.2]; exact hb)
      have := hres.2.1 e.From e.To hsat
      rw [hfc.1, hfc.2] at this
      exact this
    · exact hres.2.2 a' ha2 b e hb hge


theorem metaFold_inv (g : Graph N E V) :
    ∀ (l : List String) (s : Graph N E V),
    ((l.foldl (fun s id => match alookup g.nodeMeta id with
        | some store => { s with nodeMeta := aset s.nodeMeta id store }
        | none => s) s).Directed = s.Directed ∧
     (l.foldl (fun s id => match alookup g.nodeMeta id with
        | some store => { s with nodeMeta := aset s.nodeMeta id store }
        | none => s) s).nodes = s.nodes ∧
     (l.foldl (fun s id => match alookup g.nodeMeta id with
        | some store => { s with nodeMeta := aset s.nodeMeta id store }
        | none => s) s).out = s.out ∧
     (l.foldl (fun s id => match alookup g.nodeMeta id with
        | some store => { s with nodeMeta := aset s.nodeMeta id store }
        | none => s) s).edgeMeta = s.edgeMeta ∧
     (∀ p ∈ (l.foldl (fun s id => match alookup g.nodeMeta id with
        | some store => { s with nodeMeta := aset s.nodeMeta id store }
        | none => s) s).nodeMeta,
        p ∈ s.nodeMeta ∨ alookup g.nodeMeta p.1 = some p.2) ∧
     (∀ x, alookup (l.foldl (fun s id => match alookup g.nodeMeta id with
        | some store => { s with nodeMeta := aset s.nodeMeta id store }
        | none => s) s).nodeMeta x =
        (if x ∈ l ∧ (alookup g.nodeMeta x).isSome = true
         then alookup g.nodeMeta x else alookup s.nodeMeta x))) := by
  intro l
  induction l with
  | nil =>
    intro s
    refine ⟨rfl, rfl, rfl, rfl, fun p hp => Or.inl hp, ?_⟩
    intro x
    rw [if_neg (by simp)]
    rfl
  | cons id rest ih =>
    intro s
    simp only [List.foldl_cons]
    cases hg : alookup g.nodeMeta id with
    | none =>
      simp only [hg]
      have hres := ih s
      refine ⟨hres.1, hres.2.1, hres.2.2.1, hres.2.2.2.1, hres.2.2.2.2.1, ?_⟩
      intro x
      rw [hres.2.2.2.2.2 x]
      by_cases hx : x ∈ rest ∧ (alookup g.nodeMeta x).isSome = true
      · rw [if_pos hx, if_pos ⟨List.mem_cons_of_mem _ hx.1, hx.2⟩]
      · rw [if_neg hx]
        by_cases hx2 : x ∈ id :: rest ∧ (alookup g.nodeMeta x).isSome = true
        · rcases List.mem_cons.mp hx2.1 with hxi | hxr
          · exfalso
            rw [hxi, hg] at hx2
            exact Bool.noConfusion hx2.2
          · exact absurd ⟨hxr, hx2.2⟩ hx
        · rw [if_neg hx2]
    | some store =>
      simp only [hg]
      have hres := ih { s with nodeMeta := aset s.nodeMeta id store }
      refine ⟨hres.1, hres.2.1, hres.2.2.1, hres.2.2.2.1, ?_, ?_⟩
      · intro p hp
        rcases hres.2.2.2.2.1 p hp with hp2 | hp2
        · rcases mem_aset_elim hp2 with hpe | hpe
          · right
            rw [hpe]
            exact hg
          · exact Or.inl hpe
        · exact Or.inr hp2
      · intro x
        rw [hres.2.2.2.2.2 x]
        by_cases hx : x ∈ rest ∧ (alookup g.nodeMeta x).isSome = true
        · rw [if_pos hx, if_pos ⟨List.mem_cons_of_mem _ hx.1, hx.2⟩]
        · rw [if_neg hx]
          show alookup (aset s.nodeMeta id store) x = _
          by_cases hxi : x = id
          · rw [if_pos ⟨by rw [hxi]; simp, by rw [hxi, hg]; rfl⟩]
            rw [hxi, alookup_aset, hg]
          · rw [alookup_aset_ne s.nodeMeta id x store (fun h => hxi h.symm)]
            by_cases hx2 : x ∈ id :: rest ∧
                (alookup g.nodeMeta x).isSome = true
            · rcases List.mem_cons.mp hx2.1 with hxe | hxr
              · exact absurd hxe hxi
              · exact absurd ⟨hxr, hx2.2⟩ hx
            · rw [if_neg hx2]

theorem aset2_val_pres {α : Type} (P : α → Prop)
    (l : List (String × List (String × α))) (k1 k2 : String) (v : α)
    (hv : P v) (h : ∀ p ∈ l, ∀ q ∈ p.2, P q.2) :
    ∀ p ∈ aset2 l k1 k2 v, ∀ q ∈ p.2, P q.2 := by
  intro p hp q hq
  rcases mem_aset_elim hp with hpe | hpe
  · rw [hpe] at hq
    rcases mem_aset_elim hq with hqe | hqe
    · rw [hqe]
      exact hv
    · cases hl : alookup l k1 with
      | none =>
        rw [hl] at hqe
        exact absurd hqe (List.not_mem_nil q)
      | some m =>
        rw [hl] at hqe
        exact h (k1, m) (mem_of_alookup_eq_some _ _ _ hl) q hqe
  · exact h p hpe q hq


theorem emInnerFold (g : Graph N E V) (hwf : Wf g) (ids : List String)
    (p1 : String) (row : List (String × Store V))
    (hrowm : (p1, row) ∈ g.edgeMeta) :
    ∀ (l' : List (String × Store V)) (s : Graph N E V),
    (∀ q ∈ l', q ∈ row) →
    NodupKeys s.edgeMeta →
    (∀ p ∈ s.edgeMeta, NodupKeys p.2) →
    (∀ a b st, alookup2 s.edgeMeta a b = some st →
      a ∈ ids ∧ b ∈ ids ∧ (alookup2 s.out a b).isSome = true ∧
      alookup2 g.edgeMeta a b = some st) →
    (∀ p ∈ s.edgeMeta, ∀ q ∈ p.2, StoreWf q.2) →
    ((l'.foldl (fun s q =>
      if p1 ∈ ids ∧ q.1 ∈ ids ∧ Graph.HasEdge s p1 q.1 then
        { s with edgeMeta := aset2 s.edgeMeta p1 q.1 q.2 }
      else s) s).Directed = s.Directed ∧
     (l'.foldl (fun s q =>
      if p1 ∈ ids ∧ q.1 ∈ ids ∧ Graph.HasEdge s p1 q.1 then
        { s with edgeMeta := aset2 s.edgeMeta p1 q.1 q.2 }
      else s) s).nodes = s.nodes ∧
     (l'.foldl (fun s q =>
      if p1 ∈ ids ∧ q.1 ∈ ids ∧ Graph.HasEdge s p1 q.1 then
        { s with edgeMeta := aset2 s.edgeMeta p1 q.1 q.2 }
      else s) s).out = s.out ∧
     (l'.foldl (fun s q =>
      if p1 ∈ ids ∧ q.1 ∈ ids ∧ Graph.HasEdge s p1 q.1 then
        { s with edgeMeta := aset2 s.edgeMeta p1 q.1 q.2 }
      else s) s).nodeMeta = s.nodeMeta ∧
     NodupKeys (l'.foldl (fun s q =>
      if p1 ∈ ids ∧ q.1 ∈ ids ∧ Graph.HasEdge s p1 q.1 then
        { s with edgeMeta := aset2 s.edgeMeta p1 q.1 q.2 }
      else s) s).edgeMeta ∧
     (∀ p ∈ (l'.foldl (fun s q =>
      if p1 ∈ ids ∧ q.1 ∈ ids ∧ Graph.HasEdge s p1 q.1 then
        { s with edgeMeta := aset2 s.edgeMeta p1 q.1 q.2 }
      else s) s).edgeMeta, NodupKeys p.2) ∧
     (∀ a b st, alookup2 (l'.foldl (fun s q =>
      if p1 ∈ ids ∧ q.1 ∈ ids ∧ Graph.HasEdge s p1 q.1 then
        { s with edgeMeta := aset2 s.edgeMeta p1 q.1 q.2 }
      else s) s).edgeMeta a b = some st →
      a ∈ ids ∧ b ∈ ids ∧ (alookup2 s.out a b).isSome = true ∧
      alookup2 g.edgeMeta a b = some st) ∧
     (∀ p ∈ (l'.foldl (fun s q =>
      if p1 ∈ ids ∧ q.1 ∈ ids ∧ Graph.HasEdge s p1 q.1 then
        { s with edgeMeta := aset2 s.edgeMeta p1 q.1 q.2 }
      else s) s).edgeMeta, ∀ q ∈ p.2, StoreWf q.2) ∧
     (∀ a b, (alookup2 s.edgeMeta a b).isSome = true →
      (alookup2 (l'.foldl (fun s q =>
      if p1 ∈ ids ∧ q.1 ∈ ids ∧ Graph.HasEdge s p1 q.1 then
        { s with edgeMeta := aset2 s.edgeMeta p1 q.1 q.2 }
      else s) s).edgeMeta a b).isSome = true) ∧
     (∀ q ∈ l', p1 ∈ ids → q.1 ∈ ids →
      (alookup2 s.out p1 q.1).isSome = true →
      (alookup2 (l'.foldl (fun s q =>
      if p1 ∈ ids ∧ q.1 ∈ ids ∧ Graph.HasEdge s p1 q.1 then
        { s with edgeMeta := aset2 s.edgeMeta p1 q.1 q.2 }
      else s) s).edgeMeta p1 q.1).isSome = true)) := by
  intro l'
  induction l' with
  | nil =>
    intro s _ h1 h2 h3 h4
    exact ⟨rfl, rfl, rfl, rfl, h1, h2, h3, h4, fun a b h => h,
      fun q hq => absurd hq (List.not_mem_nil q)⟩
  | cons q rest ih =>
    intro s hsub h1 h2 h3 h4
    simp only [List.foldl_cons]
    by_cases hguard : p1 ∈ ids ∧ q.1 ∈ ids ∧ Graph.HasEdge s p1 q.1 = true
    · rw [if_pos hguard]
      have hqrow : q ∈ row := hsub q (by simp)
      have hglook : alookup2 g.edgeMeta p1 q.1 = some q.2 := by
        unfold alookup2
        rw [alookup_eq_some_of_mem _ _ _ hwf.edgeMetaNodup hrowm]
        exact alookup_eq_some_of_mem row q.1 q.2
          (hwf.edgeMetaInnerNodup (p1, row) hrowm) hqrow
      have hswf : StoreWf q.2 :=
        hwf.edgeMetaStores (p1, row) hrowm q hqrow
      have hres := ih { s with edgeMeta := aset2 s.edgeMeta p1 q.1 q.2 }
        (fun q' hq' => hsub q' (List.mem_cons_of_mem _ hq'))
        (aset2_outer_nodup _ _ _ _ h1)
        (aset2_inner_nodup _ _ _ _ h2)
        (by
          intro a b st hlook
          show a ∈ ids ∧ b ∈ ids ∧ (alookup2 s.out a b).isSome = true ∧ _
          by_cases hab : a = p1 ∧ b = q.1
          · rw [hab.1, hab.2, alookup2_aset2_same] at hlook
            injection hlook with hst
            rw [hab.1, hab.2, ← hst]
            exact ⟨hguard.1, hguard.2.1, hguard.2.2, hglook⟩
          · rw [alookup2_aset2_ne _ _ _ _ _ _ hab] at hlook
            exact h3 a b st hlook)
        (aset2_val_pres (fun st => StoreWf st) _ _ _ _ hswf h4)
      refine ⟨hres.1, hres.2.1, hres.2.2.1, hres.2.2.2.1, hres.2.2.2.2.1,
        hres.2.2.2.2.2.1, ?_, hres.2.2.2.2.2.2.2.1, ?_, ?_⟩
      · intro a b st hlook
        have := hres.2.2.2.2.2.2.1 a b st hlook
        exact this
      · intro a b hab
        exact hres.2.2.2.2.2.2.2.2.1 a b
          (alookup2_aset2_isSome_mono _ _ _ _ _ _ hab)
      · intro q' hq' hp1 hq1 hout
        rcases List.mem_cons.mp hq' with rfl | hq2
        · refine hres.2.2.2.2.2.2.2.2.1 p1 q'.1 ?_
          rw [alookup2_aset2_same]
          rfl
        · exact hres.2.2.2.2.2.2.2.2.2 q' hq2 hp1 hq1 hout
    · rw [if_neg hguard]
      have hres := ih s (fun q' hq' => hsub q' (List.mem_cons_of_mem _ hq'))
        h1 h2 h3 h4
      refine ⟨hres.1, hres.2.1, hres.2.2.1, hres.2.2.2.1, hres.2.2.2.2.1,
        hres.2.2.2.2.2.1, hres.2.2.2.2.2.2.1, hres.2.2.2.2.2.2.2.1,
        hres.2.2.2.2.2.2.2.2.1, ?_⟩
      intro q' hq' hp1 hq1 hout
      rcases List.mem_cons.mp hq' with rfl | hq2
      · exfalso
        exact hguard ⟨hp1, hq1, hout⟩
      · exact hres.2.2.2.2.2.2.2.2.2 q' hq2 hp1 hq1 hout


theorem emOuterFold (g : Graph N E V) (hwf : Wf g) (ids : List String) :
    ∀ (l : List (String × List (String × Store V))) (s : Graph N E V),
    (∀ p ∈ l, p ∈ g.edgeMeta) →
    NodupKeys s.edgeMeta →
    (∀ p ∈ s.edgeMeta, NodupKeys p.2) →
    (∀ a b st, alookup2 s.edgeMeta a b = some st →
      a ∈ ids ∧ b ∈ ids ∧ (alookup2 s.out a b).isSome = true ∧
      alookup2 g.edgeMeta a b = some st) →
    (∀ p ∈ s.edgeMeta, ∀ q ∈ p.2, StoreWf q.2) →
    ((l.foldl (fun s p => p.2.foldl (fun s q =>
      if p.1 ∈ ids ∧ q.1 ∈ ids ∧ Graph.HasEdge s p.1 q.1 then
        { s with edgeMeta := aset2 s.edgeMeta p.1 q.1 q.2 }
      else s) s) s).Directed = s.Directed ∧
     (l.foldl (fun s p => p.2.foldl (fun s q =>
      if p.1 ∈ ids ∧ q.1 ∈ ids ∧ Graph.HasEdge s p.1 q.1 then
        { s with edgeMeta := aset2 s.edgeMeta p.1 q.1 q.2 }
      else s) s) s).nodes = s.nodes ∧
     (l.foldl (fun s p => p.2.foldl (fun s q =>
      if p.1 ∈ ids ∧ q.1 ∈ ids ∧ Graph.HasEdge s p.1 q.1 then
        { s with edgeMeta := aset2 s.edgeMeta p.1 q.1 q.2 }
      else s) s) s).out = s.out ∧
     (l.foldl (fun s p => p.2.foldl (fun s q =>
      if p.1 ∈ ids ∧ q.1 ∈ ids ∧ Graph.HasEdge s p.1 q.1 then
        { s with edgeMeta := aset2 s.edgeMeta p.1 q.1 q.2 }
      else s) s) s).nodeMeta = s.nodeMeta ∧
     NodupKeys (l.foldl (fun s p => p.2.foldl (fun s q =>
      if p.1 ∈ ids ∧ q.1 ∈ ids ∧ Graph.HasEdge s p.1 q.1 then
        { s with edgeMeta := aset2 s.edgeMeta p.1 q.1 q.2 }
      else s) s) s).edgeMeta ∧
     (∀ p ∈ (l.foldl (fun s p => p.2.foldl (fun s q =>
      if p.1 ∈ ids ∧ q.1 ∈ ids ∧ Graph.HasEdge s p.1 q.1 then
        { s with edgeMeta := aset2 s.edgeMeta p.1 q.1 q.2 }
      else s) s) s).edgeMeta, NodupKeys p.2) ∧
     (∀ a b st, alookup2 (l.foldl (fun s p => p.2.foldl (fun s q =>
      if p.1 ∈ ids ∧ q.1 ∈ ids ∧ Graph.HasEdge s p.1 q.1 then
        { s with edgeMeta := aset2 s.edgeMeta p.1 q.1 q.2 }
      else s) s) s).edgeMeta a b = some st →
      a ∈ ids ∧ b ∈ ids ∧ (alookup2 s.out a b).isSome = true ∧
      alookup2 g.edgeMeta a b = some st) ∧
     (∀ p ∈ (l.foldl (fun s p => p.2.foldl (fun s q =>
      if p.1 ∈ ids ∧ q.1 ∈ ids ∧ Graph.HasEdge s p.1 q.1 then
        { s with edgeMeta := aset2 s.edgeMeta p.1 q.1 q.2 }
      else s) s) s).edgeMeta, ∀ q ∈ p.2, StoreWf q.2) ∧
     (∀ a b, (alookup2 s.edgeMeta a b).isSome = true →
      (alookup2 (l.foldl (fun s p => p.2.foldl (fun s q =>
      if p.1 ∈ ids ∧ q.1 ∈ ids ∧ Graph.HasEdge s p.1 q.1 then
        { s with edgeMeta := aset2 s.edgeMeta p.1 q.1 q.2 }
      else s) s) s).edgeMeta a b).isSome = true) ∧
     (∀ p ∈ l, ∀ q ∈ p.2, p.1 ∈ ids → q.1 ∈ ids →
      (alookup2 s.out p.1 q.1).isSome = true →
      (alookup2 (l.foldl (fun s p => p.2.foldl (fun s q =>
      if p.1 ∈ ids ∧ q.1 ∈ ids ∧ Graph.HasEdge s p.1 q.1 then
        { s with edgeMeta := aset2 s.edgeMeta p.1 q.1 q.2 }
      else s) s) s).edgeMeta p.1 q.1).isSome = true)) := by
  intro l
  induction l with
  | nil =>
    intro s _ h1 h2 h3 h4
    exact ⟨rfl, rfl, rfl, rfl, h1, h2, h3, h4, fun a b h => h,
      fun p hp => absurd hp (List.not_mem_nil p)⟩
  | cons p rest ih =>
    intro s hsub h1 h2 h3 h4
    simp only [List.foldl_cons]
    have hinner := emInnerFold g hwf ids p.1 p.2 (hsub p (by simp))
      p.2 s (fun q hq => hq) h1 h2 h3 h4
    have hres := ih _ (fun p' hp' => hsub p' (List.mem_cons_of_mem _ hp'))
      hinner.2.2.2.2.1 hinner.2.2.2.2.2.1
      (by
        intro a b st hlook
        have hx := hinner.2.2.2.2.2.2.1 a b st hlook
        rw [hinner.2.2.1]
        exact hx)
      hinner.2.2.2.2.2.2.2.1
    refine ⟨by rw [hres.1, hinner.1], by rw [hres.2.1, hinner.2.1],
      by rw [hres.2.2.1, hinner.2.2.1],
      by rw [hres.2.2.2.1, hinner.2.2.2.1],
      hres.2.2.2.2.1, hres.2.2.2.2.2.1, ?_, hres.2.2.2.2.2.2.2.1, ?_, ?_⟩
    · intro a b st hlook
      have hx := hres.2.2.2.2.2.2.1 a b st hlook
      rw [hinner.2.2.1] at hx
      exact hx
    · intro a b hab
      exact hres.2.2.2.2.2.2.2.2.1 a b
        (hinner.2.2.2.2.2.2.2.2.1 a b hab)
    · intro p' hp' q hq hp1 hq1 hout
      rcases List.mem_cons.mp hp' with rfl | hp2
      · refine hres.2.2.2.2.2.2.2.2.1 p'.1 q.1 ?_
        exact hinner.2.2.2.2.2.2.2.2.2 q hq hp1 hq1 hout
      · refine hres.2.2.2.2.2.2.2.2.2 p' hp2 q hq hp1 hq1 ?_
        rw [hinner.2.2.1]
        exact hout


theorem if_and_isSome {β : Type} (c : Prop) [Decidable c] (o : Option β) :
    (if c ∧ o.isSome = true then o else none) = (if c then o else none) := by
  by_cases hc : c
  · cases o with
    | none => simp [hc]
    | some v => simp [hc]
  · simp [hc]

theorem subgraph_spec (g : Graph N E V) (hwf : Wf g) (ids : List String) :
    (Subgraph g ids).Directed = g.Directed ∧
    (∀ x, alookup (Subgraph g ids).nodes x =
      (if x ∈ ids then alookup g.nodes x else none)) ∧
    NodupKeys (Subgraph g ids).nodes ∧
    OutWf (Subgraph g ids) ∧
    (∀ a b, alookup2 (Subgraph g ids).out a b =
      (if a ∈ ids ∧ b ∈ ids then alookup2 g.out a b else none)) ∧
    (∀ x, alookup (Subgraph g ids).nodeMeta x =
      (if x ∈ ids then alookup g.nodeMeta x else none)) ∧
    (∀ p ∈ (Subgraph g ids).nodeMeta, StoreWf p.2) ∧
    NodupKeys (Subgraph g ids).edgeMeta ∧
    (∀ p ∈ (Subgraph g ids).edgeMeta, NodupKeys p.2) ∧
    (∀ a b, alookup2 (Subgraph g ids).edgeMeta a b =
      (if a ∈ ids ∧ b ∈ ids ∧ (alookup2 g.out a b).isSome = true
       then alookup2 g.edgeMeta a b else none)) ∧
    (∀ p ∈ (Subgraph g ids).edgeMeta, ∀ q ∈ p.2, StoreWf q.2) := by
  have hnil : NodupKeys ([] : List (String × N)) := by
    simp [NodupKeys, akeys]
  have hnilo : NodupKeys
      ([] : List (String × List (String × GEdge E))) := by
    simp [NodupKeys, akeys]
  have hnilr : NodupKeys ([] : List (String × GEdge E)) := by
    simp [NodupKeys, akeys]
  obtain ⟨s1, hs1⟩ : ∃ s1, ids.foldl (fun s id =>
      match Graph.GetNode g id with
      | some d => Graph.AddNode s id d | none => s)
      (NewGraph N E V g.Directed) = s1 := ⟨_, rfl⟩
  have h1 := nodeFold_inv g ids (NewGraph N E V g.Directed)
    hnil hnilo (fun p hp => absurd hp (List.not_mem_nil p))
    (fun x => rfl)
  rw [hs1] at h1
  obtain ⟨h1d, h1nm, h1em, h1ndn, h1ndo, h1rows, h1ok, h1look⟩ := h1
  have h1look2 : ∀ x, alookup s1.nodes x =
      (if x ∈ ids then alookup g.nodes x else none) := by
    intro x
    rw [h1look x]
    have hnone : alookup (NewGraph N E V g.Directed).nodes x =
        (none : Option N) := rfl
    rw [hnone, if_and_isSome]
  have hsub1sound : ∀ a b (e : GEdge E),
      alookup2 s1.out a b = some e → False := by
    intro a b e hlook
    obtain ⟨row, hrow, hin⟩ := alookup2_eq_some_elim hlook
    have hr : row = [] := h1rows (a, row) (mem_of_alookup_eq_some _ _ _ hrow)
    rw [hr] at hin
    exact absurd (mem_of_alookup_eq_some _ _ _ hin) (List.not_mem_nil _)
  have heinv : EInv g ids s1.nodes s1 :=
    ⟨h1d, rfl, h1nm, h1em, h1ndo,
     fun p hp => by rw [h1rows p hp]; exact hnilr,
     fun p hp q hq => by
       rw [h1rows p hp] at hq
       exact absurd hq (List.not_mem_nil q),
     fun a b e hlook => absurd hlook (fun h => hsub1sound a b e h),
     fun _ a b hab => by
       cases hl : alookup2 s1.out a b with
       | none =>
         rw [hl] at hab
         exact Bool.noConfusion hab
       | some e => exact absurd hl (fun h => hsub1sound a b e h),
     h1ok⟩
  obtain ⟨s2, hs2⟩ : ∃ s2, ids.foldl (fun s id =>
      (Graph.OutEdges g id).foldl (fun s e =>
        if e.To ∈ ids ∧ ¬ Graph.HasEdge s e.From e.To then
          match Graph.AddEdge s e.From e.To e.Data e.Weight with
          | .ok s' => s'
          | .error _ => s
        else s) s) s1 = s2 := ⟨_, rfl⟩
  have h2 := einv_outerFold g hwf ids s1.nodes h1look2 ids s1 heinv
    (fun a ha => ha)
  rw [hs2] at h2
  obtain ⟨h2inv, _, h2compl⟩ := h2
  have h2look : ∀ a b, alookup2 s2.out a b =
      (if a ∈ ids ∧ b ∈ ids then alookup2 g.out a b else none) := by
    intro a b
    cases hl : alookup2 s2.out a b with
    | some e =>
      have hs := h2inv.sound a b e hl
      rw [if_pos ⟨hs.1, hs.2.1⟩]
      exact hs.2.2.symm
    | none =>
      by_cases hab : a ∈ ids ∧ b ∈ ids
      · rw [if_pos hab]
        cases hg2 : alookup2 g.out a b with
        | none => rfl
        | some e =>
          have hc := h2compl a hab.1 b e hab.2 hg2
          rw [hl] at hc
          exact Bool.noConfusion hc
      · rw [if_neg hab]
  obtain ⟨s3, hs3⟩ : ∃ s3, ids.foldl (fun s id =>
      match alookup g.nodeMeta id with
      | some store => { s with nodeMeta := aset s.nodeMeta id store }
      | none => s) s2 = s3 := ⟨_, rfl⟩
  have h3 := metaFold_inv g ids s2
  rw [hs3] at h3
  obtain ⟨h3d, h3n, h3o, h3em, h3mem, h3look⟩ := h3
  have h3look2 : ∀ x, alookup s3.nodeMeta x =
      (if x ∈ ids then alookup g.nodeMeta x else none) := by
    intro x
    rw [h3look x, h2inv.nm]
    have hnone : alookup ([] : List (String × Store V)) x =
        (none : Option (Store V)) := rfl
    rw [hnone, if_and_isSome]
  have h3emnil : s3.edgeMeta = [] := by
    rw [h3em, h2inv.em]
  obtain ⟨s4, hs4⟩ : ∃ s4, g.edgeMeta.foldl (fun s p =>
      p.2.foldl (fun s q =>
        if p.1 ∈ ids ∧ q.1 ∈ ids ∧ Graph.HasEdge s p.1 q.1 then
          { s with edgeMeta := aset2 s.edgeMeta p.1 q.1 q.2 }
        else s) s) s3 = s4 := ⟨_, rfl⟩
  have h4 := emOuterFold g hwf ids g.edgeMeta s3 (fun p hp => hp)
    (by rw [h3emnil]; simp [NodupKeys, akeys])
    (by rw [h3emnil]; exact fun p hp => absurd hp (List.not_mem_nil p))
    (by
      intro a b st hlook
      rw [h3emnil] at hlook
      have : alookup2 ([] : List (String × List (String × Store V))) a b
          = none := rfl
      rw [this] at hlook
      exact Option.noConfusion hlook)
    (by rw [h3emnil]; exact fun p hp => absurd hp (List.not_mem_nil p))
  rw [hs4] at h4
  obtain ⟨h4d, h4n, h4o, h4nm, h4ndo, h4ndi, h4sound, h4swf, _, h4compl⟩ := h4
  have h4look : ∀ a b, alookup2 s4.edgeMeta a b =
      (if a ∈ ids ∧ b ∈ ids ∧ (alookup2 g.out a b).isSome = true
       then alookup2 g.edgeMeta a b else none) := by
    intro a b
    cases hl : alookup2 s4.edgeMeta a b with
    | some st =>
      obtain ⟨ha, hb, houts, hgm⟩ := h4sound a b st hl
      rw [h3o, h2look, if_pos ⟨ha, hb⟩] at houts
      rw [if_pos ⟨ha, hb, houts⟩]
      exact hgm.symm
    | none =>
      by_cases hcond : a ∈ ids ∧ b ∈ ids ∧ (alookup2 g.out a b).isSome = true
      · rw [if_pos hcond]
        cases hg2 : alookup2 g.edgeMeta a b with
        | none => rfl
        | some st =>
          obtain ⟨row, hrow, hin⟩ := alookup2_eq_some_elim hg2
          have hc := h4compl (a, row) (mem_of_alookup_eq_some _ _ _ hrow)
            (b, st) (mem_of_alookup_eq_some _ _ _ hin) hcond.1 hcond.2.1
            (by rw [h3o, h2look, if_pos ⟨hcond.1, hcond.2.1⟩]
                exact hcond.2.2)
          rw [hl] at hc
          exact Bool.noConfusion hc
      · rw [if_neg hcond]
  have hdef : Subgraph g ids = s4 := by
    show g.edgeMeta.foldl _ (ids.foldl _ (ids.foldl _ (ids.foldl _
      (NewGraph N E V g.Directed)))) = s4
    rw [hs1, hs2, hs3, hs4]
  have hnodes4 : s4.nodes = s1.nodes := by
    rw [h4n, h3n, h2inv.nodes]
  have hout4 : s4.out = s2.out := by
    rw [h4o, h3o]
  have hdir4 : s4.Directed = g.Directed := by
    rw [h4d, h3d, h2inv.dir]
  rw [hdef]
  refine ⟨hdir4, ?_, ?_, ?_, ?_, ?_, ?_, ?_, ?_, ?_, ?_⟩
  · intro x
    rw [hnodes4]
    exact h1look2 x
  · rw [hnodes4]
    exact h1ndn
  · refine ⟨?_, ?_, ?_, ?_⟩
    · rw [hout4]
      exact h2inv.ndo
    · rw [hout4]
      exact h2inv.ndi
    · rw [hout4]
      exact h2inv.fc
    · intro hdirf p hp q hq
      rw [hout4] at hp ⊢
      have hd : g.Directed = false := by
        rw [← hdir4]
        exact hdirf
      have hlook : alookup2 s2.out p.1 q.1 = some q.2 := by
        unfold alookup2
        rw [alookup_eq_some_of_mem _ _ _ h2inv.ndo hp]
        exact alookup_eq_some_of_mem p.2 q.1 q.2 (h2inv.ndi p hp) hq
      obtain ⟨hp1, hq1, hg2⟩ := h2inv.sound p.1 q.1 q.2 hlook
      obtain ⟨grow, hgrow, hgin⟩ := alookup2_eq_some_elim hg2
      have hmir := hwf.undirSym hd (p.1, grow)
        (mem_of_alookup_eq_some _ _ _ hgrow) (q.1, q.2)
        (mem_of_alookup_eq_some _ _ _ hgin)
      rw [h2look, if_pos ⟨hq1, hp1⟩]
      exact hmir
  · intro a b
    rw [hout4]
    exact h2look a b
  · intro x
    rw [h4nm]
    exact h3look2 x
  · intro p hp
    rw [h4nm] at hp
    rcases h3mem p hp with hp2 | hp2
    · rw [h2inv.nm] at hp2
      exact absurd hp2 (List.not_mem_nil p)
    · exact hwf.nodeMetaStores (p.1, p.2)
        (mem_of_alookup_eq_some _ _ _ hp2)
  · exact h4ndo
  · exact h4ndi
  · exact h4look
  · exact h4swf


theorem alookup2_eq_of_flat_perm {α : Type}
    {l1 l2 : List (String × List (String × α))}
    (hnd1 : NodupKeys l1) (hin1 : ∀ p ∈ l1, NodupKeys p.2)
    (hnd2 : NodupKeys l2) (hin2 : ∀ p ∈ l2, NodupKeys p.2)
    (hperm : (flat2 l1).Perm (flat2 l2)) :
    ∀ a b, alookup2 l1 a b = alookup2 l2 a b := by
  intro a b
  cases h : alookup2 l1 a b with
  | some v =>
    exact (alookup2_of_mem_flat2 hnd2 hin2
      (hperm.subset (mem_flat2_of_alookup2 h))).symm
  | none =>
    cases h2 : alookup2 l2 a b with
    | none => rfl
    | some v =>
      have hm := hperm.symm.subset (mem_flat2_of_alookup2 h2)
      have := alookup2_of_mem_flat2 hnd1 hin1 hm
      rw [h] at this
      exact Option.noConfusion this

theorem flat2_perm_of_lookup {α : Type}
    {l1 l2 : List (String × List (String × α))}
    (hnd1 : NodupKeys l1) (hin1 : ∀ p ∈ l1, NodupKeys p.2)
    (hnd2 : NodupKeys l2) (hin2 : ∀ p ∈ l2, NodupKeys p.2)
    (h : ∀ a b, alookup2 l1 a b = alookup2 l2 a b) :
    (flat2 l1).Perm (flat2 l2) := by
  refine (List.perm_ext_iff_of_nodup
    (List.Nodup.of_map _ (flat2_keys_nodup hnd1 hin1))
    (List.Nodup.of_map _ (flat2_keys_nodup hnd2 hin2))).mpr ?_
  intro x
  obtain ⟨xa, xb, xv⟩ := x
  constructor
  · intro hx
    refine mem_flat2_of_alookup2 ?_
    rw [← h]
    exact alookup2_of_mem_flat2 hnd1 hin1 hx
  · intro hx
    refine mem_flat2_of_alookup2 ?_
    rw [h]
    exact alookup2_of_mem_flat2 hnd2 hin2 hx

theorem emFlatKeys_isSome (g : Graph N E V)
    (hnd : NodupKeys g.edgeMeta) (hin : ∀ p ∈ g.edgeMeta, NodupKeys p.2) :
    ∀ a b, ((a, b) ∈ emFlatKeys g ↔
      (alookup2 g.edgeMeta a b).isSome = true) := by
  intro a b
  constructor
  · intro h
    obtain ⟨t, ht, hte⟩ := List.mem_map.mp h
    have hx := alookup2_of_mem_flat2 hnd hin ht
    injection hte with ha hb
    rw [ha, hb] at hx
    rw [hx]
    rfl
  · intro h
    cases h2 : alookup2 g.edgeMeta a b with
    | none =>
      rw [h2] at h
      exact Bool.noConfusion h
    | some st =>
      exact List.mem_map.mpr ⟨(a, b, st), mem_flat2_of_alookup2 h2, rfl⟩

theorem nodes_sorted_eq_of_lookup {N : Type} (l1 l2 : List (String × N))
    (h1 : NodupKeys l1) (h2 : NodupKeys l2)
    (h : ∀ x, alookup l1 x = alookup l2 x) :
    sortWith nodeLt l1 = sortWith nodeLt l2 := by
  have hperm : l1.Perm l2 := by
    refine (List.perm_ext_iff_of_nodup (List.Nodup.of_map Prod.fst h1)
      (List.Nodup.of_map Prod.fst h2)).mpr ?_
    intro p
    constructor
    · intro hp
      have := alookup_eq_some_of_mem l1 p.1 p.2 h1 hp
      rw [h] at this
      exact mem_of_alookup_eq_some _ _ _ this
    · intro hp
      have := alookup_eq_some_of_mem l2 p.1 p.2 h2 hp
      rw [← h] at this
      exact mem_of_alookup_eq_some _ _ _ this
  exact sortWith_eq_of_perm (fun a b => nodeLt_key a b) hperm h1

/-- C4: `Marshal` is byte-deterministic: on two representations of the
same logical graph state (equal up to Go map-iteration order) and any
fixed options — including a `NodeIDs` subgraph restriction — it emits
the identical snapshot, hence identical bytes: nodes sorted by ID,
edges sorted by `(from, to)` after normalizing undirected endpoints,
metadata sections in sorted key order. -/
theorem marshal_deterministic (g1 g2 : Graph N E V)
    (hwf1 : Wf g1) (hwf2 : Wf g2) (heq : LogicalEq g1 g2)
    (opts : Option MarshalOptions) :
    marshalG g1 opts = marshalG g2 opts := by
  obtain ⟨hdir, hnperm, hflat, hnm, hemK, hemSt⟩ := heq
  have hnl : ∀ x, alookup g1.nodes x = alookup g2.nodes x :=
    alookup_eq_of_perm hwf1.nodesNodup hnperm
  have hol : ∀ a b, alookup2 g1.out a b = alookup2 g2.out a b :=
    alookup2_eq_of_flat_perm hwf1.outNodup hwf1.outInnerNodup
      hwf2.outNodup hwf2.outInnerNodup hflat
  have heml : ∀ a b, (alookup2 g1.edgeMeta a b).isSome =
      (alookup2 g2.edgeMeta a b).isSome := by
    intro a b
    have hiff := (emFlatKeys_isSome g1 hwf1.edgeMetaNodup
      hwf1.edgeMetaInnerNodup a b).symm.trans
      ((hemK.mem_iff).trans (emFlatKeys_isSome g2 hwf2.edgeMetaNodup
        hwf2.edgeMetaInnerNodup a b))
    cases hc1 : (alookup2 g1.edgeMeta a b).isSome with
    | true => exact (hiff.mp hc1).symm
    | false =>
      cases hc2 : (alookup2 g2.edgeMeta a b).isSome with
      | true =>
        rw [← hc1]
        exact hiff.mpr hc2
      | false => rfl
  have hcore : ∀ (G M S I : Bool),
      marshalG g1 (some ⟨none, G, M, S, I⟩) =
      marshalG g2 (some ⟨none, G, M, S, I⟩) := by
    intro G M S I
    refine marshal_sections_eq g1 g2 hwf1.toOutWf hwf2.toOutWf hdir
      (nodes_sorted_eq_of_lookup g1.nodes g2.nodes hwf1.nodesNodup
        hwf2.nodesNodup hnl)
      hflat ?_ hwf1.nodeMetaStores hwf1.edgeMetaNodup
      hwf1.edgeMetaInnerNodup hwf2.edgeMetaNodup hwf2.edgeMetaInnerNodup
      hemK hemSt hwf1.edgeMetaStores hwf2.edgeMetaStores G M S I
    intro n hn
    exact hnm n ((sortWith_perm nodeLt g1.nodes).subset hn)
  have hsubcase : ∀ (ids : List String) (G M S I : Bool),
      marshalG (Subgraph g1 ids) (some ⟨none, G, M, S, I⟩) =
      marshalG (Subgraph g2 ids) (some ⟨none, G, M, S, I⟩) := by
    intro ids G M S I
    obtain ⟨sd1, snl1, snn1, sow1, sol1, snml1, snmw1, semn1, semi1,
      seml1, semw1⟩ := subgraph_spec g1 hwf1 ids
    obtain ⟨sd2, snl2, snn2, sow2, sol2, snml2, snmw2, semn2, semi2,
      seml2, semw2⟩ := subgraph_spec g2 hwf2 ids
    have stl : ∀ a b, alookup2 (Subgraph g1 ids).out a b =
        alookup2 (Subgraph g2 ids).out a b := by
      intro a b
      rw [sol1, sol2]
      by_cases hab : a ∈ ids ∧ b ∈ ids
      · rw [if_pos hab, if_pos hab, hol]
      · rw [if_neg hab, if_neg hab]
    have stml : ∀ a b, alookup2 (Subgraph g1 ids).edgeMeta a b =
        (if a ∈ ids ∧ b ∈ ids ∧ (alookup2 g1.out a b).isSome = true
         then alookup2 g1.edgeMeta a b else none) := seml1
    refine marshal_sections_eq (Subgraph g1 ids) (Subgraph g2 ids)
      sow1 sow2 (by rw [sd1, sd2, hdir])
      ?_ ?_ ?_ snmw1 semn1 semi1 semn2 semi2 ?_ ?_ semw1 semw2 G M S I
    · show sortWith nodeLt (Subgraph g1 ids).nodes =
        sortWith nodeLt (Subgraph g2 ids).nodes
      refine nodes_sorted_eq_of_lookup _ _ snn1 snn2 ?_
      intro x
      rw [snl1, snl2]
      by_cases hx : x ∈ ids
      · rw [if_pos hx, if_pos hx, hnl]
      · rw [if_neg hx, if_neg hx]
    · exact flat2_perm_of_lookup sow1.outNodup sow1.outInnerNodup
        sow2.outNodup sow2.outInnerNodup stl
    · intro n hn
      have hn1 : n ∈ (Subgraph g1 ids).nodes :=
        (sortWith_perm nodeLt _).subset hn
      have hln : alookup (Subgraph g1 ids).nodes n.1 = some n.2 :=
        alookup_eq_some_of_mem _ _ _ snn1 hn1
      rw [snl1] at hln
      by_cases hx : n.1 ∈ ids
      · rw [if_pos hx] at hln
        rw [snml1, snml2, if_pos hx, if_pos hx]
        exact hnm (n.1, n.2) (mem_of_alookup_eq_some _ _ _ hln)
      · rw [if_neg hx] at hln
        exact Option.noConfusion hln
    · refine (List.perm_ext_iff_of_nodup
        (show (emFlatKeys (Subgraph g1 ids)).Nodup from
          flat2_keys_nodup semn1 semi1)
        (show (emFlatKeys (Subgraph g2 ids)).Nodup from
          flat2_keys_nodup semn2 semi2)).mpr ?_
      intro k
      obtain ⟨ka, kb⟩ := k
      rw [emFlatKeys_isSome (Subgraph g1 ids) semn1 semi1 ka kb,
        emFlatKeys_isSome (Subgraph g2 ids) semn2 semi2 ka kb,
        seml1, seml2]
      by_cases hk : ka ∈ ids ∧ kb ∈ ids
      · by_cases ho : (alookup2 g1.out ka kb).isSome = true
        · rw [if_pos ⟨hk.1, hk.2, ho⟩, if_pos ⟨hk.1, hk.2, by
            rw [← hol]; exact ho⟩]
          rw [heml]
        · rw [if_neg (fun hc => ho hc.2.2), if_neg (fun hc => ho (by
            rw [hol]; exact hc.2.2))]
      · rw [if_neg (fun hc => hk ⟨hc.1, hc.2.1⟩),
          if_neg (fun hc => hk ⟨hc.1, hc.2.1⟩)]
    · intro k hk
      obtain ⟨ka, kb⟩ := k
      have hkk := (emFlatKeys_isSome (Subgraph g1 ids) semn1 semi1
        ka kb).mp hk
      rw [seml1] at hkk
      show StoreEquivOpt (alookup2 (Subgraph g1 ids).edgeMeta ka kb)
        (alookup2 (Subgraph g2 ids).edgeMeta ka kb)
      rw [seml1, seml2]
      by_cases hc : ka ∈ ids ∧ kb ∈ ids ∧
          (alookup2 g1.out ka kb).isSome = true
      · rw [if_pos hc, if_pos ⟨hc.1, hc.2.1, by rw [← hol]; exact hc.2.2⟩]
        have hk1 : (ka, kb) ∈ emFlatKeys g1 := by
          rw [emFlatKeys_isSome g1 hwf1.edgeMetaNodup
            hwf1.edgeMetaInnerNodup ka kb]
          rw [if_pos hc] at hkk
          exact hkk
        exact hemSt (ka, kb) hk1
      · rw [if_neg hc] at hkk
        exact Bool.noConfusion hkk
  cases opts with
  | none => exact hcore true true true true
  | some o =>
    obtain ⟨nids, G, M, S, I⟩ := o
    cases nids with
    | none => exact hcore G M S I
    | some ids => exact hsubcase ids G M S I

/-- Two list-level representations of the same logical graph state:
map iteration orders differ everywhere (nodes, adjacency rows, metadata
entries), the logical content is identical. -/
def c4g1 : AGraph :=
  ⟨true,
   [("a", ⟨"a", "pending"⟩), ("b", ⟨"b", "pending"⟩)],
   [("a", [("b", ⟨"a", "b", ⟨"d"⟩, 1⟩)]), ("b", [])],
   [("b", [("a", ⟨"a", "b", ⟨"d"⟩, 1⟩)]), ("a", [])],
   [("a", ⟨[("k1", Jval.jint 1), ("k2", Jval.jstr "x")], none⟩)],
   [("a", [("b", ⟨[("m", Jval.jint 2)], none⟩)])]⟩

def c4g2 : AGraph :=
  ⟨true,
   [("b", ⟨"b", "pending"⟩), ("a", ⟨"a", "pending"⟩)],
   [("b", []), ("a", [("b", ⟨"a", "b", ⟨"d"⟩, 1⟩)])],
   [("a", []), ("b", [("a", ⟨"a", "b", ⟨"d"⟩, 1⟩)])],
   [("a", ⟨[("k2", Jval.jstr "x"), ("k1", Jval.jint 1)], none⟩)],
   [("a", [("b", ⟨[("m", Jval.jint 2)], none⟩)])]⟩

theorem marshal_deterministic_witness :
    Wf c4g1 ∧ Wf c4g2 ∧ LogicalEq c4g1 c4g2 ∧ c4g1 ≠ c4g2 ∧
    marshalG c4g1 (some ⟨some ["a", "b"], true, true, true, true⟩) =
      marshalG c4g2 (some ⟨some ["a", "b"], true, true, true, true⟩) :=
  ⟨by decide, by decide, by decide, by decide,
   marshal_deterministic c4g1 c4g2 (by decide) (by decide) (by decide)
     (some ⟨some ["a", "b"], true, true, true, true⟩)⟩

/-! ### C3: the snapshot round trip `Marshal ∘ Unmarshal ∘ Marshal` -/

theorem alookup_append {α : Type} (l1 l2 : List (String × α)) (k : String) :
    alookup (l1 ++ l2) k =
      (match alookup l1 k with
       | some v => some v
       | none => alookup l2 k) := by
  induction l1 with
  | nil => rfl
  | cons p rest ih =>
    obtain ⟨k', v'⟩ := p
    show (if k' = k then some v' else alookup (rest ++ l2) k) =
      (match (if k' = k then some v' else alookup rest k) with
       | some v => some v
       | none => alookup l2 k)
    by_cases hk : k' = k
    · rw [if_pos hk, if_pos hk]
    · rw [if_neg hk, if_neg hk]
      exact ih

theorem aset_append {α : Type} (l : List (String × α)) (k : String) (v : α)
    (h : alookup l k = none) : aset l k v = l ++ [(k, v)] := by
  induction l with
  | nil => rfl
  | cons p rest ih =>
    obtain ⟨k', v'⟩ := p
    unfold alookup at h
    unfold aset
    by_cases hk : k' = k
    · rw [if_pos hk] at h
      exact absurd h (by simp)
    · rw [if_neg hk] at h
      rw [if_neg hk, ih h]
      rfl

theorem fold_set_entries {V : Type} :
    ∀ (l : List (String × V)) (st : Store V),
    (∀ p ∈ l, alookup st.entries p.1 = none) →
    ((l.map Prod.fst).Nodup) →
    ((l.foldl (fun st p => Store.Set st p.1 p.2) st).entries =
      st.entries ++ l ∧
     (l.foldl (fun st p => Store.Set st p.1 p.2) st).schema = st.schema) := by
  intro l
  induction l with
  | nil =>
    intro st _ _
    exact ⟨(List.append_nil _).symm, rfl⟩
  | cons p rest ih =>
    intro st hfresh hnd
    simp only [List.map_cons, List.nodup_cons] at hnd
    simp only [List.foldl_cons]
    have hset : (Store.Set st p.1 p.2).entries = st.entries ++ [(p.1, p.2)] :=
      aset_append st.entries p.1 p.2 (hfresh p (by simp))
    have hfresh2 : ∀ q ∈ rest, alookup (Store.Set st p.1 p.2).entries q.1 =
        none := by
      intro q hq
      rw [hset, alookup_append]
      rw [hfresh q (List.mem_cons_of_mem _ hq)]
      show alookup [(p.1, p.2)] q.1 = none
      unfold alookup
      rw [if_neg (fun hc => hnd.1 (by
        rw [hc]
        exact List.mem_map.mpr ⟨q, hq, rfl⟩))]
      rfl
    have hres := ih (Store.Set st p.1 p.2) hfresh2 hnd.2
    refine ⟨?_, hres.2⟩
    rw [hres.1, hset, List.append_assoc]
    rfl

theorem mirrorEdge_involutive {E : Type} (e : GEdge E) :
    mirrorEdge (mirrorEdge e) = e := rfl

theorem mirrorEdge_self {E : Type} (e : GEdge E) (h : e.From = e.To) :
    mirrorEdge e = e := by
  obtain ⟨f, t, d, w⟩ := e
  show (⟨t, f, d, w⟩ : GEdge E) = ⟨f, t, d, w⟩
  have h2 : f = t := h
  rw [h2]

/-- The invariant maintained by `Unmarshal`'s edge-replay fold. -/
structure RInv {N E V : Type} (d : Bool) (es : List (GEdge E))
    (ns : List (String × N)) (s : Graph N E V) : Prop where
  dir : s.Directed = d
  nodes : s.nodes = ns
  nm : s.nodeMeta = []
  em : s.edgeMeta = []
  ndo : NodupKeys s.out
  ndi : ∀ p ∈ s.out, NodupKeys p.2
  fc : ∀ p ∈ s.out, ∀ q ∈ p.2, q.2.From = p.1 ∧ q.2.To = q.1
  sound : ∀ a b v, alookup2 s.out a b = some v →
    (v ∈ es ∧ v.From = a ∧ v.To = b) ∨
    (d = false ∧ ∃ y ∈ es, y.From = b ∧ y.To = a ∧ v = mirrorEdge y)
  pair : d = false → ∀ a b, (alookup2 s.out a b).isSome = true →
    (alookup2 s.out b a).isSome = true
  okeys : ∀ x, (alookup s.out x).isSome = (alookup s.nodes x).isSome

theorem rinv_step {N E V : Type} (d : Bool) (es : List (GEdge E))
    (ns : List (String × N)) (s : Graph N E V) (hinv : RInv d es ns s)
    (e : GEdge E) (he : e ∈ es)
    (hf : (alookup ns e.From).isSome = true)
    (ht : (alookup ns e.To).isSome = true) :
    ∃ s', Graph.AddEdge s e.From e.To e.Data e.Weight = .ok s' ∧
      RInv d es ns s' ∧
      (∀ x y, (alookup2 s.out x y).isSome = true →
        (alookup2 s'.out x y).isSome = true) ∧
      (alookup2 s'.out e.From e.To).isSome = true := by
  have hfn : Graph.HasNode s e.From = true := by
    show (alookup s.nodes e.From).isSome = true
    rw [hinv.nodes]
    exact hf
  have htn : Graph.HasNode s e.To = true := by
    show (alookup s.nodes e.To).isSome = true
    rw [hinv.nodes]
    exact ht
  obtain ⟨s', hok, hd', hn', hnm', hem', hout'⟩ :=
    addEdge_fields s e.From e.To e.Data e.Weight hfn htn
  have he1 : (⟨e.From, e.To, e.Data, e.Weight⟩ : GEdge E) = e := rfl
  have he2 : (⟨e.To, e.From, e.Data, e.Weight⟩ : GEdge E) = mirrorEdge e := rfl
  have hfromkey : (alookup s.out e.From).isSome = true := by
    rw [hinv.okeys e.From, hinv.nodes]
    exact hf
  have htokey : (alookup s.out e.To).isSome = true := by
    rw [hinv.okeys e.To, hinv.nodes]
    exact ht
  refine ⟨s', hok, ?_, ?_, ?_⟩
  · cases hdir : s.Directed with
    | true =>
      rw [if_pos hdir] at hout'
      have hdd : d = true := by rw [← hinv.dir, hdir]
      refine ⟨by rw [hd', hinv.dir], by rw [hn', hinv.nodes],
        by rw [hnm', hinv.nm], by rw [hem', hinv.em], ?_, ?_, ?_, ?_, ?_, ?_⟩
      · rw [hout']
        exact aset2_outer_nodup _ _ _ _ hinv.ndo
      · rw [hout']
        exact aset2_inner_nodup _ _ _ _ hinv.ndi
      · rw [hout']
        exact aset2_fc _ _ _ _ ⟨rfl, rfl⟩ hinv.fc
      · intro a b v hlook
        rw [hout'] at hlook
        by_cases h1 : a = e.From ∧ b = e.To
        · rw [h1.1, h1.2, alookup2_aset2_same] at hlook
          injection hlook with hv
          rw [h1.1, h1.2, ← hv, he1]
          exact Or.inl ⟨he, rfl, rfl⟩
        · rw [alookup2_aset2_ne _ _ _ _ _ _ h1] at hlook
          exact hinv.sound a b v hlook
      · intro hdf
        rw [hdf] at hdd
        exact Bool.noConfusion hdd
      · intro x
        rw [hout', hn']
        rw [aset2_keys_isSome s.out e.From e.To _ hfromkey x]
        exact hinv.okeys x
    | false =>
      rw [if_neg (by rw [hdir]; exact Bool.false_ne_true)] at hout'
      have hdd : d = false := by rw [← hinv.dir, hdir]
      refine ⟨by rw [hd', hinv.dir], by rw [hn', hinv.nodes],
        by rw [hnm', hinv.nm], by rw [hem', hinv.em], ?_, ?_, ?_, ?_, ?_, ?_⟩
      · rw [hout']
        exact aset2_outer_nodup _ _ _ _ (aset2_outer_nodup _ _ _ _ hinv.ndo)
      · rw [hout']
        exact aset2_inner_nodup _ _ _ _ (aset2_inner_nodup _ _ _ _ hinv.ndi)
      · rw [hout']
        exact aset2_fc _ _ _ _ ⟨rfl, rfl⟩ (aset2_fc _ _ _ _ ⟨rfl, rfl⟩ hinv.fc)
      · intro a b v hlook
        rw [hout'] at hlook
        by_cases h1 : a = e.To ∧ b = e.From
        · rw [h1.1, h1.2, alookup2_aset2_same] at hlook
          injection hlook with hv
          rw [h1.1, h1.2, ← hv, he2]
          exact Or.inr ⟨hdd, e, he, rfl, rfl, rfl⟩
        · rw [alookup2_aset2_ne _ _ _ _ _ _ h1] at hlook
          by_cases h2 : a = e.From ∧ b = e.To
          · rw [h2.1, h2.2, alookup2_aset2_same] at hlook
            injection hlook with hv
            rw [h2.1, h2.2, ← hv, he1]
            exact Or.inl ⟨he, rfl, rfl⟩
          · rw [alookup2_aset2_ne _ _ _ _ _ _ h2] at hlook
            exact hinv.sound a b v hlook
      · intro _ x y hxy
        rw [hout'] at hxy ⊢
        by_cases h1 : y = e.To ∧ x = e.From
        · rw [h1.1, h1.2, alookup2_aset2_same]
          rfl
        · rw [alookup2_aset2_ne _ _ _ _ _ _ h1]
          by_cases h2 : y = e.From ∧ x = e.To
          · rw [h2.1, h2.2, alookup2_aset2_same]
            rfl
          · rw [alookup2_aset2_ne _ _ _ _ _ _ h2]
            rw [alookup2_aset2_ne _ _ _ _ _ _
              (fun hc => h2 ⟨hc.2, hc.1⟩)] at hxy
            rw [alookup2_aset2_ne _ _ _ _ _ _
              (fun hc => h1 ⟨hc.2, hc.1⟩)] at hxy
            exact hinv.pair hdd x y hxy
      · intro x
        rw [hout', hn']
        rw [aset2_keys_isSome _ e.To e.From _ (by
          rw [aset2_keys_isSome s.out e.From e.To _ hfromkey e.To]
          exact htokey) x]
        rw [aset2_keys_isSome s.out e.From e.To _ hfromkey x]
        exact hinv.okeys x
  · intro x y hxy
    cases hdir : s.Directed with
    | true =>
      rw [if_pos hdir] at hout'
      rw [hout']
      exact alookup2_aset2_isSome_mono _ _ _ _ _ _ hxy
    | false =>
      rw [if_neg (by rw [hdir]; exact Bool.false_ne_true)] at hout'
      rw [hout']
      exact alookup2_aset2_isSome_mono _ _ _ _ _ _
        (alookup2_aset2_isSome_mono _ _ _ _ _ _ hxy)
  · cases hdir : s.Directed with
    | true =>
      rw [if_pos hdir] at hout'
      rw [hout', alookup2_aset2_same]
      rfl
    | false =>
      rw [if_neg (by rw [hdir]; exact Bool.false_ne_true)] at hout'
      rw [hout']
      refine alookup2_aset2_isSome_mono _ _ _ _ _ _ ?_
      rw [alookup2_aset2_same]
      rfl

theorem alookup_isSome_of_mem_akeys {α : Type} (l : List (String × α))
    (k : String) (h : k ∈ akeys l) : (alookup l k).isSome = true := by
  induction l with
  | nil => simpa [akeys] using h
  | cons p rest ih =>
    obtain ⟨k', v'⟩ := p
    show (if k' = k then some v' else alookup rest k).isSome = true
    by_cases hk : k' = k
    · rw [if_pos hk]
      rfl
    · rw [if_neg hk]
      refine ih ?_
      simp only [akeys, List.map_cons, List.mem_cons] at h
      rcases h with h | h
      · exact absurd h.symm hk
      · exact h

theorem normEdge_asc {E : Type} (e : GEdge E) :
    (normEdge e).From ≤ (normEdge e).To := by
  unfold normEdge
  by_cases h : e.From > e.To
  · rw [if_pos h]
    show e.To ≤ e.From
    exact le_of_lt h
  · rw [if_neg h]
    exact not_lt.mp h

theorem nodeReplay {N E V : Type} :
    ∀ (l : List (String × N)) (s : Graph N E V),
    (∀ p ∈ l, alookup s.nodes p.1 = none) →
    ((l.map Prod.fst).Nodup) →
    NodupKeys s.nodes → NodupKeys s.out →
    (∀ p ∈ s.out, p.2 = []) →
    (∀ x, (alookup s.out x).isSome = (alookup s.nodes x).isSome) →
    ((l.foldl (fun g p => Graph.AddNode g p.1 p.2) s).Directed =
      s.Directed ∧
     (l.foldl (fun g p => Graph.AddNode g p.1 p.2) s).nodeMeta =
      s.nodeMeta ∧
     (l.foldl (fun g p => Graph.AddNode g p.1 p.2) s).edgeMeta =
      s.edgeMeta ∧
     (l.foldl (fun g p => Graph.AddNode g p.1 p.2) s).nodes =
      s.nodes ++ l ∧
     NodupKeys (l.foldl (fun g p => Graph.AddNode g p.1 p.2) s).nodes ∧
     NodupKeys (l.foldl (fun g p => Graph.AddNode g p.1 p.2) s).out ∧
     (∀ p ∈ (l.foldl (fun g p => Graph.AddNode g p.1 p.2) s).out,
      p.2 = []) ∧
     (∀ x, (alookup (l.foldl (fun g p => Graph.AddNode g p.1 p.2) s).out
        x).isSome =
      (alookup (l.foldl (fun g p => Graph.AddNode g p.1 p.2) s).nodes
        x).isSome)) := by
  intro l
  induction l with
  | nil =>
    intro s _ _ hn ho hrows hok
    exact ⟨rfl, rfl, rfl, (List.append_nil _).symm, hn, ho, hrows, hok⟩
  | cons p rest ih =>
    intro s hfresh hnd hn ho hrows hok
    simp only [List.map_cons, List.nodup_cons] at hnd
    simp only [List.foldl_cons]
    have hpf : alookup s.nodes p.1 = none := hfresh p (by simp)
    have hof : (alookup s.out p.1).isNone = true := by
      have h1 := hok p.1
      rw [hpf] at h1
      cases hcase : alookup s.out p.1 with
      | none => rfl
      | some r =>
        rw [hcase] at h1
        exact Bool.noConfusion h1
    have hstep_nodes : (Graph.AddNode s p.1 p.2).nodes =
        aset s.nodes p.1 p.2 := rfl
    have hstep_out : (Graph.AddNode s p.1 p.2).out = aset s.out p.1 [] := by
      show (if (alookup s.out p.1).isNone then aset s.out p.1 []
            else s.out) = _
      rw [if_pos hof]
    have hne : ∀ q ∈ rest, p.1 ≠ q.1 := by
      intro q hq hc
      exact hnd.1 (by rw [hc]; exact List.mem_map.mpr ⟨q, hq, rfl⟩)
    have hres := ih (Graph.AddNode s p.1 p.2)
      (by
        intro q hq
        rw [hstep_nodes, alookup_aset_ne _ _ _ _ (hne q hq)]
        exact hfresh q (List.mem_cons_of_mem _ hq))
      hnd.2
      (by rw [hstep_nodes]; exact nodupKeys_aset _ _ _ hn)
      (by rw [hstep_out]; exact nodupKeys_aset _ _ _ ho)
      (by
        intro q hq
        rw [hstep_out] at hq
        rcases mem_aset_elim hq with rfl | hq2
        · rfl
        · exact hrows q hq2)
      (by
        intro x
        rw [hstep_out, hstep_nodes]
        by_cases hx : x = p.1
        · rw [hx, alookup_aset, alookup_aset]
          rfl
        · rw [alookup_aset_ne _ _ _ _ (fun hc => hx hc.symm),
            alookup_aset_ne _ _ _ _ (fun hc => hx hc.symm)]
          exact hok x)
    refine ⟨hres.1, hres.2.1, hres.2.2.1, ?_, hres.2.2.2.2.1,
      hres.2.2.2.2.2.1, hres.2.2.2.2.2.2.1, hres.2.2.2.2.2.2.2⟩
    rw [hres.2.2.2.1, hstep_nodes, aset_append s.nodes p.1 p.2 hpf,
      List.append_assoc]
    rfl

theorem rinv_fold {N E V : Type} (d : Bool) (es : List (GEdge E))
    (ns : List (String × N))
    (hns : ∀ e ∈ es, (alookup ns e.From).isSome = true ∧
      (alookup ns e.To).isSome = true) :
    ∀ (l : List (GEdge E)) (s : Graph N E V),
    (∀ e ∈ l, e ∈ es) → RInv d es ns s →
    ∃ s', l.foldlM (fun g e => Graph.AddEdge g e.From e.To e.Data e.Weight)
        s = .ok s' ∧ RInv d es ns s' ∧
      (∀ x y, (alookup2 s.out x y).isSome = true →
        (alookup2 s'.out x y).isSome = true) ∧
      (∀ e ∈ l, (alookup2 s'.out e.From e.To).isSome = true) := by
  intro l
  induction l with
  | nil =>
    intro s _ hinv
    exact ⟨s, by rw [List.foldlM_nil]; rfl, hinv, fun x y h => h,
      fun e he => absurd he (List.not_mem_nil e)⟩
  | cons e rest ih =>
    intro s hsub hinv
    have hees := hsub e (by simp)
    obtain ⟨s1, hok, hinv1, hmono1, hthis⟩ := rinv_step d es ns s hinv e hees
      (hns e hees).1 (hns e hees).2
    obtain ⟨s', hfold, hinv', hmono', hcompl'⟩ :=
      ih s1 (fun e' he' => hsub e' (List.mem_cons_of_mem _ he')) hinv1
    refine ⟨s', ?_, hinv', ?_, ?_⟩
    · rw [List.foldlM_cons, hok]
      show rest.foldlM
        (fun g e => Graph.AddEdge g e.From e.To e.Data e.Weight) s1 = _
      exact hfold
    · intro x y h
      exact hmono' x y (hmono1 x y h)
    · intro e' he'
      rcases List.mem_cons.mp he' with rfl | he2
      · exact hmono' e'.From e'.To hthis
      · exact hcompl' e' he2

theorem recApply_newStore {V : Type} (entries : List (String × V))
    (schema : Option (List (String × FieldDef)))
    (hnd : (entries.map Prod.fst).Nodup) :
    recApply entries schema NewStore = ⟨entries, schema⟩ := by
  obtain ⟨st', hst'⟩ : ∃ st', entries.foldl
      (fun st p => Store.Set st p.1 p.2) (NewStore : Store V) = st' :=
    ⟨_, rfl⟩
  have hfold := fold_set_entries entries (NewStore : Store V)
    (fun p _ => rfl) hnd
  rw [hst'] at hfold
  show (match schema with
    | some sc => Store.SetSchema (entries.foldl
        (fun st (p : String × V) => Store.Set st p.1 p.2) NewStore) sc
    | none => entries.foldl
        (fun st (p : String × V) => Store.Set st p.1 p.2) NewStore) =
    ⟨entries, schema⟩
  rw [hst']
  obtain ⟨e', sc'⟩ := st'
  have he : e' = entries := by simpa using hfold.1
  have hsc : sc' = none := hfold.2
  cases schema with
  | none =>
    show (⟨e', sc'⟩ : Store V) = ⟨entries, none⟩
    rw [he, hsc]
  | some sc =>
    show (⟨e', some sc⟩ : Store V) = ⟨entries, some sc⟩
    rw [he]

theorem replay_out_char {N E V : Type} (d : Bool) (es : List (GEdge E))
    (ns : List (String × N)) (s : Graph N E V) (hinv : RInv d es ns s)
    (hcompl : ∀ e ∈ es, (alookup2 s.out e.From e.To).isSome = true)
    (hknd : (es.map (fun e => ((e.From, e.To) : String × String))).Nodup)
    (hasc : d = false → ∀ e ∈ es, e.From ≤ e.To) :
    ∀ e ∈ es, alookup2 s.out e.From e.To = some e := by
  intro e he
  cases hl : alookup2 s.out e.From e.To with
  | none =>
    have h := hcompl e he
    rw [hl] at h
    exact Bool.noConfusion h
  | some v =>
    rcases hinv.sound e.From e.To v hl with ⟨hv, hf, ht⟩ |
      ⟨hd, y, hy, hyf, hyt, hveq⟩
    · have hve : v = e := List.inj_on_of_nodup_map hknd hv he
        (Prod.ext hf ht)
      rw [hve]
    · have h1 : e.From ≤ e.To := hasc hd e he
      have h2 : e.To ≤ e.From := by
        rw [← hyf, ← hyt]
        exact hasc hd y hy
      have heq : e.From = e.To := le_antisymm h1 h2
      have hye : y = e := List.inj_on_of_nodup_map hknd hy he
        (Prod.ext (hyf.trans heq.symm) (hyt.trans heq))
      rw [hveq, hye, mirrorEdge_self e heq]

theorem replay_undirSym {N E V : Type} (d : Bool) (hd : d = false)
    (es : List (GEdge E)) (ns : List (String × N)) (s : Graph N E V)
    (hinv : RInv d es ns s)
    (hknd : (es.map (fun e => ((e.From, e.To) : String × String))).Nodup)
    (hasc : ∀ e ∈ es, e.From ≤ e.To) :
    ∀ p ∈ s.out, ∀ q ∈ p.2,
      alookup2 s.out q.1 p.1 = some (mirrorEdge q.2) := by
  intro p hp q hq
  have hlq : alookup2 s.out p.1 q.1 = some q.2 := by
    unfold alookup2
    rw [alookup_eq_some_of_mem _ _ _ hinv.ndo hp]
    exact alookup_eq_some_of_mem _ _ _ (hinv.ndi p hp) hq
  have hpair := hinv.pair hd p.1 q.1 (by rw [hlq]; rfl)
  cases hw : alookup2 s.out q.1 p.1 with
  | none =>
    rw [hw] at hpair
    exact Bool.noConfusion hpair
  | some w =>
    rcases hinv.sound p.1 q.1 q.2 hlq with ⟨hq2, hqf, hqt⟩ |
      ⟨_, y, hy, hyf, hyt, hqeq⟩
    · rcases hinv.sound q.1 p.1 w hw with ⟨hwv, hwf1, hwt1⟩ |
        ⟨_, y', hy', hyf', hyt', hweq⟩
      · have h1 : p.1 ≤ q.1 := by
          rw [← hqf, ← hqt]
          exact hasc q.2 hq2
        have h2 : q.1 ≤ p.1 := by
          rw [← hwf1, ← hwt1]
          exact hasc w hwv
        have heq : p.1 = q.1 := le_antisymm h1 h2
        have hwk : w = q.2 := List.inj_on_of_nodup_map hknd hwv hq2
          (Prod.ext (by rw [hwf1, hqf, heq]) (by rw [hwt1, hqt, heq]))
        rw [hwk, mirrorEdge_self q.2 (by rw [hqf, hqt, heq])]
      · have hyk : y' = q.2 := List.inj_on_of_nodup_map hknd hy' hq2
          (Prod.ext (hyf'.trans hqf.symm) (hyt'.trans hqt.symm))
        rw [hweq, hyk]
    · rcases hinv.sound q.1 p.1 w hw with ⟨hwv, hwf1, hwt1⟩ |
        ⟨_, y', hy', hyf', hyt', hweq⟩
      · have hwy : w = y := List.inj_on_of_nodup_map hknd hwv hy
          (Prod.ext (hwf1.trans hyf.symm) (hwt1.trans hyt.symm))
        rw [hwy, hqeq, mirrorEdge_involutive]
      · have h1 : q.1 ≤ p.1 := by
          rw [← hyf, ← hyt]
          exact hasc y hy
        have h2 : p.1 ≤ q.1 := by
          rw [← hyf', ← hyt']
          exact hasc y' hy'
        have heq : p.1 = q.1 := le_antisymm h2 h1
        have hyy : y' = y := List.inj_on_of_nodup_map hknd hy' hy
          (Prod.ext (by rw [hyf', hyf, heq]) (by rw [hyt', hyt, heq]))
        rw [hweq, hyy, hqeq, mirrorEdge_involutive,
          mirrorEdge_self y (by rw [hyf, hyt]; exact heq.symm)]

theorem replay_outWf {N E V : Type} (d : Bool) (es : List (GEdge E))
    (ns : List (String × N)) (s : Graph N E V) (hinv : RInv d es ns s)
    (hknd : (es.map (fun e => ((e.From, e.To) : String × String))).Nodup)
    (hasc : d = false → ∀ e ∈ es, e.From ≤ e.To) : OutWf s := by
  refine ⟨hinv.ndo, hinv.ndi, hinv.fc, ?_⟩
  intro hdf p hp q hq
  have hd : d = false := hinv.dir.symm.trans hdf
  exact replay_undirSym d hd es ns s hinv hknd (hasc hd) p hp q hq

theorem replay_edges_perm {N E V : Type} (d : Bool) (es : List (GEdge E))
    (ns : List (String × N)) (s : Graph N E V) (hinv : RInv d es ns s)
    (hcompl : ∀ e ∈ es, (alookup2 s.out e.From e.To).isSome = true)
    (hknd : (es.map (fun e => ((e.From, e.To) : String × String))).Nodup)
    (hasc : d = false → ∀ e ∈ es, e.From ≤ e.To) :
    (if s.Directed = false then (Graph.Edges s).map normEdge
     else Graph.Edges s).Perm es := by
  have hochar := replay_out_char d es ns s hinv hcompl hknd hasc
  have how : OutWf s := replay_outWf d es ns s hinv hknd hasc
  cases hd : d with
  | true =>
    have hsd : s.Directed = true := by rw [hinv.dir, hd]
    rw [if_neg (by rw [hsd]; exact fun hc => Bool.noConfusion hc)]
    rw [edges_directed_eq_map s how hsd]
    refine (List.perm_ext_iff_of_nodup ?_ (List.Nodup.of_map _ hknd)).mpr ?_
    · refine List.Nodup.of_map
        (fun e => ((e.From, e.To) : String × String)) ?_
      rw [List.map_map]
      have heq : (Graph.flatOut s).map
          ((fun e : GEdge E => ((e.From, e.To) : String × String)) ∘
            (fun x => x.2.2)) =
          (Graph.flatOut s).map (fun x => (x.1, x.2.1)) := by
        refine List.map_congr_left ?_
        intro x hx
        have h := flatOut_fc s how x hx
        show ((x.2.2.From, x.2.2.To) : String × String) = (x.1, x.2.1)
        rw [h.1, h.2]
      rw [heq]
      exact flatOut_keys_nodup s how
    · intro x
      constructor
      · intro hx
        obtain ⟨t, ht, hte⟩ := List.mem_map.mp hx
        have hl := alookup2_of_mem_flat2 hinv.ndo hinv.ndi ht
        rcases hinv.sound t.1 t.2.1 t.2.2 hl with ⟨hv, _, _⟩ | ⟨hdf, _⟩
        · rw [← hte]
          exact hv
        · rw [hd] at hdf
          exact Bool.noConfusion hdf
      · intro hx
        have hl := hochar x hx
        exact List.mem_map.mpr
          ⟨(x.From, x.To, x), mem_flat2_of_alookup2 hl, rfl⟩
  | false =>
    have hsd : s.Directed = false := by rw [hinv.dir, hd]
    rw [if_pos hsd]
    refine (edges_undir_norm_perm s how hsd).trans ?_
    refine (List.perm_ext_iff_of_nodup ?_ (List.Nodup.of_map _ hknd)).mpr ?_
    · refine List.Nodup.of_map
        (fun e => ((e.From, e.To) : String × String)) ?_
      rw [List.map_map]
      have heq : ((Graph.flatOut s).filter (fun x => x.1 ≤ x.2.1)).map
          ((fun e : GEdge E => ((e.From, e.To) : String × String)) ∘
            (fun x => x.2.2)) =
          ((Graph.flatOut s).filter (fun x => x.1 ≤ x.2.1)).map
            (fun x => (x.1, x.2.1)) := by
        refine List.map_congr_left ?_
        intro x hx
        have h := flatOut_fc s how x ((List.filter_sublist _).subset hx)
        show ((x.2.2.From, x.2.2.To) : String × String) = (x.1, x.2.1)
        rw [h.1, h.2]
      rw [heq]
      exact ((List.filter_sublist _).map _).nodup (flatOut_keys_nodup s how)
    · intro x
      constructor
      · intro hx
        obtain ⟨t, htf, hte⟩ := List.mem_map.mp hx
        have htm := List.mem_filter.mp htf
        have hasc2 : t.1 ≤ t.2.1 := by simpa using htm.2
        have hl := alookup2_of_mem_flat2 hinv.ndo hinv.ndi htm.1
        rcases hinv.sound t.1 t.2.1 t.2.2 hl with ⟨hv, _, _⟩ |
          ⟨_, y, hy, hyf, hyt, hveq⟩
        · rw [← hte]
          exact hv
        · have h1 : t.2.1 ≤ t.1 := by
            rw [← hyf, ← hyt]
            exact hasc hd y hy
          have heq2 : t.1 = t.2.1 := le_antisymm hasc2 h1
          rw [← hte, hveq,
            mirrorEdge_self y (by rw [hyf, hyt]; exact heq2.symm)]
          exact hy
      · intro hx
        have hl := hochar x hx
        refine List.mem_map.mpr ⟨(x.From, x.To, x),
          List.mem_filter.mpr ⟨mem_flat2_of_alookup2 hl, ?_⟩, rfl⟩
        simpa using hasc hd x hx

theorem replay_hasEdge_of_mem {N E V : Type} (d : Bool)
    (es : List (GEdge E)) (ns : List (String × N)) (s : Graph N E V)
    (hinv : RInv d es ns s)
    (hcompl : ∀ e ∈ es, (alookup2 s.out e.From e.To).isSome = true) :
    ∀ a b, (∃ x ∈ es, (x.From = a ∧ x.To = b) ∨
      (d = false ∧ x.From = b ∧ x.To = a)) →
      (alookup2 s.out a b).isSome = true := by
  intro a b h
  obtain ⟨x, hx, hcase⟩ := h
  rcases hcase with ⟨hf, ht⟩ | ⟨hd, hf, ht⟩
  · rw [← hf, ← ht]
    exact hcompl x hx
  · exact hinv.pair hd b a (by rw [← hf, ← ht]; exact hcompl x hx)

theorem edge_in_es (g : Graph N E V) (hwf : Wf g) (es : List (GEdge E))
    (hes : (if g.Directed = false then (Graph.Edges g).map normEdge
      else Graph.Edges g).Perm es) :
    ∀ a b e, alookup2 g.out a b = some e →
      ∃ x ∈ es, (x.From = a ∧ x.To = b) ∨
        (g.Directed = false ∧ x.From = b ∧ x.To = a) := by
  intro a b e hl
  have hm : ((a, b, e) : String × String × GEdge E) ∈ Graph.flatOut g :=
    mem_flat2_of_alookup2 hl
  have hfc := flatOut_fc g hwf.toOutWf (a, b, e) hm
  cases hd : g.Directed with
  | true =>
    rw [hd] at hes
    rw [if_neg (fun hc => Bool.noConfusion hc)] at hes
    have hE := edges_directed_eq_map g hwf.toOutWf hd
    have hmem : e ∈ Graph.Edges g := by
      rw [hE]
      exact List.mem_map.mpr ⟨(a, b, e), hm, rfl⟩
    exact ⟨e, hes.subset hmem, Or.inl ⟨hfc.1, hfc.2⟩⟩
  | false =>
    rw [hd] at hes
    rw [if_pos rfl] at hes
    have hperm2 := edges_undir_norm_perm g hwf.toOutWf hd
    by_cases hab : a ≤ b
    · have hin : e ∈ ((Graph.flatOut g).filter
          (fun x => x.1 ≤ x.2.1)).map (fun x => x.2.2) :=
        List.mem_map.mpr ⟨(a, b, e),
          List.mem_filter.mpr ⟨hm, by simpa using hab⟩, rfl⟩
      exact ⟨e, hes.subset (hperm2.symm.subset hin),
        Or.inl ⟨hfc.1, hfc.2⟩⟩
    · have hsym := flatOut_sym g hwf.toOutWf hd (a, b, e) hm
      have hba : b ≤ a := le_of_lt (not_le.mp hab)
      have hin : mirrorEdge e ∈ ((Graph.flatOut g).filter
          (fun x => x.1 ≤ x.2.1)).map (fun x => x.2.2) :=
        List.mem_map.mpr ⟨(b, a, mirrorEdge e),
          List.mem_filter.mpr ⟨hsym, by simpa using hba⟩, rfl⟩
      refine ⟨mirrorEdge e, hes.subset (hperm2.symm.subset hin),
        Or.inr ⟨rfl, ?_, ?_⟩⟩
      · exact hfc.2
      · exact hfc.1

theorem foldr_emit_map {β γ δ : Type} (l : List β) (f : β → Option γ)
    (w : γ → δ) :
    (l.foldr (fun b acc => emitCons (f b) acc) []).map w =
    l.foldr (fun b acc => emitCons ((f b).map w) acc) [] := by
  induction l with
  | nil => rfl
  | cons x xs ih =>
    simp only [List.foldr_cons]
    cases hf : f x with
    | none => exact ih
    | some r =>
      show w r :: (xs.foldr (fun b acc => emitCons (f b) acc) []).map w =
        w r :: xs.foldr (fun b acc => emitCons ((f b).map w) acc) []
      rw [ih]

theorem mem_foldr_emit {β γ : Type} (l : List β) (f : β → Option γ)
    (r : γ) :
    r ∈ l.foldr (fun b acc => emitCons (f b) acc) [] ↔
      ∃ b ∈ l, f b = some r := by
  induction l with
  | nil => simp
  | cons x xs ih =>
    simp only [List.foldr_cons]
    cases hf : f x with
    | none =>
      show r ∈ xs.foldr (fun b acc => emitCons (f b) acc) [] ↔ _
      rw [ih]
      constructor
      · intro h
        obtain ⟨b, hb, hfb⟩ := h
        exact ⟨b, List.mem_cons_of_mem _ hb, hfb⟩
      · intro h
        obtain ⟨b, hb, hfb⟩ := h
        rcases List.mem_cons.mp hb with rfl | hb2
        · rw [hf] at hfb
          exact Option.noConfusion hfb
        · exact ⟨b, hb2, hfb⟩
    | some y =>
      show r ∈ y :: xs.foldr (fun b acc => emitCons (f b) acc) [] ↔ _
      rw [List.mem_cons, ih]
      constructor
      · intro h
        rcases h with rfl | ⟨b, hb, hfb⟩
        · exact ⟨x, by simp, hf⟩
        · exact ⟨b, List.mem_cons_of_mem _ hb, hfb⟩
      · intro h
        obtain ⟨b, hb, hfb⟩ := h
        rcases List.mem_cons.mp hb with rfl | hb2
        · rw [hf] at hfb
          injection hfb with hfb
          exact Or.inl hfb.symm
        · exact Or.inr ⟨b, hb2, hfb⟩

theorem foldr_emit_ids {β γ : Type} (l : List β) (f : β → Option γ)
    (idf : γ → String) (keyf : β → String)
    (h : ∀ b ∈ l, ∀ r, f b = some r → idf r = keyf b) :
    ((l.foldr (fun b acc => emitCons (f b) acc) []).map idf).Sublist
      (l.map keyf) := by
  induction l with
  | nil => simp
  | cons x xs ih =>
    simp only [List.foldr_cons, List.map_cons]
    have ih2 := ih (fun b hb => h b (List.mem_cons_of_mem _ hb))
    cases hf : f x with
    | none =>
      show ((xs.foldr (fun b acc => emitCons (f b) acc) []).map
        idf).Sublist (keyf x :: xs.map keyf)
      exact ih2.cons _
    | some r =>
      show (idf r :: (xs.foldr (fun b acc => emitCons (f b) acc) []).map
        idf).Sublist (keyf x :: xs.map keyf)
      rw [h x (by simp) r hf]
      exact ih2.cons₂ _

theorem emitNodeMeta_id (g : Graph N E V) (s : Bool) (n : String × N)
    (r : NodeMetaOut V) (h : emitNodeMeta g s n = some r) : r.id = n.1 := by
  unfold emitNodeMeta at h
  cases hl : alookup g.nodeMeta n.1 with
  | none =>
    rw [hl] at h
    exact Option.noConfusion h
  | some st =>
    rw [hl] at h
    have h2 : (if st.Len = 0 then none
        else some (⟨n.1, sortWith nodeLt st.entries,
          schemaOut s st⟩ : NodeMetaOut V)) = some r := h
    by_cases hz : st.Len = 0
    · rw [if_pos hz] at h2
      exact Option.noConfusion h2
    · rw [if_neg hz] at h2
      injection h2 with h2
      rw [← h2]

theorem emitNodeMeta_of_lookup (g : Graph N E V) (flag : Bool)
    (n : String × N) (st : Store V)
    (h : alookup g.nodeMeta n.1 = some st) (hz : ¬ st.Len = 0) :
    emitNodeMeta g flag n =
      some ⟨n.1, sortWith nodeLt st.entries, schemaOut flag st⟩ := by
  unfold emitNodeMeta
  rw [h]
  show (if st.Len = 0 then none
    else some (⟨n.1, sortWith nodeLt st.entries,
      schemaOut flag st⟩ : NodeMetaOut V)) = _
  rw [if_neg hz]

theorem nodes_sorted_nodup (g : Graph N E V) (hwf : Wf g) :
    ((Graph.Nodes g).map Prod.fst).Nodup :=
  ((sortWith_perm nodeLt g.nodes).map Prod.fst).nodup_iff.mpr hwf.nodesNodup

theorem nodeMetaReplay {N E V : Type} :
    ∀ (recs : List (NodeMetaOut V)) (s : Graph N E V),
    (∀ nm ∈ recs, Graph.HasNode s nm.id = true) →
    ((recs.map NodeMetaOut.id).Nodup) →
    (∀ nm ∈ recs, alookup s.nodeMeta nm.id = none) →
    NodupKeys s.nodeMeta →
    ((recs.foldl applyNodeMetaRec s).Directed = s.Directed ∧
     (recs.foldl applyNodeMetaRec s).nodes = s.nodes ∧
     (recs.foldl applyNodeMetaRec s).out = s.out ∧
     (recs.foldl applyNodeMetaRec s).edgeMeta = s.edgeMeta ∧
     NodupKeys (recs.foldl applyNodeMetaRec s).nodeMeta ∧
     (∀ nm ∈ recs, alookup (recs.foldl applyNodeMetaRec s).nodeMeta nm.id
       = some (recApply nm.entries nm.schema NewStore)) ∧
     (∀ x, (∀ nm ∈ recs, nm.id ≠ x) →
       alookup (recs.foldl applyNodeMetaRec s).nodeMeta x =
         alookup s.nodeMeta x)) := by
  intro recs
  induction recs with
  | nil =>
    intro s _ _ _ hnd
    exact ⟨rfl, rfl, rfl, rfl, hnd,
      fun nm hnm => absurd hnm (List.not_mem_nil nm), fun x _ => rfl⟩
  | cons nm rest ih =>
    intro s hhas hids hfresh hnd
    simp only [List.map_cons, List.nodup_cons] at hids
    simp only [List.foldl_cons]
    have hh := hhas nm (by simp)
    have hstep : applyNodeMetaRec s nm =
        { s with nodeMeta := aset s.nodeMeta nm.id (recApply nm.entries nm.schema NewStore) } := by
      unfold applyNodeMetaRec
      rw [if_neg (not_not_intro hh)]
      unfold Graph.nodeMetaUpdate
      rw [if_neg (not_not_intro hh), hfresh nm (by simp)]
      rfl
    rw [hstep]
    have hres := ih { s with nodeMeta := aset s.nodeMeta nm.id (recApply nm.entries nm.schema NewStore) }
      (fun nm' hnm' => hhas nm' (List.mem_cons_of_mem _ hnm'))
      hids.2
      (by
        intro nm' hnm'
        show alookup (aset s.nodeMeta nm.id
          (recApply nm.entries nm.schema NewStore)) nm'.id = none
        rw [alookup_aset_ne _ _ _ _ (fun hc => hids.1
          (by rw [hc]; exact List.mem_map.mpr ⟨nm', hnm', rfl⟩))]
        exact hfresh nm' (List.mem_cons_of_mem _ hnm'))
      (nodupKeys_aset _ _ _ hnd)
    refine ⟨hres.1, hres.2.1, hres.2.2.1, hres.2.2.2.1,
      hres.2.2.2.2.1, ?_, ?_⟩
    · intro nm' hnm'
      rcases List.mem_cons.mp hnm' with heq | h2
      · subst heq
        rw [hres.2.2.2.2.2.2 nm'.id (fun nm2 hnm2 hc => hids.1
          (by rw [← hc]; exact List.mem_map.mpr ⟨nm2, hnm2, rfl⟩))]
        show alookup (aset s.nodeMeta nm'.id
          (recApply nm'.entries nm'.schema NewStore)) nm'.id = _
        rw [alookup_aset]
      · exact hres.2.2.2.2.2.1 nm' h2
    · intro x hx
      rw [hres.2.2.2.2.2.2 x
        (fun nm2 hnm2 => hx nm2 (List.mem_cons_of_mem _ hnm2))]
      show alookup (aset s.nodeMeta nm.id
        (recApply nm.entries nm.schema NewStore)) x = _
      rw [alookup_aset_ne _ _ _ _ (hx nm (by simp))]

theorem schemaOut_stable {V : Type} (st : Store V)
    (ent : List (String × V)) (hnd : NodupKeys (st.schema.getD [])) :
    schemaOut true (Store.mk ent (schemaOut true st)) =
      schemaOut true st := by
  cases ho : schemaOut true st with
  | none =>
    show schemaOut true (Store.mk ent none) = none
    rfl
  | some l =>
    have hinv : ∃ l0, st.schema = some l0 ∧ ¬ l0.isEmpty = true ∧
        l = sortWith nodeLt l0 := by
      unfold schemaOut at ho
      rw [if_pos rfl] at ho
      cases hs : st.schema with
      | none =>
        rw [hs] at ho
        exact Option.noConfusion ho
      | some l0 =>
        rw [hs] at ho
        have ho2 : (if l0.isEmpty = true then none
            else some (sortWith nodeLt l0)) = some l := ho
        by_cases hemp : l0.isEmpty = true
        · rw [if_pos hemp] at ho2
          exact Option.noConfusion ho2
        · rw [if_neg hemp] at ho2
          injection ho2 with ho2
          exact ⟨l0, rfl, hemp, ho2.symm⟩
    obtain ⟨l0, hs, hemp, hl⟩ := hinv
    have hndl0 : NodupKeys l0 := by
      rw [hs] at hnd
      simpa using hnd
    show schemaOut true (Store.mk ent (some l)) = some l
    show (if l.isEmpty = true then none else some (sortWith nodeLt l)) =
      some l
    have hlemp : ¬ l.isEmpty = true := by
      rw [hl]
      intro hc
      cases hcase : sortWith nodeLt l0 with
      | cons a as =>
        rw [hcase] at hc
        exact Bool.noConfusion hc
      | nil =>
        have hp := sortWith_perm nodeLt l0
        rw [hcase] at hp
        rw [← hp.nil_eq] at hemp
        exact hemp rfl
    rw [if_neg hlemp, hl, sortWith_eq_self_of_pairwise
      (fun a b => nodeLt_key a b)
      (sortWith_pairwise (fun a b => nodeLt_key a b) l0 hndl0)]

theorem replay_emit_eq {N E V : Type} (g : Graph N E V) (hwf : Wf g)
    (w : V → V) (G2 : Graph N E V)
    (hc1 : ∀ nm ∈ (marshalNodeMeta g true).map (fun nm =>
      ({ nm with entries := nm.entries.map (fun p => (p.1, w p.2)) } :
        NodeMetaOut V)),
      alookup G2.nodeMeta nm.id =
        some (recApply nm.entries nm.schema NewStore))
    (hc2 : ∀ x, (∀ nm ∈ (marshalNodeMeta g true).map (fun nm =>
      ({ nm with entries := nm.entries.map (fun p => (p.1, w p.2)) } :
        NodeMetaOut V)), nm.id ≠ x) →
      alookup G2.nodeMeta x = none) :
    ∀ n ∈ Graph.Nodes g, emitNodeMeta G2 true n =
      (emitNodeMeta g true n).map (fun nm =>
        { nm with entries := nm.entries.map (fun p => (p.1, w p.2)) }) := by
  intro n hn
  have hnodesnd := nodes_sorted_nodup g hwf
  cases ho : emitNodeMeta g true n with
  | none =>
    have hnone : ∀ nm ∈ (marshalNodeMeta g true).map (fun nm =>
        ({ nm with entries := nm.entries.map (fun p => (p.1, w p.2)) } :
          NodeMetaOut V)), nm.id ≠ n.1 := by
      intro nm hnm hc
      obtain ⟨nm0, hnm0, hwmap⟩ := List.mem_map.mp hnm
      have hnm0m : nm0 ∈ marshalNodeMeta g true := hnm0
      rw [marshalNodeMeta_emit] at hnm0m
      obtain ⟨b, hb, hfb⟩ := (mem_foldr_emit _ _ _).mp hnm0m
      have hid : nm0.id = b.1 := emitNodeMeta_id g true b nm0 hfb
      have hnmid : nm.id = nm0.id := by
        rw [← hwmap]
      have hb1 : b.1 = n.1 := by
        rw [← hid, ← hnmid, hc]
      have hbn : b = n := List.inj_on_of_nodup_map hnodesnd hb hn hb1
      rw [hbn, ho] at hfb
      exact Option.noConfusion hfb
    have hl := hc2 n.1 hnone
    unfold emitNodeMeta
    rw [hl]
    rfl
  | some r =>
    have hex : ∃ st, alookup g.nodeMeta n.1 = some st ∧ ¬ st.Len = 0 ∧
        r = ⟨n.1, sortWith nodeLt st.entries, schemaOut true st⟩ := by
      unfold emitNodeMeta at ho
      cases hl : alookup g.nodeMeta n.1 with
      | none =>
        rw [hl] at ho
        have ho2 : (none : Option (NodeMetaOut V)) = some r := ho
        exact Option.noConfusion ho2
      | some st =>
        rw [hl] at ho
        have ho2 : (if st.Len = 0 then none
            else some (⟨n.1, sortWith nodeLt st.entries,
              schemaOut true st⟩ : NodeMetaOut V)) = some r := ho
        by_cases hz : st.Len = 0
        · rw [if_pos hz] at ho2
          exact Option.noConfusion ho2
        · rw [if_neg hz] at ho2
          injection ho2 with ho2
          exact ⟨st, rfl, hz, ho2.symm⟩
    obtain ⟨st, hst, hz, hr⟩ := hex
    have hswf : StoreWf st := hwf.nodeMetaStores (n.1, st)
      (mem_of_alookup_eq_some _ _ _ hst)
    have hrm : r ∈ marshalNodeMeta g true := by
      rw [marshalNodeMeta_emit]
      exact (mem_foldr_emit _ _ _).mpr ⟨n, hn, ho⟩
    have hwrm : ({ r with entries := r.entries.map (fun p => (p.1, w p.2)) } : NodeMetaOut V) ∈
        (marshalNodeMeta g true).map (fun nm =>
          { nm with entries := nm.entries.map (fun p => (p.1, w p.2)) }) :=
      List.mem_map.mpr ⟨r, hrm, rfl⟩
    have hc := hc1 _ hwrm
    have hkeysnd : ((r.entries.map (fun p => (p.1, w p.2))).map
        Prod.fst).Nodup := by
      have hmm : (r.entries.map (fun p => (p.1, w p.2))).map Prod.fst =
          r.entries.map Prod.fst := by
        rw [List.map_map]
        rfl
      rw [hmm, hr]
      show ((sortWith nodeLt st.entries).map Prod.fst).Nodup
      exact ((sortWith_perm nodeLt st.entries).map Prod.fst).nodup_iff.mpr
        hswf.1
    rw [recApply_newStore _ _ hkeysnd] at hc
    have hrid : r.id = n.1 := by
      rw [hr]
    rw [hrid] at hc
    have hc2 : alookup G2.nodeMeta n.1 =
        some (Store.mk (r.entries.map (fun p => (p.1, w p.2)))
          r.schema) := hc
    have hlen : (Store.mk (r.entries.map (fun p => (p.1, w p.2)))
        r.schema).Len = st.entries.length := by
      show (r.entries.map (fun p => (p.1, w p.2))).length = _
      rw [List.length_map, hr]
      show (sortWith nodeLt st.entries).length = _
      exact (sortWith_perm nodeLt st.entries).length_eq
    have hz2 : ¬ (Store.mk (r.entries.map (fun p => (p.1, w p.2)))
        r.schema).Len = 0 := by
      rw [hlen]
      intro hc0
      exact hz hc0
    rw [emitNodeMeta_of_lookup G2 true n _ hc2 hz2]
    have hsorted : sortWith nodeLt (r.entries.map (fun p => (p.1, w p.2)))
        = r.entries.map (fun p => (p.1, w p.2)) := by
      refine sortWith_eq_self_of_pairwise (fun a b => nodeLt_key a b) ?_
      have hpw : (r.entries).Pairwise
          (fun a b : String × V => a.1 < b.1) := by
        rw [hr]
        exact sortWith_pairwise (fun a b => nodeLt_key a b) st.entries
          hswf.1
      exact hpw.map _ (fun a b hab => hab)
    have hrsch : r.schema = schemaOut true st := by
      rw [hr]
    have hsch : schemaOut true (Store.mk
        (r.entries.map (fun p => (p.1, w p.2))) r.schema) = r.schema := by
      rw [hrsch]
      exact schemaOut_stable st _ hswf.2
    show some (⟨n.1, sortWith nodeLt
        ((Store.mk (r.entries.map (fun p => (p.1, w p.2)))
          r.schema).entries),
        schemaOut true (Store.mk (r.entries.map (fun p => (p.1, w p.2)))
          r.schema)⟩ : NodeMetaOut V) =
      some { r with entries := r.entries.map (fun p => (p.1, w p.2)) }
    show some (⟨n.1, sortWith nodeLt
        (r.entries.map (fun p => (p.1, w p.2))),
        schemaOut true (Store.mk (r.entries.map (fun p => (p.1, w p.2)))
          r.schema)⟩ : NodeMetaOut V) =
      some { r with entries := r.entries.map (fun p => (p.1, w p.2)) }
    rw [hsorted, hsch, ← hrid]

theorem marshalEdgeMeta_elim (g : Graph N E V) (hwf : Wf g) (flag : Bool) :
    ∀ em ∈ marshalEdgeMeta g flag, ∃ st,
      alookup2 g.edgeMeta em.From em.To = some st ∧ st.Len > 0 ∧
      Graph.HasEdge g em.From em.To = true ∧
      em.entries = sortWith nodeLt st.entries ∧
      em.schema = schemaOut flag st := by
  intro em hem
  have hem2 : em ∈ (sortWith keyPairLt
      (((flat2 g.edgeMeta).filter (fun t => t.2.2.Len > 0)).map
        (fun t => (t.1, t.2.1)))).map (fun k =>
      (⟨k.1, k.2,
        sortWith nodeLt ((alookup2 g.edgeMeta k.1 k.2).getD
          NewStore).entries,
        schemaOut flag ((alookup2 g.edgeMeta k.1 k.2).getD NewStore)⟩ :
        EdgeMetaOut V)) := hem
  obtain ⟨k, hk, hkeq⟩ := List.mem_map.mp hem2
  have hk0 : k ∈ ((flat2 g.edgeMeta).filter
      (fun t => t.2.2.Len > 0)).map (fun t => (t.1, t.2.1)) :=
    (sortWith_perm _ _).subset hk
  obtain ⟨t, htf, hte⟩ := List.mem_map.mp hk0
  have htm := List.mem_filter.mp htf
  have hlen : t.2.2.Len > 0 := by simpa using htm.2
  have hlook : alookup2 g.edgeMeta t.1 t.2.1 = some t.2.2 :=
    alookup2_of_mem_flat2 hwf.edgeMetaNodup hwf.edgeMetaInnerNodup htm.1
  obtain ⟨row, hrow, hin⟩ := mem_flat2.mp htm.1
  have hhe : Graph.HasEdge g t.1 t.2.1 = true :=
    hwf.edgeMetaEdges (t.1, row) hrow (t.2.1, t.2.2) hin
  have hf : em.From = t.1 := by
    rw [← hkeq, ← hte]
  have hto : em.To = t.2.1 := by
    rw [← hkeq, ← hte]
  refine ⟨t.2.2, ?_, hlen, ?_, ?_, ?_⟩
  · rw [hf, hto]
    exact hlook
  · rw [hf, hto]
    exact hhe
  · rw [← hkeq]
    show sortWith nodeLt ((alookup2 g.edgeMeta k.1 k.2).getD
      NewStore).entries = sortWith nodeLt t.2.2.entries
    rw [← hte]
    show sortWith nodeLt ((alookup2 g.edgeMeta t.1 t.2.1).getD
      NewStore).entries = _
    rw [hlook]
    rfl
  · rw [← hkeq]
    show schemaOut flag ((alookup2 g.edgeMeta k.1 k.2).getD NewStore) =
      schemaOut flag t.2.2
    rw [← hte]
    show schemaOut flag ((alookup2 g.edgeMeta t.1 t.2.1).getD NewStore) = _
    rw [hlook]
    rfl

theorem edgeMetaReplay {N E V : Type} :
    ∀ (recs : List (EdgeMetaOut V)) (s : Graph N E V),
    (∀ em ∈ recs, Graph.HasEdge s em.From em.To = true) →
    (∀ em ∈ recs, alookup2 s.edgeMeta em.From em.To = none) →
    (s.Directed = false → ∀ em ∈ recs, ¬ em.From = em.To →
      alookup2 s.edgeMeta em.To em.From = none) →
    ((recs.map (fun em => ((em.From, em.To) : String × String))).Nodup) →
    (s.Directed = false → ∀ em1 ∈ recs, ∀ em2 ∈ recs,
      em2.From = em1.To → em2.To = em1.From → em1.From = em1.To) →
    NodupKeys s.edgeMeta →
    (∀ p ∈ s.edgeMeta, NodupKeys p.2) →
    ((recs.foldl applyEdgeMetaRec s).Directed = s.Directed ∧
     (recs.foldl applyEdgeMetaRec s).nodes = s.nodes ∧
     (recs.foldl applyEdgeMetaRec s).out = s.out ∧
     (recs.foldl applyEdgeMetaRec s).nodeMeta = s.nodeMeta ∧
     NodupKeys (recs.foldl applyEdgeMetaRec s).edgeMeta ∧
     (∀ p ∈ (recs.foldl applyEdgeMetaRec s).edgeMeta, NodupKeys p.2) ∧
     (∀ em ∈ recs, alookup2 (recs.foldl applyEdgeMetaRec s).edgeMeta
        em.From em.To = some (recApply em.entries em.schema NewStore)) ∧
     (∀ a b, (∀ em ∈ recs, ¬ (em.From = a ∧ em.To = b)) →
       alookup2 (recs.foldl applyEdgeMetaRec s).edgeMeta a b =
         alookup2 s.edgeMeta a b)) := by
  intro recs
  induction recs with
  | nil =>
    intro s _ _ _ _ _ h6 h7
    exact ⟨rfl, rfl, rfl, rfl, h6, h7,
      fun em hem => absurd hem (List.not_mem_nil em), fun a b _ => rfl⟩
  | cons em rest ih =>
    intro s hhas hfresh hfrev hknd hmir hnd hndi
    simp only [List.map_cons, List.nodup_cons] at hknd
    simp only [List.foldl_cons]
    have hh := hhas em (by simp)
    have hstep : applyEdgeMetaRec s em =
        { s with edgeMeta := aset2 s.edgeMeta em.From em.To (recApply em.entries em.schema NewStore) } := by
      unfold applyEdgeMetaRec
      rw [if_neg (not_not_intro hh)]
      unfold Graph.edgeMetaUpdate
      rw [if_neg (not_not_intro hh), hfresh em (by simp)]
      cases hdir : s.Directed with
      | true =>
        show (if (true : Bool) = false then _ else _) = _
        rw [if_neg (fun hc => Bool.noConfusion hc)]
      | false =>
        show (if (false : Bool) = false then _ else _) = _
        rw [if_pos rfl]
        by_cases hself : em.From = em.To
        · have h0 := hfresh em (by simp)
          rw [← hself] at h0
          rw [← hself, h0]
        · rw [hfrev hdir em (by simp) hself]
    rw [hstep]
    have hres := ih { s with edgeMeta := aset2 s.edgeMeta em.From em.To (recApply em.entries em.schema NewStore) }
      (fun em' hem' => hhas em' (List.mem_cons_of_mem _ hem'))
      (by
        intro em' hem'
        show alookup2 (aset2 s.edgeMeta em.From em.To
          (recApply em.entries em.schema NewStore)) em'.From em'.To = none
        rw [alookup2_aset2_ne _ _ _ _ _ _ (fun hc => hknd.1
          (List.mem_map.mpr ⟨em', hem', Prod.ext hc.1 hc.2⟩))]
        exact hfresh em' (List.mem_cons_of_mem _ hem'))
      (by
        intro hdir em' hem' hself
        show alookup2 (aset2 s.edgeMeta em.From em.To
          (recApply em.entries em.schema NewStore)) em'.To em'.From = none
        rw [alookup2_aset2_ne _ _ _ _ _ _ (fun hc => hself
          (hmir hdir em' (List.mem_cons_of_mem _ hem') em (by simp)
            hc.1.symm hc.2.symm))]
        exact hfrev hdir em' (List.mem_cons_of_mem _ hem') hself)
      hknd.2
      (fun hdir em1 h1 em2 h2 => hmir hdir em1
        (List.mem_cons_of_mem _ h1) em2 (List.mem_cons_of_mem _ h2))
      (aset2_outer_nodup _ _ _ _ hnd)
      (aset2_inner_nodup _ _ _ _ hndi)
    refine ⟨hres.1, hres.2.1, hres.2.2.1, hres.2.2.2.1,
      hres.2.2.2.2.1, hres.2.2.2.2.2.1, ?_, ?_⟩
    · intro em' hem'
      rcases List.mem_cons.mp hem' with heq | h2
      · rw [heq]
        rw [hres.2.2.2.2.2.2.2 em.From em.To (fun em2 hem2 hc =>
          hknd.1 (List.mem_map.mpr ⟨em2, hem2, Prod.ext hc.1 hc.2⟩))]
        rw [alookup2_aset2_same]
      · exact hres.2.2.2.2.2.2.1 em' h2
    · intro a b hab
      rw [hres.2.2.2.2.2.2.2 a b
        (fun em2 hem2 => hab em2 (List.mem_cons_of_mem _ hem2))]
      rw [alookup2_aset2_ne _ _ _ _ _ _
        (fun hc => hab em (by simp) ⟨hc.1.symm, hc.2.symm⟩)]

theorem edges_endpoint_keys (g : Graph N E V) (hwf : Wf g) :
    ∀ e ∈ (if g.Directed = false then (Graph.Edges g).map normEdge
      else Graph.Edges g),
      e.From ∈ akeys g.nodes ∧ e.To ∈ akeys g.nodes := by
  have hflat : ∀ t ∈ Graph.flatOut g, t.1 ∈ akeys g.nodes ∧
      t.2.1 ∈ akeys g.nodes := by
    intro t ht
    obtain ⟨row, hrow, hin⟩ := mem_flat2.mp ht
    refine ⟨hwf.outKeysNodes (t.1, row) hrow, ?_⟩
    have h2 := hwf.outInn (t.1, row) hrow (t.2.1, t.2.2) hin
    obtain ⟨irow, hirow, _⟩ := alookup2_eq_some_elim h2
    exact hwf.innKeysNodes (t.2.1, irow)
      (mem_of_alookup_eq_some _ _ _ hirow)
  intro e he
  cases hd : g.Directed with
  | true =>
    rw [hd, if_neg (fun hc => Bool.noConfusion hc)] at he
    rw [edges_directed_eq_map g hwf.toOutWf hd] at he
    obtain ⟨t, ht, hte⟩ := List.mem_map.mp he
    have hfc := flatOut_fc g hwf.toOutWf t ht
    have h := hflat t ht
    rw [← hte, hfc.1, hfc.2]
    exact h
  | false =>
    rw [hd, if_pos rfl] at he
    obtain ⟨e0, he0, hne⟩ := List.mem_map.mp he
    have hE : Graph.Edges g = edgesAux false (Graph.flatOut g) [] := by
      unfold Graph.Edges
      rw [hd]
    rw [hE] at he0
    obtain ⟨t, ht, hte⟩ := edgesAux_sound (Graph.flatOut g) [] e0 he0
    have hfc := flatOut_fc g hwf.toOutWf t ht
    have h := hflat t ht
    rw [← hne]
    by_cases hgt : e0.From > e0.To
    · rw [normEdge_of_gt e0 hgt]
      show e0.To ∈ akeys g.nodes ∧ e0.From ∈ akeys g.nodes
      constructor
      · rw [← hte, hfc.2]
        exact h.2
      · rw [← hte, hfc.1]
        exact h.1
    · rw [normEdge_of_le e0 (not_lt.mp hgt)]
      constructor
      · rw [← hte, hfc.1]
        exact h.1
      · rw [← hte, hfc.2]
        exact h.2

theorem edges_out_keys_nodup (g : Graph N E V) (hwf : Wf g) :
    ((if g.Directed = false then (Graph.Edges g).map normEdge
      else Graph.Edges g).map
      (fun e => ((e.From, e.To) : String × String))).Nodup := by
  cases hd : g.Directed with
  | true =>
    rw [if_neg (fun hc : (true : Bool) = false => Bool.noConfusion hc)]
    rw [edges_directed_eq_map g hwf.toOutWf hd, List.map_map]
    have heq : (Graph.flatOut g).map
        ((fun e : GEdge E => ((e.From, e.To) : String × String)) ∘
          (fun x => x.2.2)) =
        (Graph.flatOut g).map (fun x => (x.1, x.2.1)) := by
      refine List.map_congr_left ?_
      intro x hx
      have h := flatOut_fc g hwf.toOutWf x hx
      show ((x.2.2.From, x.2.2.To) : String × String) = (x.1, x.2.1)
      rw [h.1, h.2]
    rw [heq]
    exact flatOut_keys_nodup g hwf.toOutWf
  | false =>
    rw [if_pos (rfl : (false : Bool) = false)]
    exact edges_norm_keys_nodup g hwf.toOutWf hd

theorem edges_out_asc (g : Graph N E V) (hwf : Wf g)
    (hd : g.Directed = false) :
    ∀ e ∈ (Graph.Edges g).map normEdge, e.From ≤ e.To := by
  intro e he
  obtain ⟨e0, _, hne⟩ := List.mem_map.mp he
  rw [← hne]
  exact normEdge_asc e0

theorem unmarshal_sections {N E V : Type} (d : Bool)
    (ns : List (String × N)) (es : List (GEdge E))
    (nms : List (NodeMetaOut V)) (ems : List (EdgeMetaOut V))
    (g1 : Graph N E V)
    (hfold : es.foldlM
      (fun g e => Graph.AddEdge g e.From e.To e.Data e.Weight)
      (ns.foldl (fun g p => Graph.AddNode g p.1 p.2)
        (NewGraph N E V d)) = .ok g1) :
    unmarshalG (⟨1, d, some (ns, es), some (nms, ems)⟩ : SnapshotS N E V)
      = .ok (ems.foldl applyEdgeMetaRec
          (nms.foldl applyNodeMetaRec g1)) := by
  have h0 : unmarshalG
      (⟨1, d, some (ns, es), some (nms, ems)⟩ : SnapshotS N E V) =
      Except.bind (es.foldlM
        (fun g e => Graph.AddEdge g e.From e.To e.Data e.Weight)
        (ns.foldl (fun g p => Graph.AddNode g p.1 p.2)
          (NewGraph N E V d)))
        (fun g1 => Except.ok (ems.foldl applyEdgeMetaRec
          (nms.foldl applyNodeMetaRec g1))) := rfl
  rw [h0, hfold]
  rfl

theorem roundtrip_replay {N E V : Type} (g : Graph N E V) (hwf : Wf g) :
    ∃ g1, (sortWith edgeLt (if g.Directed = false then
        (Graph.Edges g).map normEdge else Graph.Edges g)).foldlM
        (fun gg e => Graph.AddEdge gg e.From e.To e.Data e.Weight)
        ((Graph.Nodes g).foldl (fun gg p => Graph.AddNode gg p.1 p.2)
          (NewGraph N E V g.Directed)) = .ok g1 ∧
      RInv g.Directed (sortWith edgeLt (if g.Directed = false then
        (Graph.Edges g).map normEdge else Graph.Edges g))
        (Graph.Nodes g) g1 ∧
      (∀ e ∈ sortWith edgeLt (if g.Directed = false then
        (Graph.Edges g).map normEdge else Graph.Edges g),
        (alookup2 g1.out e.From e.To).isSome = true) := by
  have hnodesnd := nodes_sorted_nodup g hwf
  have hnr := nodeReplay (Graph.Nodes g) (NewGraph N E V g.Directed)
    (fun p _ => rfl) hnodesnd (by simp [NewGraph, NodupKeys, akeys])
    (by simp [NewGraph, NodupKeys, akeys])
    (fun p hp => absurd hp (List.not_mem_nil p))
    (fun x => rfl)
  obtain ⟨gn, hgn⟩ : ∃ gn, (Graph.Nodes g).foldl
      (fun gg p => Graph.AddNode gg p.1 p.2)
      (NewGraph N E V g.Directed) = gn := ⟨_, rfl⟩
  rw [hgn] at hnr
  obtain ⟨hn_dir, hn_nm, hn_em, hn_nodes, hn_ndn, hn_ndo, hn_rows,
    hn_ok⟩ := hnr
  have hgn_nodes : gn.nodes = Graph.Nodes g :=
    hn_nodes.trans (List.nil_append _)
  have hinv0 : RInv g.Directed (sortWith edgeLt (if g.Directed = false
      then (Graph.Edges g).map normEdge else Graph.Edges g))
      (Graph.Nodes g) gn := by
    refine ⟨hn_dir, hgn_nodes, hn_nm, hn_em, hn_ndo, ?_, ?_, ?_, ?_,
      hn_ok⟩
    · intro p hp
      have hr : p.2 = [] := hn_rows p hp
      rw [hr]
      simp [NodupKeys, akeys]
    · intro p hp q hq
      have hr : p.2 = [] := hn_rows p hp
      rw [hr] at hq
      exact absurd hq (List.not_mem_nil q)
    · intro a b v hlook
      obtain ⟨row, hrowl, hinrow⟩ := alookup2_eq_some_elim hlook
      have hr : row = [] :=
        hn_rows (a, row) (mem_of_alookup_eq_some _ _ _ hrowl)
      rw [hr] at hinrow
      exact absurd (mem_of_alookup_eq_some _ _ _ hinrow)
        (List.not_mem_nil _)
    · intro _ a b hab
      cases hl : alookup2 gn.out a b with
      | none =>
        rw [hl] at hab
        exact Bool.noConfusion hab
      | some v =>
        obtain ⟨row, hrowl, hinrow⟩ := alookup2_eq_some_elim hl
        have hr : row = [] :=
          hn_rows (a, row) (mem_of_alookup_eq_some _ _ _ hrowl)
        rw [hr] at hinrow
        exact absurd (mem_of_alookup_eq_some _ _ _ hinrow)
          (List.not_mem_nil _)
  have hends : ∀ e ∈ sortWith edgeLt (if g.Directed = false then
      (Graph.Edges g).map normEdge else Graph.Edges g),
      (alookup (Graph.Nodes g) e.From).isSome = true ∧
      (alookup (Graph.Nodes g) e.To).isSome = true := by
    intro e he
    have he0 := (sortWith_perm edgeLt _).subset he
    have hkeys := edges_endpoint_keys g hwf e he0
    have hNSnd : NodupKeys (Graph.Nodes g) := hnodesnd
    have hNSl : ∀ x, alookup (Graph.Nodes g) x = alookup g.nodes x :=
      fun x => alookup_eq_of_perm hNSnd (sortWith_perm nodeLt g.nodes) x
    constructor
    · rw [hNSl]
      exact alookup_isSome_of_mem_akeys _ _ hkeys.1
    · rw [hNSl]
      exact alookup_isSome_of_mem_akeys _ _ hkeys.2
  obtain ⟨g1, hfold, hinv1, _, hcompl1⟩ :=
    rinv_fold g.Directed _ (Graph.Nodes g) hends _ gn
      (fun e he => he) hinv0
  rw [hgn]
  exact ⟨g1, hfold, hinv1, hcompl1⟩

theorem replay_edges_section {N E V : Type} (g s : Graph N E V)
    (hwf : Wf g)
    (hinv : RInv g.Directed (sortWith edgeLt (if g.Directed = false then
      (Graph.Edges g).map normEdge else Graph.Edges g))
      (Graph.Nodes g) s)
    (hcompl : ∀ e ∈ sortWith edgeLt (if g.Directed = false then
      (Graph.Edges g).map normEdge else Graph.Edges g),
      (alookup2 s.out e.From e.To).isSome = true) :
    sortWith edgeLt (if s.Directed = false then
      (Graph.Edges s).map normEdge else Graph.Edges s) =
    sortWith edgeLt (if g.Directed = false then
      (Graph.Edges g).map normEdge else Graph.Edges g) := by
  have hknd : ((sortWith edgeLt (if g.Directed = false then
      (Graph.Edges g).map normEdge else Graph.Edges g)).map
      (fun e => ((e.From, e.To) : String × String))).Nodup :=
    ((sortWith_perm edgeLt _).map _).nodup_iff.mpr
      (edges_out_keys_nodup g hwf)
  have hasc : g.Directed = false → ∀ e ∈ sortWith edgeLt
      (if g.Directed = false then (Graph.Edges g).map normEdge
       else Graph.Edges g), e.From ≤ e.To := by
    intro hd e he
    have he0 := (sortWith_perm edgeLt _).subset he
    rw [hd, if_pos rfl] at he0
    exact edges_out_asc g hwf hd e he0
  have hperm := replay_edges_perm g.Directed _ _ s hinv hcompl hknd hasc
  refine sortWith_eq_of_perm (fun a b => edgeLt_key a b)
    (hperm.trans (sortWith_perm edgeLt _)) ?_
  have h1 : ((if s.Directed = false then (Graph.Edges s).map normEdge
      else Graph.Edges s).map
      (fun e => ((e.From, e.To) : String × String))).Nodup :=
    (hperm.map _).nodup_iff.mpr hknd
  have h2 := h1.map (fun x y hxy => toLex.injective hxy)
  rw [List.map_map] at h2
  exact h2

theorem emFilter_keys_nodup (g : Graph N E V) (hwf : Wf g) :
    (((flat2 g.edgeMeta).filter (fun t => t.2.2.Len > 0)).map
      (fun t => (t.1, t.2.1))).Nodup :=
  ((List.filter_sublist _).map _).nodup
    (flat2_keys_nodup hwf.edgeMetaNodup hwf.edgeMetaInnerNodup)

theorem marshalEdgeMeta_keys (g : Graph N E V) (flag : Bool) :
    (marshalEdgeMeta g flag).map
      (fun em => ((em.From, em.To) : String × String)) =
    sortWith keyPairLt (((flat2 g.edgeMeta).filter
      (fun t => t.2.2.Len > 0)).map (fun t => (t.1, t.2.1))) := by
  show ((sortWith keyPairLt (((flat2 g.edgeMeta).filter
      (fun t => t.2.2.Len > 0)).map (fun t => (t.1, t.2.1)))).map
      (fun k => (⟨k.1, k.2,
        sortWith nodeLt ((alookup2 g.edgeMeta k.1 k.2).getD
          NewStore).entries,
        schemaOut flag ((alookup2 g.edgeMeta k.1 k.2).getD NewStore)⟩ :
        EdgeMetaOut V))).map
      (fun em => ((em.From, em.To) : String × String)) = _
  rw [List.map_map]
  have h1 : ((fun em : EdgeMetaOut V =>
      ((em.From, em.To) : String × String)) ∘
      (fun k : String × String => (⟨k.1, k.2,
        sortWith nodeLt ((alookup2 g.edgeMeta k.1 k.2).getD
          NewStore).entries,
        schemaOut flag ((alookup2 g.edgeMeta k.1 k.2).getD NewStore)⟩ :
        EdgeMetaOut V))) = id := funext (fun k => rfl)
  rw [h1, List.map_id]

theorem marshalEdgeMeta_mirror (g : Graph N E V) (hwf : Wf g)
    (flag : Bool) (hd : g.Directed = false) :
    ∀ em1 ∈ marshalEdgeMeta g flag, ∀ em2 ∈ marshalEdgeMeta g flag,
      em2.From = em1.To → em2.To = em1.From → em1.From = em1.To := by
  intro em1 h1 em2 h2 hf ht
  by_contra hne
  obtain ⟨st1, hl1, _, _, _, _⟩ := marshalEdgeMeta_elim g hwf flag em1 h1
  obtain ⟨st2, hl2, _, _, _, _⟩ := marshalEdgeMeta_elim g hwf flag em2 h2
  obtain ⟨row, hrow, hin⟩ := alookup2_eq_some_elim hl1
  have hundir := hwf.edgeMetaUndir hd (em1.From, row)
    (mem_of_alookup_eq_some _ _ _ hrow) (em1.To, st1)
    (mem_of_alookup_eq_some _ _ _ hin) hne
  rw [hf, ht] at hl2
  rw [hl2] at hundir
  exact Bool.noConfusion hundir

theorem replay_nodeMeta_section {N E V : Type} (g : Graph N E V)
    (hwf : Wf g) (w : V → V) (g3 : Graph N E V)
    (hb : Graph.Nodes g3 = Graph.Nodes g)
    (hc1 : ∀ nm ∈ (marshalNodeMeta g true).map (fun nm =>
      ({ nm with entries := nm.entries.map (fun p => (p.1, w p.2)) } :
        NodeMetaOut V)),
      alookup g3.nodeMeta nm.id =
        some (recApply nm.entries nm.schema NewStore))
    (hc2 : ∀ x, (∀ nm ∈ (marshalNodeMeta g true).map (fun nm =>
      ({ nm with entries := nm.entries.map (fun p => (p.1, w p.2)) } :
        NodeMetaOut V)), nm.id ≠ x) →
      alookup g3.nodeMeta x = none) :
    marshalNodeMeta g3 true = (marshalNodeMeta g true).map (fun nm =>
      { nm with entries := nm.entries.map (fun p => (p.1, w p.2)) }) := by
  rw [marshalNodeMeta_emit, hb]
  have hpoint := replay_emit_eq g hwf w g3 hc1 hc2
  rw [foldr_emit_congr (Graph.Nodes g)
    (fun n => emitNodeMeta g3 true n)
    (fun n => (emitNodeMeta g true n).map (fun nm =>
      { nm with entries := nm.entries.map (fun p => (p.1, w p.2)) }))
    hpoint]
  rw [← foldr_emit_map, ← marshalNodeMeta_emit]

theorem replay_edgeMeta_section {N E V : Type} (g : Graph N E V)
    (hwf : Wf g) (w : V → V) (g3 : Graph N E V)
    (h3nd : NodupKeys g3.edgeMeta)
    (h3ndi : ∀ p ∈ g3.edgeMeta, NodupKeys p.2)
    (h3content : ∀ em ∈ (marshalEdgeMeta g true).map (fun em =>
      ({ em with entries := em.entries.map (fun p => (p.1, w p.2)) } :
        EdgeMetaOut V)),
      alookup2 g3.edgeMeta em.From em.To =
        some (recApply em.entries em.schema NewStore))
    (h3frame : ∀ a b, (∀ em ∈ (marshalEdgeMeta g true).map (fun em =>
      ({ em with entries := em.entries.map (fun p => (p.1, w p.2)) } :
        EdgeMetaOut V)), ¬ (em.From = a ∧ em.To = b)) →
      alookup2 g3.edgeMeta a b = none) :
    marshalEdgeMeta g3 true = (marshalEdgeMeta g true).map (fun em =>
      { em with entries := em.entries.map (fun p => (p.1, w p.2)) }) := by
  have hstwf : ∀ em0 ∈ marshalEdgeMeta g true, ∃ st0,
      alookup2 g.edgeMeta em0.From em0.To = some st0 ∧ st0.Len > 0 ∧
      em0.entries = sortWith nodeLt st0.entries ∧
      em0.schema = schemaOut true st0 ∧ StoreWf st0 := by
    intro em0 h0
    obtain ⟨st0, hl, hlen, _, hent, hsch⟩ :=
      marshalEdgeMeta_elim g hwf true em0 h0
    obtain ⟨row, hrow, hin⟩ := alookup2_eq_some_elim hl
    exact ⟨st0, hl, hlen, hent, hsch,
      hwf.edgeMetaStores (em0.From, row)
        (mem_of_alookup_eq_some _ _ _ hrow) (em0.To, st0)
        (mem_of_alookup_eq_some _ _ _ hin)⟩
  have hcontent : ∀ em ∈ (marshalEdgeMeta g true).map (fun em =>
      ({ em with entries := em.entries.map (fun p => (p.1, w p.2)) } :
        EdgeMetaOut V)),
      alookup2 g3.edgeMeta em.From em.To =
        some (Store.mk em.entries em.schema) := by
    intro em hem
    obtain ⟨em0, h0, hwm⟩ := List.mem_map.mp hem
    obtain ⟨st0, _, _, hent, _, hswf⟩ := hstwf em0 h0
    have h1e : em.entries = em0.entries.map (fun p => (p.1, w p.2)) := by
      rw [← hwm]
    have hnd0 : (em.entries.map Prod.fst).Nodup := by
      rw [h1e]
      have h2 : (em0.entries.map (fun p => (p.1, w p.2))).map Prod.fst =
          em0.entries.map Prod.fst := by
        rw [List.map_map]
        rfl
      rw [h2, hent]
      exact ((sortWith_perm nodeLt st0.entries).map Prod.fst).nodup_iff.mpr
        hswf.1
    rw [h3content em hem, recApply_newStore _ _ hnd0]
  have hkeysE : ((marshalEdgeMeta g true).map (fun em =>
      ({ em with entries := em.entries.map (fun p => (p.1, w p.2)) } :
        EdgeMetaOut V))).map
      (fun em => ((em.From, em.To) : String × String)) =
      (marshalEdgeMeta g true).map
        (fun em => ((em.From, em.To) : String × String)) := by
    rw [List.map_map]
    rfl
  have hkey0 := marshalEdgeMeta_keys g true
  have hkeys0nd := emFilter_keys_nodup g hwf
  have hkeys0lex : ((((flat2 g.edgeMeta).filter
      (fun t => t.2.2.Len > 0)).map (fun t => (t.1, t.2.1))).map
      toLex).Nodup :=
    hkeys0nd.map (fun x y hxy => toLex.injective hxy)
  have hEMSWnd : (((marshalEdgeMeta g true).map (fun em =>
      ({ em with entries := em.entries.map (fun p => (p.1, w p.2)) } :
        EdgeMetaOut V))).map
      (fun em => ((em.From, em.To) : String × String))).Nodup := by
    rw [hkeysE, hkey0]
    exact (sortWith_perm keyPairLt _).nodup_iff.mpr hkeys0nd
  have hiff : ∀ ka kb, ((ka, kb) ∈ ((marshalEdgeMeta g true).map
      (fun em =>
        ({ em with entries := em.entries.map (fun p => (p.1, w p.2)) } :
          EdgeMetaOut V))).map
      (fun em => ((em.From, em.To) : String × String)) ↔
      ∃ st, alookup2 g3.edgeMeta ka kb = some st ∧ st.Len > 0) := by
    intro ka kb
    constructor
    · intro hk
      obtain ⟨em, hem, hkeq⟩ := List.mem_map.mp hk
      injection hkeq with h1 h2
      refine ⟨Store.mk em.entries em.schema, ?_, ?_⟩
      · rw [← h1, ← h2]
        exact hcontent em hem
      · show em.entries.length > 0
        obtain ⟨em0, h0, hwm⟩ := List.mem_map.mp hem
        obtain ⟨st0, _, hlen0, hent, _, _⟩ := hstwf em0 h0
        have h1e : em.entries = em0.entries.map (fun p => (p.1, w p.2)) := by
          rw [← hwm]
        rw [h1e, List.length_map, hent,
          (sortWith_perm nodeLt st0.entries).length_eq]
        exact hlen0
    · intro hst
      obtain ⟨st, hl, hlen⟩ := hst
      by_cases hex : ∃ em ∈ (marshalEdgeMeta g true).map (fun em =>
          ({ em with entries := em.entries.map (fun p => (p.1, w p.2)) } : EdgeMetaOut V)),
          em.From = ka ∧ em.To = kb
      · obtain ⟨em, hem, hf, ht⟩ := hex
        exact List.mem_map.mpr ⟨em, hem, by rw [hf, ht]⟩
      · exfalso
        have hnone := h3frame ka kb (fun em hem hc => hex ⟨em, hem, hc⟩)
        rw [hnone] at hl
        exact Option.noConfusion hl
  have hkeysG3_nodup : (((flat2 g3.edgeMeta).filter
      (fun t => t.2.2.Len > 0)).map (fun t => (t.1, t.2.1))).Nodup :=
    ((List.filter_sublist _).map _).nodup (flat2_keys_nodup h3nd h3ndi)
  have hperm : (((flat2 g3.edgeMeta).filter
      (fun t => t.2.2.Len > 0)).map (fun t => (t.1, t.2.1))).Perm
      (((marshalEdgeMeta g true).map (fun em =>
        ({ em with entries := em.entries.map (fun p => (p.1, w p.2)) } : EdgeMetaOut V))).map
        (fun em => ((em.From, em.To) : String × String))) := by
    refine (List.perm_ext_iff_of_nodup hkeysG3_nodup hEMSWnd).mpr ?_
    intro k
    obtain ⟨ka, kb⟩ := k
    rw [hiff ka kb]
    constructor
    · intro hk
      obtain ⟨t, htf, hte⟩ := List.mem_map.mp hk
      have htm := List.mem_filter.mp htf
      have hlen : t.2.2.Len > 0 := by simpa using htm.2
      have hl := alookup2_of_mem_flat2 h3nd h3ndi htm.1
      injection hte with h1 h2
      refine ⟨t.2.2, ?_, hlen⟩
      rw [← h1, ← h2]
      exact hl
    · intro hst
      obtain ⟨st, hl, hlen⟩ := hst
      refine List.mem_map.mpr ⟨(ka, kb, st), List.mem_filter.mpr
        ⟨mem_flat2_of_alookup2 hl, by simpa using hlen⟩, rfl⟩
  rw [hkeysE, hkey0] at hperm
  have hsorted_eq : sortWith keyPairLt (((flat2 g3.edgeMeta).filter
      (fun t => t.2.2.Len > 0)).map (fun t => (t.1, t.2.1))) =
      ((marshalEdgeMeta g true).map (fun em =>
        ({ em with entries := em.entries.map (fun p => (p.1, w p.2)) } : EdgeMetaOut V))).map
        (fun em => ((em.From, em.To) : String × String)) := by
    rw [hkeysE, hkey0]
    refine (sortWith_eq_of_perm (fun a b => keyPairLt_key a b) hperm
      ?_).trans ?_
    · exact hkeysG3_nodup.map (fun x y hxy => toLex.injective hxy)
    · exact sortWith_eq_self_of_pairwise (fun a b => keyPairLt_key a b)
        (sortWith_pairwise (fun a b => keyPairLt_key a b) _ hkeys0lex)
  show (sortWith keyPairLt (((flat2 g3.edgeMeta).filter
      (fun t => t.2.2.Len > 0)).map (fun t => (t.1, t.2.1)))).map
      (fun k => (⟨k.1, k.2,
        sortWith nodeLt ((alookup2 g3.edgeMeta k.1 k.2).getD
          NewStore).entries,
        schemaOut true ((alookup2 g3.edgeMeta k.1 k.2).getD NewStore)⟩ :
        EdgeMetaOut V)) =
    (marshalEdgeMeta g true).map (fun em =>
      { em with entries := em.entries.map (fun p => (p.1, w p.2)) })
  rw [hsorted_eq, List.map_map]
  refine (List.map_congr_left ?_).trans (List.map_id _)
  intro em hem
  show (⟨em.From, em.To,
    sortWith nodeLt ((alookup2 g3.edgeMeta em.From em.To).getD
      NewStore).entries,
    schemaOut true ((alookup2 g3.edgeMeta em.From em.To).getD
      NewStore)⟩ : EdgeMetaOut V) = em
  rw [hcontent em hem]
  show (⟨em.From, em.To, sortWith nodeLt em.entries,
    schemaOut true (Store.mk em.entries em.schema)⟩ :
    EdgeMetaOut V) = em
  obtain ⟨em0, h0, hwm⟩ := List.mem_map.mp hem
  obtain ⟨st0, _, _, hent, hsch, hswf⟩ := hstwf em0 h0
  have h1e : em.entries = em0.entries.map (fun p => (p.1, w p.2)) := by
    rw [← hwm]
  have h1s : em.schema = em0.schema := by
    rw [← hwm]
  have hsorted : sortWith nodeLt em.entries = em.entries := by
    refine sortWith_eq_self_of_pairwise (fun a b => nodeLt_key a b) ?_
    rw [h1e]
    have hpw : em0.entries.Pairwise
        (fun a b : String × V => a.1 < b.1) := by
      rw [hent]
      exact sortWith_pairwise (fun a b => nodeLt_key a b) st0.entries
        hswf.1
    exact hpw.map _ (fun a b hab => hab)
  have hschOK : schemaOut true (Store.mk em.entries em.schema) =
      em.schema := by
    rw [h1s, hsch]
    exact schemaOut_stable st0 _ hswf.2
  rw [hsorted, hschOK]

/-- C3: for every graph whose node, edge, and metadata payloads are
JSON-representable (`V = Jval`), the snapshot is a fixed point of
encode-then-decode: `Marshal (Unmarshal (bytes (Marshal g)))` equals
`bytes (Marshal g)`, where `widenSnapshot` is the effect of the byte
round trip (JSON re-decoding widens integer metadata values to
floats); topology — node IDs, edge endpoints, weights, directedness —
and metadata keys and schemas round-trip exactly. -/
theorem marshal_roundtrip {N E : Type} (g : Graph N E Jval)
    (hwf : Wf g) :
    ∃ g', unmarshalG (widenSnapshot (marshalG g none)) = .ok g' ∧
      marshalG g' none = widenSnapshot (marshalG g none) := by
  have hws : widenSnapshot (marshalG g none) =
      (⟨1, g.Directed, some (Graph.Nodes g, sortWith edgeLt
        (if g.Directed = false then (Graph.Edges g).map normEdge
         else Graph.Edges g)),
        some ((marshalNodeMeta g true).map (fun nm =>
          { nm with entries := nm.entries.map (fun p => (p.1, p.2.widen)) }),
          (marshalEdgeMeta g true).map (fun em =>
          { em with entries := em.entries.map (fun p => (p.1, p.2.widen)) }))⟩ : SnapshotS N E Jval) := rfl
  obtain ⟨g1, hfold, hinv1, hcompl1⟩ := roundtrip_replay g hwf
  have hnodesnd := nodes_sorted_nodup g hwf
  have hNSnd : NodupKeys (Graph.Nodes g) := hnodesnd
  have hdir1 : g1.Directed = g.Directed := hinv1.dir
  have hnodes1 : g1.nodes = Graph.Nodes g := hinv1.nodes
  have hes : (if g.Directed = false then (Graph.Edges g).map normEdge
      else Graph.Edges g).Perm (sortWith edgeLt
      (if g.Directed = false then (Graph.Edges g).map normEdge
       else Graph.Edges g)) := (sortWith_perm edgeLt _).symm
  have hHE : ∀ a b, Graph.HasEdge g a b = true →
      Graph.HasEdge g1 a b = true := by
    intro a b hab
    have hab2 : (alookup2 g.out a b).isSome = true := hab
    cases hl : alookup2 g.out a b with
    | none =>
      rw [hl] at hab2
      exact Bool.noConfusion hab2
    | some e =>
      exact replay_hasEdge_of_mem g.Directed _ _ g1 hinv1 hcompl1 a b
        (edge_in_es g hwf _ hes a b e hl)
  have hids_sub : ((marshalNodeMeta g true).map NodeMetaOut.id).Sublist
      ((Graph.Nodes g).map Prod.fst) := by
    rw [marshalNodeMeta_emit]
    exact foldr_emit_ids _ _ _ _
      (fun b hb r hr => emitNodeMeta_id g true b r hr)
  have hids_nodup : ((marshalNodeMeta g true).map NodeMetaOut.id).Nodup :=
    hids_sub.nodup hnodesnd
  have hwids : (((marshalNodeMeta g true).map (fun nm =>
      { nm with entries := nm.entries.map (fun p => (p.1, p.2.widen)) })).map NodeMetaOut.id) =
      (marshalNodeMeta g true).map NodeMetaOut.id := by
    rw [List.map_map]
    rfl
  have hmemNMS : ∀ nm0 ∈ marshalNodeMeta g true,
      ∃ b ∈ Graph.Nodes g, emitNodeMeta g true b = some nm0 := by
    intro nm0 h0
    rw [marshalNodeMeta_emit] at h0
    exact (mem_foldr_emit _ _ _).mp h0
  have hhasN : ∀ nm ∈ (marshalNodeMeta g true).map (fun nm =>
      ({ nm with entries := nm.entries.map (fun p => (p.1, p.2.widen)) } : NodeMetaOut Jval)),
      Graph.HasNode g1 nm.id = true := by
    intro nm hnm
    obtain ⟨nm0, h0, hwm⟩ := List.mem_map.mp hnm
    obtain ⟨b, hb, hfb⟩ := hmemNMS nm0 h0
    have hid : nm.id = b.1 := by
      rw [← hwm]
      show nm0.id = b.1
      exact emitNodeMeta_id g true b nm0 hfb
    show (alookup g1.nodes nm.id).isSome = true
    rw [hnodes1, hid, alookup_eq_some_of_mem _ _ _ hNSnd hb]
    rfl
  have hnmr := nodeMetaReplay ((marshalNodeMeta g true).map (fun nm =>
      { nm with entries := nm.entries.map (fun p => (p.1, p.2.widen)) })) g1 hhasN
    (by rw [hwids]; exact hids_nodup)
    (fun nm _ => by rw [hinv1.nm]; rfl)
    (by rw [hinv1.nm]; simp [NodupKeys, akeys])
  obtain ⟨g2, hg2⟩ : ∃ g2, ((marshalNodeMeta g true).map (fun nm =>
      { nm with entries := nm.entries.map (fun p => (p.1, p.2.widen)) })).foldl applyNodeMetaRec g1 = g2 :=
    ⟨_, rfl⟩
  rw [hg2] at hnmr
  obtain ⟨h2dir, h2nodes, h2out, h2em, h2ndnm, h2content, h2frame⟩ := hnmr
  have hhasE : ∀ em ∈ (marshalEdgeMeta g true).map (fun em =>
      ({ em with entries := em.entries.map (fun p => (p.1, p.2.widen)) } : EdgeMetaOut Jval)),
      Graph.HasEdge g2 em.From em.To = true := by
    intro em hem
    obtain ⟨em0, h0, hwm⟩ := List.mem_map.mp hem
    obtain ⟨st0, _, _, hhe0, _, _⟩ := marshalEdgeMeta_elim g hwf true em0 h0
    have hf : em.From = em0.From := by
      rw [← hwm]
    have ht : em.To = em0.To := by
      rw [← hwm]
    show (alookup2 g2.out em.From em.To).isSome = true
    rw [h2out, hf, ht]
    exact hHE em0.From em0.To hhe0
  have hkeysE : (((marshalEdgeMeta g true).map (fun em =>
      ({ em with entries := em.entries.map (fun p => (p.1, p.2.widen)) } :
        EdgeMetaOut Jval))).map
      (fun em => ((em.From, em.To) : String × String))) =
      (marshalEdgeMeta g true).map
        (fun em => ((em.From, em.To) : String × String)) := by
    rw [List.map_map]
    rfl
  have hkeysE_nodup : (((marshalEdgeMeta g true).map (fun em =>
      ({ em with entries := em.entries.map (fun p => (p.1, p.2.widen)) } :
        EdgeMetaOut Jval))).map
      (fun em => ((em.From, em.To) : String × String))).Nodup := by
    rw [hkeysE, marshalEdgeMeta_keys]
    exact (sortWith_perm keyPairLt _).nodup_iff.mpr
      (emFilter_keys_nodup g hwf)
  have hmirE : g2.Directed = false →
      ∀ em1 ∈ (marshalEdgeMeta g true).map (fun em =>
        ({ em with entries := em.entries.map (fun p => (p.1, p.2.widen)) } : EdgeMetaOut Jval)),
      ∀ em2 ∈ (marshalEdgeMeta g true).map (fun em =>
        ({ em with entries := em.entries.map (fun p => (p.1, p.2.widen)) } : EdgeMetaOut Jval)),
      em2.From = em1.To → em2.To = em1.From → em1.From = em1.To := by
    intro hdir em1 h1 em2 h2 hf ht
    have hdg : g.Directed = false := by
      rw [← hdir1, ← h2dir]
      exact hdir
    obtain ⟨e1, he1, hw1⟩ := List.mem_map.mp h1
    obtain ⟨e2, he2, hw2⟩ := List.mem_map.mp h2
    have hf1 : em1.From = e1.From := by
      rw [← hw1]
    have ht1 : em1.To = e1.To := by
      rw [← hw1]
    have hf2 : em2.From = e2.From := by
      rw [← hw2]
    have ht2 : em2.To = e2.To := by
      rw [← hw2]
    rw [hf1, ht1]
    refine marshalEdgeMeta_mirror g hwf true hdg e1 he1 e2 he2 ?_ ?_
    · rw [← hf2, ← ht1]
      exact hf
    · rw [← ht2, ← hf1]
      exact ht
  have hemr := edgeMetaReplay ((marshalEdgeMeta g true).map (fun em =>
      { em with entries := em.entries.map (fun p => (p.1, p.2.widen)) })) g2 hhasE
    (fun em _ => by rw [h2em, hinv1.em]; rfl)
    (fun _ em _ _ => by rw [h2em, hinv1.em]; rfl)
    hkeysE_nodup hmirE
    (by rw [h2em, hinv1.em]; simp [NodupKeys, akeys])
    (by rw [h2em, hinv1.em]; exact fun p hp => absurd hp (List.not_mem_nil p))
  obtain ⟨g3, hg3⟩ : ∃ g3, ((marshalEdgeMeta g true).map (fun em =>
      { em with entries := em.entries.map (fun p => (p.1, p.2.widen)) })).foldl applyEdgeMetaRec g2 = g3 :=
    ⟨_, rfl⟩
  rw [hg3] at hemr
  obtain ⟨h3dir, h3nodes, h3out, h3nm, h3nd, h3ndi, h3content,
    h3frame⟩ := hemr
  have hfin_dir : g3.Directed = g.Directed := by
    rw [h3dir, h2dir, hdir1]
  have hfin_nodes : g3.nodes = Graph.Nodes g := by
    rw [h3nodes, h2nodes, hnodes1]
  have hb : Graph.Nodes g3 = Graph.Nodes g := by
    show sortWith nodeLt g3.nodes = Graph.Nodes g
    rw [hfin_nodes]
    show sortWith nodeLt (sortWith nodeLt g.nodes) =
      sortWith nodeLt g.nodes
    exact sortWith_eq_self_of_pairwise (fun a b => nodeLt_key a b)
      (sortWith_pairwise (fun a b => nodeLt_key a b) g.nodes
        hwf.nodesNodup)
  have hEdges_eq : Graph.Edges g3 = Graph.Edges g1 := by
    unfold Graph.Edges Graph.flatOut
    rw [h3out, h2out, h3dir, h2dir]
  have hc : sortWith edgeLt (if g3.Directed = false then
      (Graph.Edges g3).map normEdge else Graph.Edges g3) =
      sortWith edgeLt (if g.Directed = false then
      (Graph.Edges g).map normEdge else Graph.Edges g) := by
    have h1 : (if g3.Directed = false then
        (Graph.Edges g3).map normEdge else Graph.Edges g3) =
        (if g1.Directed = false then
        (Graph.Edges g1).map normEdge else Graph.Edges g1) := by
      rw [hEdges_eq, h3dir, h2dir]
    rw [h1]
    exact replay_edges_section g g1 hwf hinv1 hcompl1
  have hdsec := replay_nodeMeta_section g hwf Jval.widen g3 hb
    (by
      intro nm hnm
      rw [h3nm]
      exact h2content nm hnm)
    (by
      intro x hx
      rw [h3nm, h2frame x hx, hinv1.nm]
      rfl)
  have hesec := replay_edgeMeta_section g hwf Jval.widen g3 h3nd h3ndi
    h3content
    (by
      intro a b hab
      rw [h3frame a b hab, h2em, hinv1.em]
      rfl)
  refine ⟨g3, ?_, ?_⟩
  · rw [hws, unmarshal_sections g.Directed (Graph.Nodes g)
      (sortWith edgeLt (if g.Directed = false then
        (Graph.Edges g).map normEdge else Graph.Edges g))
      ((marshalNodeMeta g true).map (fun nm =>
        { nm with entries := nm.entries.map (fun p => (p.1, p.2.widen)) }))
      ((marshalEdgeMeta g true).map (fun em =>
        { em with entries := em.entries.map (fun p => (p.1, p.2.widen)) })) g1 hfold, hg2, hg3]
  · rw [hws]
    show (⟨1, g3.Directed, some (Graph.Nodes g3, sortWith edgeLt
      (if g3.Directed = false then (Graph.Edges g3).map normEdge
       else Graph.Edges g3)),
      some (marshalNodeMeta g3 true, marshalEdgeMeta g3 true)⟩ :
      SnapshotS N E Jval) =
      ⟨1, g.Directed, some (Graph.Nodes g, sortWith edgeLt
        (if g.Directed = false then (Graph.Edges g).map normEdge
         else Graph.Edges g)),
        some ((marshalNodeMeta g true).map (fun nm =>
          { nm with entries := nm.entries.map (fun p => (p.1, p.2.widen)) }),
          (marshalEdgeMeta g true).map (fun em =>
          { em with entries := em.entries.map (fun p => (p.1, p.2.widen)) }))⟩
    rw [hc, hfin_dir, hb, hdsec, hesec]

/-- A concrete well-formed graph exercising the round trip: a directed
edge `a → b` with integer node metadata (`jint` values are the ones the
byte round trip widens to floats) and edge metadata. -/
def c3g : Graph Int Int Jval :=
  ⟨true,
   [("a", 0), ("b", 0)],
   [("a", [("b", ⟨"a", "b", 5, 1⟩)]), ("b", [])],
   [("a", []), ("b", [("a", ⟨"a", "b", 5, 1⟩)])],
   [("a", ⟨[("k", Jval.jint 2)], none⟩)],
   [("a", [("b", ⟨[("w", Jval.jint 3)], none⟩)])]⟩

theorem marshal_roundtrip_witness :
    Wf c3g ∧
    (∃ g', unmarshalG (widenSnapshot (marshalG c3g none)) = .ok g' ∧
      marshalG g' none = widenSnapshot (marshalG c3g none)) :=
  ⟨by decide, marshal_roundtrip c3g (by decide)⟩

end Spine
